import Mathlib

/-!
# Flow: a dataflow engine — verification of the port and engine primitives

Shallow embedding of `include/flow/signal.h` and `src/engine.cpp`.

* Ports: an `Output<T>` keeps a registry of connected inputs; the effect of
  calling the (virtual) `Input<T>::write` of a connected input is recorded as
  a `WriteCall` appended to a call log, so that the number, the order and the
  arguments of the calls can be stated.
* Mutex-protected member functions are atomic transitions of the object state.
* `std::atomic` variables are sequentially consistent: threads are modelled by
  program counters and an execution is an interleaving of atomic steps.
* `double` is IEEE 754 binary64 (`F64`): finite values are rationals on the
  binary64 grid, `+` rounds the exact sum to nearest, ties to even.

Definitions come first, theorems afterwards.
-/

namespace Flow

/-! ## Port substrate: `Output<T>`, `DirectOutput<T>`, `TimedOutput<T>`, `connect` -/

/-- Identity of an input port: the pointer stored in `Output::inputs`. -/
abbrev InputId := Nat

/-- One invocation `inputs[i]->write(value)` of a connected input. -/
structure WriteCall (T : Type) where
  input : InputId
  value : T
deriving DecidableEq, Repr

/-- The members of `Output<T>`: `std::vector<Input<T>*> inputs` (the mutex
`inputs_mutex` makes `add_input` and `write_value` atomic). -/
structure Output where
  inputs : List InputId
deriving DecidableEq, Repr

/-- A freshly constructed output: the vector `inputs` is empty. -/
def Output.empty : Output := { inputs := [] }

/-- `Output::add_input`: `inputs.push_back(&input)`. -/
def Output.add_input (out : Output) (input : InputId) : Output :=
  { inputs := out.inputs ++ [input] }

/-- `connect(out, in)`: `out.add_input(in)`. -/
def connect (out : Output) (input : InputId) : Output :=
  out.add_input input

/-- The loop `for (int i = 0; i < inputs.size(); i++) inputs[i]->write(value);`
of `Output::write_value`, started at index `i`; `fuel` bounds the number of
iterations (the caller passes `inputs.size()`). The index is an unbounded
natural number: a registry has fewer than `2^31` entries. -/
def Output.write_value_loop {T : Type} (inputs : List InputId) (value : T) :
    Nat → Nat → List (WriteCall T) → List (WriteCall T)
  | 0, _, calls => calls
  | fuel + 1, i, calls =>
    match inputs.get? i with
    | some input =>
      Output.write_value_loop inputs value fuel (i + 1) (calls ++ [{ input := input, value := value }])
    | none => calls

/-- `Output::write_value`: under `inputs_mutex`, call `write(value)` of every
registered input, by increasing index. Returns the output object (which the
function does not modify) and the extended call log. -/
def Output.write_value {T : Type} (out : Output) (value : T)
    (calls : List (WriteCall T)) : Output × List (WriteCall T) :=
  (out, Output.write_value_loop out.inputs value out.inputs.length 0 calls)

/-- `DirectOutput::write`: `this->write_value(value)`. -/
def DirectOutput.write {T : Type} (out : Output) (value : T)
    (calls : List (WriteCall T)) : Output × List (WriteCall T) :=
  out.write_value value calls

/-- The members of `TimedOutput<T>`: the `Output<T>` base and the slot
`std::optional<T> value` (both member functions hold `mutex`). -/
structure TimedOutput (T : Type) where
  base : Output
  value : Option T

/-- A freshly constructed `TimedOutput`: empty registry, empty slot. -/
def TimedOutput.empty {T : Type} : TimedOutput T :=
  { base := Output.empty, value := none }

/-- `connect(out, in)` on a `TimedOutput` (it is an `Output<T>`). -/
def TimedOutput.connect {T : Type} (out : TimedOutput T) (input : InputId) : TimedOutput T :=
  { out with base := Flow.connect out.base input }

/-- `TimedOutput::write`: `this->value = value;` and nothing else. -/
def TimedOutput.write {T : Type} (out : TimedOutput T) (value : T)
    (calls : List (WriteCall T)) : TimedOutput T × List (WriteCall T) :=
  ({ out with value := some value }, calls)

/-- `TimedOutput::write_callback`, the timer callback:
`if (!value.has_value()) return; this->write_value(value.value());`. -/
def TimedOutput.write_callback {T : Type} (out : TimedOutput T)
    (calls : List (WriteCall T)) : TimedOutput T × List (WriteCall T) :=
  match out.value with
  | none => (out, calls)
  | some v => ({ out with base := (out.base.write_value v calls).1 }, (out.base.write_value v calls).2)

/-- A sequence of `TimedOutput::write` calls, oldest first. -/
def TimedOutput.writes {T : Type} (out : TimedOutput T) (values : List T)
    (calls : List (WriteCall T)) : TimedOutput T × List (WriteCall T) :=
  values.foldl (fun st v => TimedOutput.write st.1 v st.2) (out, calls)

/-- A `TimedOutput` after the `connect` calls `ins`, in that order. -/
def TimedOutput.connected {T : Type} (ins : List InputId) : TimedOutput T :=
  ins.foldl TimedOutput.connect TimedOutput.empty

/-- The calls a step appended to a call log that had `before` entries. -/
def newCalls {T : Type} (before : List (WriteCall T)) (after : List (WriteCall T)) :
    List (WriteCall T) :=
  after.drop before.length

/-! ## Engine: time, timer records, the deferred-callback queue -/

/-- `struct TimePoint { double time; int64_t timestamp; double rate; }`.
The number type `τ` of `time` and `rate` is a parameter (the source uses
`double`); the timer code only compares and adds such numbers. -/
structure TimePoint (τ : Type) where
  time : τ
  timestamp : Int
  rate : τ
deriving DecidableEq, Repr

/-- `struct TimerCallback { double period; double next_time; timer_callback_t
callback; }`; the registered `std::function` is represented by an identifier. -/
structure TimerCallback (τ : Type) where
  period : τ
  next_time : τ
  callback : Nat
deriving DecidableEq, Repr

/-- An element of `callback_queue`. The timing thread pushes the closure
`[new_time, &callback]() { callback.callback(new_time); }`: it holds the
sampled `TimePoint` by value and refers to the timer record, identified here by
its index in `timer_callbacks`. Every other pushed callback is a `task`. -/
inductive Deferred (τ : Type) where
  | timer (record : Nat) (new_time : TimePoint τ)
  | task (id : Nat)
deriving DecidableEq, Repr

/-- Whether a deferred callback is a dispatch of the timer record `i`. -/
def Deferred.isTimer {τ : Type} (i : Nat) : Deferred τ → Bool
  | .timer record _ => record == i
  | .task _ => false

/-- The index of the timer record a deferred callback refers to, if any. -/
def Deferred.record? {τ : Type} : Deferred τ → Option Nat
  | .timer record _ => some record
  | .task _ => none

/-- The part of `Engine` used by the timing thread: `time`,
`timer_callbacks` and `callback_queue` (front of the queue first). -/
structure Engine (τ : Type) where
  time : TimePoint τ
  timer_callbacks : List (TimerCallback τ)
  callback_queue : List (Deferred τ)

/-- `Engine::push_callback`: `callback_queue.push(callback)`. -/
def Engine.push_callback {τ : Type} (e : Engine τ) (callback : Deferred τ) : Engine τ :=
  { e with callback_queue := e.callback_queue ++ [callback] }

/-- `Engine::create_timer_callback(period, callback)`: a record with
`next_time = 0` is appended to `timer_callbacks`. -/
def Engine.create_timer_callback {τ : Type} [Zero τ] (e : Engine τ) (period : τ)
    (callback : Nat) : Engine τ :=
  { e with timer_callbacks :=
      e.timer_callbacks ++ [{ period := period, next_time := 0, callback := callback }] }

/-- The loop `for (auto& callback: timer_callbacks)` of the timing thread, over
the records from index `i` on: a record with `next_time < new_time.time` gets
its closure pushed on the queue and then `next_time += period`. Returns the
updated records and the queue. -/
def Engine.dispatch_timers {τ : Type} [LT τ] [DecidableRel (fun (a b : τ) => a < b)] [Add τ]
    (new_time : TimePoint τ) :
    List (TimerCallback τ) → Nat → List (Deferred τ) → List (TimerCallback τ) × List (Deferred τ)
  | [], _, queue => ([], queue)
  | callback :: rest, i, queue =>
    if callback.next_time < new_time.time then
      let r := Engine.dispatch_timers new_time rest (i + 1) (queue ++ [Deferred.timer i new_time])
      ({ callback with next_time := callback.next_time + callback.period } :: r.1, r.2)
    else
      let r := Engine.dispatch_timers new_time rest (i + 1) queue
      (callback :: r.1, r.2)

/-- One iteration of the timing thread's `while (running && init_valid)` body
with the sampled `new_time`: publish `time = new_time`, then the timer loop. -/
def Engine.sampling_pass {τ : Type} [LT τ] [DecidableRel (fun (a b : τ) => a < b)] [Add τ]
    (e : Engine τ) (new_time : TimePoint τ) : Engine τ :=
  { time := new_time
    timer_callbacks := (Engine.dispatch_timers new_time e.timer_callbacks 0 e.callback_queue).1
    callback_queue := (Engine.dispatch_timers new_time e.timer_callbacks 0 e.callback_queue).2 }

/-- Successive iterations of the timing thread, one per sampled time. -/
def Engine.sampling_passes {τ : Type} [LT τ] [DecidableRel (fun (a b : τ) => a < b)] [Add τ]
    (e : Engine τ) (samples : List (TimePoint τ)) : Engine τ :=
  samples.foldl Engine.sampling_pass e

/-- The deferred callbacks a step appended to a queue that held `before`. -/
def newDeferred {τ : Type} (before : List (Deferred τ)) (after : List (Deferred τ)) :
    List (Deferred τ) :=
  after.drop before.length

/-- Whether the timer record is due at the sampled time: `next_time < new_time.time`. -/
def TimerCallback.due {τ : Type} [LT τ] [DecidableRel (fun (a b : τ) => a < b)]
    (new_time : TimePoint τ) (r : TimerCallback τ) : Bool :=
  decide (r.next_time < new_time.time)

/-- The record after a dispatch: `next_time += period`. -/
def TimerCallback.advance {τ : Type} [Add τ] (r : TimerCallback τ) : TimerCallback τ :=
  { r with next_time := r.next_time + r.period }

/-- The number of dispatches of the timer record `i` among the deferred
callbacks appended to a queue that held `before`. -/
def dispatchCount {τ : Type} (before after : List (Deferred τ)) (i : Nat) : Nat :=
  (newDeferred before after).countP (Deferred.isTimer i)

/-- A cooperative time source for a timer of period `p`: every sample is at
or above the previous one (`prev`, which is `0` before the first sample) and at
most `prev + p`, the order and the sum being those of the number type. -/
def cooperative {τ : Type} [LE τ] [DecidableRel (fun (a b : τ) => a ≤ b)] [Add τ] (p : τ) :
    τ → List τ → Bool
  | _, [] => true
  | prev, t :: rest => decide (prev ≤ t) && decide (t ≤ prev + p) && cooperative p t rest

/-! ## IEEE 754 binary64: the type `double` of the timer records

`period`, `next_time` and `TimePoint::time` are `double`. A `double` is a
finite value (a rational number on the binary64 grid; the two zeros are not
told apart, neither `<` nor `+` does), an infinity or a NaN. `a + b` is the
exact sum rounded to nearest, ties to even, with 53 significant bits, exponents
down to that of the subnormals, and overflow to an infinity; `<` is the IEEE
comparison, false on a NaN. A value `finite q` with `q` off the grid is not a
`double`; the theorems below hold for such values too, and every sum is on the
grid. -/

/-- A value of type `double`. -/
inductive F64 where
  | finite (q : ℚ)
  | pinf
  | ninf
  | nan
deriving DecidableEq

/-- Rounding of a rational to an integer, to nearest, ties to even. -/
def roundHalfEven (x : ℚ) : ℤ :=
  if x - ⌊x⌋ < 1 / 2 then ⌊x⌋
  else if 1 / 2 < x - ⌊x⌋ then ⌊x⌋ + 1
  else if ⌊x⌋ % 2 = 0 then ⌊x⌋ else ⌊x⌋ + 1

/-- The exponent of the unit in the last place of the binary64 numbers around
`q`: 52 below the exponent of `q`, and never below that of the subnormals (for
`q = 0` any exponent gives the rounded value `0`). -/
def F64.ulpExp (q : ℚ) : ℤ :=
  max (Int.log 2 |q| - 52) (-1074)

/-- Rounding of a rational to the binary64 grid (exponent unbounded above). -/
def F64.round (q : ℚ) : ℚ :=
  (roundHalfEven (q / 2 ^ F64.ulpExp q) : ℚ) * 2 ^ F64.ulpExp q

/-- The `double` that an exact result `q` is rounded to: an infinity when the
rounded value reaches `2^1024` in magnitude. -/
def F64.ofRat (q : ℚ) : F64 :=
  if 2 ^ 1024 ≤ F64.round q then .pinf
  else if F64.round q ≤ -(2 ^ 1024) then .ninf
  else .finite (F64.round q)

/-- The operator `+` of `double` (the `+=` of `next_time += period`). -/
def F64.add : F64 → F64 → F64
  | .finite a, .finite b => F64.ofRat (a + b)
  | .nan, _ => .nan
  | _, .nan => .nan
  | .pinf, .ninf => .nan
  | .ninf, .pinf => .nan
  | .pinf, _ => .pinf
  | _, .pinf => .pinf
  | .ninf, _ => .ninf
  | _, .ninf => .ninf

/-- The operator `<` of `double`. -/
def F64.lt : F64 → F64 → Bool
  | .finite a, .finite b => decide (a < b)
  | .nan, _ => false
  | _, .nan => false
  | _, .ninf => false
  | .ninf, _ => true
  | .pinf, _ => false
  | .finite _, .pinf => true

/-- The operator `<=` of `double`. -/
def F64.le : F64 → F64 → Bool
  | .finite a, .finite b => decide (a ≤ b)
  | .nan, _ => false
  | _, .nan => false
  | .ninf, _ => true
  | _, .pinf => true
  | _, .ninf => false
  | .pinf, _ => false

instance : Add F64 := ⟨F64.add⟩

instance : LT F64 := ⟨fun a b => F64.lt a b = true⟩

instance : LE F64 := ⟨fun a b => F64.le a b = true⟩

instance : Zero F64 := ⟨.finite 0⟩

instance : DecidableRel (fun (a b : F64) => a < b) :=
  fun a b => inferInstanceAs (Decidable (F64.lt a b = true))

instance : DecidableRel (fun (a b : F64) => a ≤ b) :=
  fun a b => inferInstanceAs (Decidable (F64.le a b = true))

/-- The numbers of the binary64 grid, with the exponent unbounded above: an
integer of at most 53 bits (or `2^53` itself) times a power of two that is at
least that of the subnormals. -/
def F64.onGrid (g : ℚ) : Prop :=
  ∃ (m e : ℤ), -1074 ≤ e ∧ |m| ≤ 2 ^ 53 ∧ g = (m : ℚ) * 2 ^ e

/-- The rational value of a finite double (`0` for an infinity or a NaN). -/
def F64.toRat : F64 → ℚ
  | .finite q => q
  | _ => 0

/-- The `TimePoint` sampled at the time `t` (a rational taken as a double). -/
def TimePoint.atTime (t : ℚ) : TimePoint F64 :=
  { time := .finite t, timestamp := 0, rate := .finite 1 }

/-- An engine with one timer of period 2, registered by `create_timer_callback`. -/
def cadenceEngine : Engine F64 :=
  Engine.create_timer_callback
    { time := TimePoint.atTime 0, timer_callbacks := [], callback_queue := [] } (.finite 2) 7

/-- Sampled times 1, 3, 3, 5 of a cooperative time source for period 2. -/
def cadenceSamples : List (TimePoint F64) :=
  [1, 3, 3, 5].map TimePoint.atTime

/-- A period just below `2 ^ 53`: the integer `2 ^ 53 - 12`, which is a double. -/
def driftPeriod : ℚ := 9007199254740980

/-- An engine with one timer of period `driftPeriod`, registered by
`create_timer_callback`. -/
def driftEngine : Engine F64 :=
  Engine.create_timer_callback
    { time := TimePoint.atTime 0, timer_callbacks := [], callback_queue := [] }
    (.finite driftPeriod) 7

/-- Eight sampled times of a cooperative time source for `driftPeriod`. All of
them are integers that are doubles; the steps between them are `driftPeriod`
(four times), `driftPeriod - 4` (three times) and `8`. -/
def driftTimes : List ℚ :=
  [9007199254740980, 18014398509481960, 27021597764222940, 36028797018963920,
   45035996273704896, 54043195528445872, 63050394783186848, 63050394783186856]

/-- The sampled `TimePoint`s at the times `driftTimes`. -/
def driftSamples : List (TimePoint F64) :=
  driftTimes.map TimePoint.atTime

/-- The double nearest to one tenth. -/
def tenthPeriod : ℚ := 3602879701896397 / 36028797018963968

/-- An engine with one timer of period `0.1`, registered by
`create_timer_callback`. -/
def tenthEngine : Engine F64 :=
  Engine.create_timer_callback
    { time := TimePoint.atTime 0, timer_callbacks := [], callback_queue := [] }
    (.finite tenthPeriod) 7

/-- Eleven sampled times of a cooperative time source for the period `0.1`:
the doubles `0.1`, `0.2`, `0.3`, `0.39999999999999997`, `0.49999999999999994`,
`0.5999999999999999`, `0.6999999999999998`, `0.7999999999999998`,
`0.8999999999999998`, `0.9999999999999998` and `1.0`. Each is the largest double
that is at most the previous one plus the period (and at most `1`). -/
def tenthTimes : List ℚ :=
  [3602879701896397 / 36028797018963968,
   3602879701896397 / 18014398509481984,
   5404319552844595 / 18014398509481984,
   7205759403792793 / 18014398509481984,
   9007199254740991 / 18014398509481984,
   2702159776422297 / 4503599627370496,
   6305039478318693 / 9007199254740992,
   900719925474099 / 1125899906842624,
   8106479329266891 / 9007199254740992,
   4503599627370495 / 4503599627370496,
   1]

/-- The sampled `TimePoint`s at the times `tenthTimes`. -/
def tenthSamples : List (TimePoint F64) :=
  tenthTimes.map TimePoint.atTime

/-- An engine with one timer of period 2 whose arithmetic is exact (rational
numbers in place of `double`): an idealisation, not the arithmetic of the
program. -/
def exactCadenceEngine : Engine ℚ :=
  Engine.create_timer_callback
    { time := ⟨0, 0, 1⟩, timer_callbacks := [], callback_queue := [] } 2 7

/-- Sampled times 1, 3, 3, 5 as rational numbers. -/
def exactCadenceSamples : List (TimePoint ℚ) :=
  [⟨1, 10, 1⟩, ⟨3, 30, 1⟩, ⟨3, 31, 1⟩, ⟨5, 50, 1⟩]

/-! ## `SampledInput<T>`: the double-buffered input -/

/-- The data members of `SampledInput<T>`: the cells `cached` and `other`, the
flags `read_cached`, `reading_cached`, `reading_other`, `value_received`,
whether the optional on-write `callback` is present, and (as a record of the
effect) the arguments the callback has been invoked with. -/
structure SampledInput (T : Type) where
  cached : T
  other : T
  read_cached : Bool
  reading_cached : Bool
  reading_other : Bool
  value_received : Bool
  callback : Bool
  callback_calls : List T

/-- `SampledInput(Engine&, callback)`: `read_cached(true)`,
`value_received(false)`. The members `cached`, `other`, `reading_cached` and
`reading_other` have no initializer: their initial contents are parameters. -/
def SampledInput.create {T : Type} (cached0 other0 : T) (reading_cached0 reading_other0 : Bool)
    (callback : Bool) : SampledInput T :=
  { cached := cached0, other := other0, read_cached := true,
    reading_cached := reading_cached0, reading_other := reading_other0,
    value_received := false, callback := callback, callback_calls := [] }

/-- `SampledInput(Engine&, default_value, callback)`: `read_cached(true)`,
`value_received(true)` and `cached = default_value`. -/
def SampledInput.create_default {T : Type} (default_value other0 : T)
    (reading_cached0 reading_other0 : Bool) (callback : Bool) : SampledInput T :=
  { cached := default_value, other := other0, read_cached := true,
    reading_cached := reading_cached0, reading_other := reading_other0,
    value_received := true, callback := callback, callback_calls := [] }

/-- `SampledInput::Pointer`: `parent` (here: whether it is non-null) and
`reading_cached`, the cell the handle is bound to. -/
structure SampledInput.Pointer where
  parent : Bool
  reading_cached : Bool
deriving DecidableEq, Repr

/-- `Pointer::operator*`: `reading_cached ? parent->cached : parent->other`;
`none` for the empty handle (`operator bool` is false). -/
def SampledInput.Pointer.deref {T : Type} (p : SampledInput.Pointer) (s : SampledInput T) :
    Option T :=
  if p.parent then some (if p.reading_cached then s.cached else s.other) else none

/-- `SampledInput::get`: the empty handle when no value was received, else the
flag of the cell named by `read_cached` is set and a handle on it returned. -/
def SampledInput.get {T : Type} (s : SampledInput T) : SampledInput T × SampledInput.Pointer :=
  if !s.value_received then (s, { parent := false, reading_cached := true })
  else if s.read_cached then
    ({ s with reading_cached := true }, { parent := true, reading_cached := true })
  else
    ({ s with reading_other := true }, { parent := true, reading_cached := false })

/-- `Pointer::~Pointer`: nothing for the empty handle, else the reading flag of
the handle's cell is cleared. -/
def SampledInput.release {T : Type} (s : SampledInput T) (p : SampledInput.Pointer) :
    SampledInput T :=
  if !p.parent then s
  else if p.reading_cached then { s with reading_cached := false }
  else { s with reading_other := false }

/-- First critical section of `SampledInput::write`: the choice of
`write_cached` (`true`: the cell `cached` is written, `false`: `other`). -/
def SampledInput.write_select {T : Type} (s : SampledInput T) : Bool :=
  if !s.reading_cached && !s.reading_other then !s.read_cached
  else if !s.reading_cached then true
  else false

/-- The unlocked assignment of `SampledInput::write`:
`if (write_cached) cached = data; else other = data;`. -/
def SampledInput.write_assign {T : Type} (s : SampledInput T) (write_cached : Bool) (data : T) :
    SampledInput T :=
  if write_cached then { s with cached := data } else { s with other := data }

/-- Second critical section of `SampledInput::write`: `read_cached =
write_cached; value_received = true;` and the optional callback, invoked with
the cell named by `read_cached`. -/
def SampledInput.write_publish {T : Type} (s : SampledInput T) (write_cached : Bool) :
    SampledInput T :=
  let s1 := { s with read_cached := write_cached, value_received := true }
  if s1.callback then
    if s1.read_cached then { s1 with callback_calls := s1.callback_calls ++ [s1.cached] }
    else { s1 with callback_calls := s1.callback_calls ++ [s1.other] }
  else s1

/-- A completed `SampledInput::write(data)`: select, assign, publish. -/
def SampledInput.write {T : Type} (s : SampledInput T) (data : T) : SampledInput T :=
  (s.write_assign s.write_select data).write_publish s.write_select

/-- The operations on a `SampledInput`: `get()`, the destruction of the `k`-th
handle that is currently alive, and `write(v)`. -/
inductive SampledOp (T : Type) where
  | get
  | release (k : Nat)
  | write (v : T)
deriving DecidableEq, Repr

/-- A `SampledInput` together with the handles currently alive (oldest first)
and, for every `get()` so far, the value seen through the returned handle at
the moment it was returned (`none` for the empty handle). -/
structure SampledSys (T : Type) where
  input : SampledInput T
  held : List SampledInput.Pointer
  results : List (Option T)

/-- One completed operation. -/
def SampledSys.step {T : Type} (sys : SampledSys T) : SampledOp T → SampledSys T
  | .get =>
    { input := sys.input.get.1
      held := sys.held ++ [sys.input.get.2]
      results := sys.results ++ [sys.input.get.2.deref sys.input.get.1] }
  | .release k =>
    match sys.held.get? k with
    | some p => { sys with input := sys.input.release p, held := sys.held.eraseIdx k }
    | none => sys
  | .write v => { sys with input := sys.input.write v }

/-- A sequence of completed operations. -/
def SampledSys.run {T : Type} (sys : SampledSys T) (ops : List (SampledOp T)) : SampledSys T :=
  ops.foldl SampledSys.step sys

/-- The system around a freshly constructed input: no handle, no result. -/
def SampledSys.start {T : Type} (input : SampledInput T) : SampledSys T :=
  { input := input, held := [], results := [] }

/-- Whether some handle that is alive is bound to the given cell
(`true`: `cached`, `false`: `other`). -/
def SampledSys.holds {T : Type} (sys : SampledSys T) (cell : Bool) : Bool :=
  sys.held.any (fun p => p.parent && (p.reading_cached == cell))

/-- What the specification expects of the `get()` calls of a sequence of operations:
each returns the value of the most recent `write` before it, or `latest` (the
default value, if any) when there is none. -/
def expectedGets {T : Type} (latest : Option T) : List (SampledOp T) → List (Option T)
  | [] => []
  | .get :: ops => latest :: expectedGets latest ops
  | .release _ :: ops => expectedGets latest ops
  | .write v :: ops => expectedGets (some v) ops

/-- Replace the value of every `write` by its write index (generation): the
first write of the sequence carries `n + 1`, the next `n + 2`, and so on. -/
def stampWrites {T : Type} (n : Nat) : List (SampledOp T) → List (SampledOp Nat)
  | [] => []
  | .get :: ops => .get :: stampWrites n ops
  | .release k :: ops => .release k :: stampWrites n ops
  | .write _ :: ops => .write (n + 1) :: stampWrites (n + 1) ops

/-- The value a `get()` would expose: the cell named by `read_cached`, once a
value was received. -/
def SampledInput.fresh {T : Type} (s : SampledInput T) : Option T :=
  if s.value_received then some (if s.read_cached then s.cached else s.other) else none

/-! ## `CallbackInput<T>`: the bounded-queue input -/

/-- The data members of `CallbackInput<T>`: the ring `queue`, `front`, `back`,
the flag `full` and whether `mutex` is locked. (`position_mutex` is held for
the whole of `write`, `get` and `~Pointer`, which are therefore atomic.) -/
structure CallbackInput (T : Type) where
  queue : List T
  front : Nat
  back : Nat
  full : Bool
  mutex : Bool
deriving DecidableEq, Repr

/-- `CallbackInput(engine, callback, queue_size)`: `front(0)`, `back(0)`,
`full(false)` and `queue.resize(queue_size)` (cells hold `init`). -/
def CallbackInput.create {T : Type} (queue_size : Nat) (init : T) : CallbackInput T :=
  { queue := List.replicate queue_size init, front := 0, back := 0, full := false,
    mutex := false }

/-- `CallbackInput::Pointer`: `parent`, here whether it is non-null. -/
structure CallbackInput.Pointer where
  parent : Bool
deriving DecidableEq, Repr

/-- `Pointer::operator*`: `parent->queue[parent->front]`; `none` when the
handle is empty (null `parent`) or the index is outside the vector. -/
def CallbackInput.Pointer.deref {T : Type} (p : CallbackInput.Pointer) (s : CallbackInput T) :
    Option T :=
  if p.parent then s.queue.get? s.front else none

/-- The body of `CallbackInput::write` after `while (full);` has been passed:
`queue[back] = data; back = (back + 1) % queue.size(); full = (back == front);`.
The result is `none` when `full` is set on entry: the loop `while (full);`
runs with `position_mutex` held, and `full` is cleared only by `~Pointer`,
which needs `position_mutex`. -/
def CallbackInput.write {T : Type} (s : CallbackInput T) (data : T) : Option (CallbackInput T) :=
  if s.full then none
  else some { s with
    queue := s.queue.set s.back data
    back := (s.back + 1) % s.queue.length
    full := ((s.back + 1) % s.queue.length == s.front) }

/-- `CallbackInput::get` once `mutex.lock()` has succeeded: on
`!full && front == back` the mutex is unlocked and the empty handle returned,
otherwise the mutex stays locked and a handle on the input is returned. -/
def CallbackInput.get {T : Type} (s : CallbackInput T) : CallbackInput T × CallbackInput.Pointer :=
  if !s.full && s.front == s.back then ({ s with mutex := false }, { parent := false })
  else ({ s with mutex := true }, { parent := true })

/-- `Pointer::~Pointer`: nothing for the empty handle; else `mutex.unlock();
full = false; front = (front + 1) % queue.size();`. -/
def CallbackInput.release {T : Type} (s : CallbackInput T) (p : CallbackInput.Pointer) :
    CallbackInput T :=
  if !p.parent then s
  else { s with mutex := false, full := false, front := (s.front + 1) % s.queue.length }

/-- The events of a `CallbackInput` and its single consumer: a `write(v)` by a
producer; a worker taking one pushed `process` task and running its `get()`;
that task invoking the user callback with `*data`; the end of that task, where
the handle is destroyed. -/
inductive CallbackEvent (T : Type) where
  | write (v : T)
  | start
  | call
  | finish
deriving DecidableEq, Repr

/-- A `CallbackInput` in its environment: the `process` tasks pushed on the
engine by `write` and not yet taken by a worker (`tasks`), the `process` task
being executed, if any (its handle, and whether it has invoked the callback),
the arguments the user callback has been invoked with, the number of times
`process` dereferenced a handle that exposes no value, and whether a writer is
stuck in `while (full);`. -/
structure CallbackSys (T : Type) where
  input : CallbackInput T
  tasks : Nat
  consumer : Option (CallbackInput.Pointer × Bool)
  callback_calls : List T
  bad_derefs : Nat
  spinning : Bool
deriving DecidableEq, Repr

/-- The system around a freshly constructed `CallbackInput` of capacity `n`. -/
def CallbackSys.start {T : Type} (n : Nat) (init : T) : CallbackSys T :=
  { input := CallbackInput.create n init, tasks := 0, consumer := none, callback_calls := [],
    bad_derefs := 0, spinning := false }

/-- One event. The result is `none` when the event cannot take place in the
state: a thread would block on `position_mutex` (held for ever by a spinning
writer) or on `mutex`, no `process` task is waiting, a `process` task is
already being executed, or the event is not the next step of the task being
executed. -/
def CallbackSys.step {T : Type} (sys : CallbackSys T) : CallbackEvent T → Option (CallbackSys T)
  | .write v =>
    if sys.spinning then none
    else
      match sys.input.write v with
      | none => some { sys with spinning := true }
      | some input => some { sys with input := input, tasks := sys.tasks + 1 }
  | .start =>
    if sys.spinning || sys.input.mutex || sys.tasks == 0 || sys.consumer.isSome then none
    else some { sys with
      input := sys.input.get.1, tasks := sys.tasks - 1, consumer := some (sys.input.get.2, false) }
  | .call =>
    match sys.consumer with
    | some (p, false) =>
      match p.deref sys.input with
      | some v => some { sys with
          callback_calls := sys.callback_calls ++ [v], consumer := some (p, true) }
      | none => some { sys with bad_derefs := sys.bad_derefs + 1, consumer := some (p, true) }
    | _ => none
  | .finish =>
    match sys.consumer with
    | some (p, true) =>
      if p.parent && sys.spinning then none
      else some { sys with input := sys.input.release p, consumer := none }
    | _ => none

/-- A sequence of events; `none` when one of them cannot take place. -/
def CallbackSys.run {T : Type} (sys : CallbackSys T) : List (CallbackEvent T) → Option (CallbackSys T)
  | [] => some sys
  | ev :: rest =>
    match sys.step ev with
    | some next => CallbackSys.run next rest
    | none => none

/-- The values written by a sequence of events, in order. -/
def writtenValues {T : Type} : List (CallbackEvent T) → List T
  | [] => []
  | .write v :: rest => v :: writtenValues rest
  | _ :: rest => writtenValues rest

/-- At most `n` written values are unconsumed at any time: `unconsumed` counts
the values written and not yet released by the end of their `process` task; a
write is allowed only while it keeps the count at or below `n`. -/
def withinCapacity {T : Type} (n : Nat) : Nat → List (CallbackEvent T) → Bool
  | _, [] => true
  | unconsumed, .write _ :: rest =>
    decide (unconsumed + 1 ≤ n) && withinCapacity n (unconsumed + 1) rest
  | unconsumed, .finish :: rest => withinCapacity n (unconsumed - 1) rest
  | unconsumed, _ :: rest => withinCapacity n unconsumed rest

/-- A schedule on a `CallbackInput` of capacity 2: two writes, one value
consumed, a third write while the second value is being consumed, then the
remaining tasks. -/
def callbackSchedule : List (CallbackEvent Nat) :=
  [.write 10, .write 20, .start, .call, .finish, .start, .write 30, .call, .finish,
   .start, .call, .finish]

/-- The invariant of a `CallbackInput` of capacity `n` after the values
`written` were written and `released` of them were consumed and released:
the positions and the flag `full` are determined by the two counts, the ring
holds the unconsumed values, no writer spins, no handle without a value was
dereferenced, and the callback has received the consumed values in order. -/
def CallbackSys.Inv {T : Type} (n : Nat) (written : List T) (released : Nat)
    (sys : CallbackSys T) : Prop :=
  sys.input.queue.length = n
  ∧ sys.input.front = released % n
  ∧ sys.input.back = written.length % n
  ∧ released ≤ written.length
  ∧ written.length ≤ released + n
  ∧ sys.input.full = decide (written.length = released + n)
  ∧ (∀ i, released ≤ i → i < written.length → sys.input.queue.get? (i % n) = written.get? i)
  ∧ sys.spinning = false
  ∧ sys.bad_derefs = 0
  ∧ (match sys.consumer with
      | none =>
        sys.tasks + released = written.length ∧ sys.input.mutex = false
        ∧ sys.callback_calls = written.take released
      | some (p, called) =>
        p.parent = true ∧ sys.tasks + released + 1 = written.length ∧ sys.input.mutex = true
        ∧ sys.callback_calls = written.take (released + (if called then 1 else 0)))

/-- The number of `finish` events of a schedule. -/
def finishCount {T : Type} : List (CallbackEvent T) → Nat
  | [] => 0
  | .finish :: rest => finishCount rest + 1
  | _ :: rest => finishCount rest

/-! ## Engine lifecycle: `run`, `stop` and the lifecycle task threads

The flags `start_init`, `init_count`, `init_valid` and `running` are
`std::atomic`: every read, write or increment of one of them is one atomic
step, and an execution is an interleaving of such steps of the thread of
`run()`, of calls of `stop()` and of the threads created by
`create_*_callback`. A spinning loop that reads an unchanged flag is a step
that leaves the state as it is. -/

/-- Which `Engine::create_*_callback` created a lifecycle thread. -/
inductive TaskKind where
  | poll
  | init_poll
  | poll_shutdown
  | init_poll_shutdown
  | init
  | shutdown
deriving DecidableEq, Repr

/-- Whether the thread has an `init` callback. -/
def TaskKind.hasInit : TaskKind → Bool
  | .init_poll | .init_poll_shutdown | .init => true
  | _ => false

/-- Whether the thread has a `poll` callback. -/
def TaskKind.hasPoll : TaskKind → Bool
  | .poll | .init_poll | .poll_shutdown | .init_poll_shutdown => true
  | _ => false

/-- Whether the thread has a `shutdown` callback. -/
def TaskKind.hasShutdown : TaskKind → Bool
  | .poll_shutdown | .init_poll_shutdown | .shutdown => true
  | _ => false

/-- The next atomic action of a lifecycle thread:
* `incr`: `init_count++`;
* `wait_start`: one reading of `start_init` in `while (!start_init) {}`;
* `call_init`: `if (!init())`;
* `set_invalid`, `decr_fail`: `init_valid = false; init_count--; return;`;
* `decr_ok`: `init_count--` after a successful init;
* `wait_running`, `wait_valid`: the readings of `running` and of `init_valid`
  in `while (!running && init_valid) {}`;
* `check_valid`: the reading of `init_valid` in the `if` after that loop;
* `poll_running`, `call_poll`: the reading of `running` and the call of `poll`
  in `while (running && poll()) {}`;
* `spin_running`: one reading of `running` in `while (running) {}`;
* `call_shutdown`: `shutdown();`;
* `done`: the thread function has returned. -/
inductive TaskPc where
  | incr
  | wait_start
  | call_init
  | set_invalid
  | decr_fail
  | decr_ok
  | wait_running
  | wait_valid
  | check_valid
  | poll_running
  | call_poll
  | spin_running
  | call_shutdown
  | done
deriving DecidableEq, Repr

/-- The next atomic action of `Engine::run` (after it has spawned the timing
and worker threads): `start_init = true`, one reading of `init_count` in
`while (init_count > 0) {}`, `running = true`, and the joining of the threads. -/
inductive RunPc where
  | set_start
  | wait_count
  | set_running
  | join
deriving DecidableEq, Repr

/-- A lifecycle thread: its kind, what its user callbacks return (`init` is
called at most once; `poll_result k` is the result of the call of `poll` made
after `k` earlier calls), its program counter, and how many times each of its
callbacks has been invoked. -/
structure LifecycleTask where
  kind : TaskKind
  init_result : Bool
  poll_result : Nat → Bool
  pc : TaskPc
  inits : Nat
  polls : Nat
  shutdowns : Nat

/-- The thread as `threads.emplace_back` starts it: at the first statement of
its lambda, which is `init_count++` for the kinds with an `init` callback and
the loop `while (!running && init_valid) {}` for the others. -/
def LifecycleTask.create (kind : TaskKind) (init_result : Bool) (poll_result : Nat → Bool) :
    LifecycleTask :=
  { kind := kind, init_result := init_result, poll_result := poll_result,
    pc := if kind.hasInit then .incr else .wait_running,
    inits := 0, polls := 0, shutdowns := 0 }

/-- The atomic flags of `Engine`, the program counter of `run()` and the
lifecycle threads, in registration order. -/
structure Lifecycle where
  start_init : Bool
  init_count : Int
  init_valid : Bool
  running : Bool
  run_pc : RunPc
  tasks : List LifecycleTask

/-- `Engine::Engine()`: `start_init(false)`, `init_count(0)`,
`init_valid(true)`, `running(false)`; followed by the registration of the
given lifecycle threads. `run()` has not executed its first flag access. -/
def Lifecycle.create (tasks : List (TaskKind × Bool × (Nat → Bool))) : Lifecycle :=
  { start_init := false, init_count := 0, init_valid := true, running := false,
    run_pc := .set_start,
    tasks := tasks.map (fun t => LifecycleTask.create t.1 t.2.1 t.2.2) }

/-- Where a thread continues when its loop `while (running && poll()) {}` ends. -/
def LifecycleTask.after_poll (t : LifecycleTask) : TaskPc :=
  if t.kind.hasShutdown then .call_shutdown else .done

/-- One atomic step of a lifecycle thread: the new flags and the new thread. -/
def Lifecycle.task_step (s : Lifecycle) (t : LifecycleTask) : Lifecycle × LifecycleTask :=
  match t.pc with
  | .incr => ({ s with init_count := s.init_count + 1 }, { t with pc := .wait_start })
  | .wait_start => (s, { t with pc := if s.start_init then .call_init else .wait_start })
  | .call_init =>
    (s, { t with inits := t.inits + 1, pc := if t.init_result then .decr_ok else .set_invalid })
  | .set_invalid => ({ s with init_valid := false }, { t with pc := .decr_fail })
  | .decr_fail => ({ s with init_count := s.init_count - 1 }, { t with pc := .done })
  | .decr_ok =>
    ({ s with init_count := s.init_count - 1 },
     { t with pc := if t.kind = .init then .done else .wait_running })
  | .wait_running => (s, { t with pc := if s.running then .check_valid else .wait_valid })
  | .wait_valid => (s, { t with pc := if s.init_valid then .wait_running else .check_valid })
  | .check_valid =>
    (s, { t with pc :=
      if s.init_valid then (if t.kind = .shutdown then .spin_running else .poll_running)
      else (if t.kind.hasShutdown then .call_shutdown else .done) })
  | .poll_running => (s, { t with pc := if s.running then .call_poll else t.after_poll })
  | .call_poll =>
    (s, { t with polls := t.polls + 1,
                 pc := if t.poll_result t.polls then .poll_running else t.after_poll })
  | .spin_running => (s, { t with pc := if s.running then .spin_running else .call_shutdown })
  | .call_shutdown => (s, { t with shutdowns := t.shutdowns + 1, pc := .done })
  | .done => (s, t)

/-- One atomic step of `Engine::run`. -/
def Lifecycle.run_step (s : Lifecycle) : Lifecycle :=
  match s.run_pc with
  | .set_start => { s with start_init := true, run_pc := .wait_count }
  | .wait_count => if s.init_count > 0 then s else { s with run_pc := .set_running }
  | .set_running => { s with running := true, run_pc := .join }
  | .join => s

/-- `Engine::stop`: `running = false`. -/
def Lifecycle.stop (s : Lifecycle) : Lifecycle :=
  { s with running := false }

/-- Who makes the next step: the thread of `run()`, a call of `stop()`, or the
lifecycle thread with the given registration index. -/
inductive Tid where
  | run
  | stop
  | task (i : Nat)
deriving DecidableEq, Repr

/-- One step of the engine under the scheduler's choice. -/
def Lifecycle.step (s : Lifecycle) : Tid → Lifecycle
  | .run => s.run_step
  | .stop => s.stop
  | .task i =>
    match s.tasks[i]? with
    | some t => { (s.task_step t).1 with tasks := s.tasks.set i (s.task_step t).2 }
    | none => s

/-- An execution: the steps of a schedule, in order. -/
def Lifecycle.exec (s : Lifecycle) (sched : List Tid) : Lifecycle :=
  sched.foldl Lifecycle.step s

/-- The thread has executed `init_count++` and not yet `init_count--`. -/
def TaskPc.inWindow : TaskPc → Bool
  | .wait_start | .call_init | .set_invalid | .decr_fail | .decr_ok => true
  | _ => false

/-- The thread is past its init phase: it is neither before `init_count++`
nor between `init_count++` and `init_count--`. -/
def TaskPc.pastInit (pc : TaskPc) : Bool :=
  !(pc == .incr) && !pc.inWindow

/-- Every thread with an `init` callback has executed `init_count++` whenever
`run()` is waiting in `while (init_count > 0) {}` or beyond. -/
def Lifecycle.cooperative (s : Lifecycle) : Bool :=
  s.run_pc == .set_start || s.tasks.all (fun t => !(t.pc == .incr))

/-- The condition `cooperative` holds in every state of the execution. -/
def Lifecycle.cooperativeAlong : Lifecycle → List Tid → Bool
  | s, [] => s.cooperative
  | s, tid :: rest => s.cooperative && Lifecycle.cooperativeAlong (s.step tid) rest

/-- The thread's own `init` callback has returned `false` and the thread has
executed `init_valid = false`. -/
def LifecycleTask.failedPast (t : LifecycleTask) : Bool :=
  t.kind.hasInit && !t.init_result && (t.pc == .decr_fail || t.pc == .done)

/-- Facts about one lifecycle thread that hold in every reachable state: a
thread without `init` is never in the init phase; the failure branch is only
entered when `init` returns `false`; a thread whose `init` returns `false` stays
in the init phase or has returned, without any call of `poll` or `shutdown`;
`init` has been called once the thread is past `if (!init())`, and never
before; the init-only thread ends after `init_count--`; `shutdown` is called
at most once, and exactly once by a thread that has returned, has a
`shutdown` callback and did not fail its own `init`. -/
def LifecycleTask.wf (t : LifecycleTask) : Prop :=
  (t.kind.hasInit = false → t.pc.pastInit = true ∧ t.inits = 0)
  ∧ (t.init_result = true → t.pc ≠ .set_invalid ∧ t.pc ≠ .decr_fail)
  ∧ (t.kind.hasInit = true → t.init_result = false →
      (t.pc = .incr ∨ t.pc = .wait_start ∨ t.pc = .call_init ∨ t.pc = .set_invalid
        ∨ t.pc = .decr_fail ∨ t.pc = .done) ∧ t.polls = 0 ∧ t.shutdowns = 0)
  ∧ (t.kind.hasInit = true →
      t.inits = if t.pc = .incr ∨ t.pc = .wait_start ∨ t.pc = .call_init then 0 else 1)
  ∧ (t.kind = .init → t.pc.pastInit = true → t.pc = .done)
  ∧ (t.kind.hasPoll = false → t.pc ≠ .poll_running ∧ t.pc ≠ .call_poll ∧ t.polls = 0)
  ∧ (t.kind ≠ .shutdown → t.pc ≠ .spin_running)
  ∧ (t.kind.hasShutdown = false → t.pc ≠ .call_shutdown ∧ t.shutdowns = 0)
  ∧ (t.kind.hasShutdown = true → (t.kind.hasInit = true → t.init_result = true) →
      t.shutdowns = if t.pc = .done then 1 else 0)

/-- The invariant of the lifecycle: the facts `wf` of every thread;
`init_valid` is `false` exactly when some thread has failed its `init` and
executed `init_valid = false`; `init_count` is the number of threads between
`init_count++` and `init_count--`; once `run()` has left
`while (init_count > 0) {}` every thread is past its init phase; and `running`
is `true` only after `run()` has executed `running = true`. -/
def Lifecycle.Inv (s : Lifecycle) : Prop :=
  (∀ (i : Nat) (t : LifecycleTask), s.tasks[i]? = some t → t.wf)
  ∧ (∀ (i : Nat) (t : LifecycleTask), s.tasks[i]? = some t → t.failedPast = true →
      s.init_valid = false)
  ∧ (s.init_valid = false →
      ∃ (i : Nat) (t : LifecycleTask), s.tasks[i]? = some t ∧ t.failedPast = true)
  ∧ s.init_count = (s.tasks.countP (fun t => t.pc.inWindow) : Nat)
  ∧ ((s.run_pc = .set_running ∨ s.run_pc = .join) →
      ∀ (i : Nat) (t : LifecycleTask), s.tasks[i]? = some t → t.pc.pastInit = true)
  ∧ (s.running = true → s.run_pc = .join)

/-- The state of a run poisoned by an `init` that returns `false`: such a
thread is registered, and every thread is outside its poll loop, has never
called `poll`, and is at the `if` after `while (!running && init_valid) {}`
only when `init_valid` is already `false`. -/
def Lifecycle.Poisoned (s : Lifecycle) : Prop :=
  (∃ (i : Nat) (t : LifecycleTask),
      s.tasks[i]? = some t ∧ t.kind.hasInit = true ∧ t.init_result = false)
  ∧ (∀ (i : Nat) (t : LifecycleTask), s.tasks[i]? = some t →
      (t.pc = .check_valid → s.init_valid = false)
      ∧ t.pc ≠ .poll_running ∧ t.pc ≠ .call_poll ∧ t.polls = 0)

/-- An engine with four lifecycle threads: an init+poll+shutdown thread whose
`init` returns `false`, a poll thread, an init+poll thread whose `init`
succeeds, and a shutdown thread. -/
def poisonedTasks : List (TaskKind × Bool × (Nat → Bool)) :=
  [(.init_poll_shutdown, false, fun _ => true), (.poll, true, fun _ => true),
   (.init_poll, true, fun _ => true), (.shutdown, true, fun _ => true)]

/-- A schedule of `poisonedTasks`: both init threads execute `init_count++`,
`run()` sets `start_init`, both inits run (the first one fails), `run()` sees
`init_count == 0`; the last step of `run()`, `running = true`, is left out. -/
def poisonedPrefix : List Tid :=
  [.task 0, .task 2, .task 1, .run, .task 0, .task 2, .task 0, .task 2, .task 0, .task 2,
   .task 0, .run]

/-- The schedule `poisonedPrefix` followed by `running = true` and by the
steps that take every thread to its end. -/
def poisonedSchedule : List Tid :=
  poisonedPrefix ++
  [.run, .task 1, .task 1, .task 1, .task 2, .task 2, .task 3, .task 3, .task 3, .task 0]

/-- An engine whose only lifecycle thread was registered by
`create_init_poll_shutdown_callback` with an `init` that returns `false`. -/
def failedInitTasks : List (TaskKind × Bool × (Nat → Bool)) :=
  [(.init_poll_shutdown, false, fun _ => true)]

/-- A complete run of `failedInitTasks`: the thread fails its init and
returns; `run()` sets `running`; `stop()` is called. -/
def failedInitSchedule : List Tid :=
  [.task 0, .run, .task 0, .task 0, .task 0, .task 0, .run, .run, .stop, .task 0]

/-- A `SampledInput<int>` constructed with the default value 0 and clear
reading flags, on which `get()`, `write(1)` and `get()` have completed and
both handles are still alive. -/
def twoReaders : SampledSys Nat :=
  (SampledSys.start (SampledInput.create_default 0 0 false false false)).run
    [.get, .write 1, .get]

/-- A `SampledInput<int>` with default value 0 on which two `get()` calls have
completed, the first handle has been destroyed and the second is still alive. -/
def sharedCell : SampledSys Nat :=
  (SampledSys.start (SampledInput.create_default 0 0 false false false)).run
    [.get, .get, .release 0]

/-- At most one handle is alive at any time: `get()` is called only when no
handle is alive, and the only handle alive is the one that is destroyed. -/
def singleReader {T : Type} : Nat → List (SampledOp T) → Bool
  | _, [] => true
  | live, .get :: ops => live == 0 && singleReader 1 ops
  | live, .release k :: ops => live == 1 && k == 0 && singleReader 0 ops
  | live, .write _ :: ops => singleReader live ops

/-- With at most one handle alive the reading flags are exact: both are clear
when no handle (or only an empty one) is alive, and otherwise exactly the flag
of the cell of the handle is set. -/
def SampledSys.flagsExact {T : Type} (sys : SampledSys T) : Prop :=
  (sys.held = [] ∧ sys.input.reading_cached = false ∧ sys.input.reading_other = false)
  ∨ ∃ p : SampledInput.Pointer, sys.held = [p]
      ∧ ((p.parent = false ∧ sys.input.reading_cached = false
            ∧ sys.input.reading_other = false)
         ∨ (p.parent = true ∧ sys.input.reading_cached = p.reading_cached
            ∧ sys.input.reading_other = !p.reading_cached))

/-- What the execution of a deferred callback invokes: the closure pushed by
the timing thread calls `callback.callback(new_time)` on the record it refers
to, that is the registered callback of that record with the captured time. -/
def Engine.invoke {τ : Type} (e : Engine τ) : Deferred τ → Option (Nat × TimePoint τ)
  | .timer record new_time => (e.timer_callbacks[record]?).map (fun r => (r.callback, new_time))
  | .task _ => none

/-! ## Deferred-callback workers: `push_callback`, `stop`, `execute_callback`

`queue_mutex` protects `callback_queue`; `running` is atomic and, once the
workers have entered `while (running) { execute_callback(); }`, is written
only by `stop()`. A worker inside `execute_callback` is followed through its
three atomic actions: the return of `cv.wait` (with the lock held), the test
`if (!running) return;` followed by the pop and the release of the lock, and
the call `callback()`. -/

/-- Where a worker thread is: outside `execute_callback`; inside it with
`cv.wait` returned and `queue_mutex` held; or past `lock.unlock()` with the
popped callback, about to call it. -/
inductive WorkerPc (τ : Type) where
  | idle
  | woken
  | popped (callback : Deferred τ)
deriving DecidableEq, Repr

/-- The engine seen by the workers: the engine with its `callback_queue`, the
flag `running`, the holder of `queue_mutex` (a worker index), the worker
threads, and as a record of the effects the callbacks popped so far (in pop
order), the callbacks invoked so far (in invocation order) and whether
`assert(!callback_queue.empty())` has failed. -/
structure Workers (τ : Type) where
  engine : Engine τ
  running : Bool
  queue_mutex : Option Nat
  workers : List (WorkerPc τ)
  dequeued : List (Deferred τ)
  invoked : List (Deferred τ)
  assert_failed : Bool

/-- The engine `e` with `n` worker threads, none of them inside
`execute_callback`, and nothing popped or invoked yet. -/
def Workers.create {τ : Type} (e : Engine τ) (running : Bool) (n : Nat) : Workers τ :=
  { engine := e, running := running, queue_mutex := none,
    workers := List.replicate n .idle, dequeued := [], invoked := [], assert_failed := false }

/-- The atomic actions on the queue: `push_callback(callback)` by any thread,
`stop()`, and for the worker with index `i` the return of `cv.wait`, the test
of `running` with the pop, and the invocation of the popped callback. -/
inductive WorkerEvent (τ : Type) where
  | push (callback : Deferred τ)
  | stop
  | wait (i : Nat)
  | check (i : Nat)
  | invoke (i : Nat)
deriving DecidableEq, Repr

/-- One atomic action; `none` when it cannot take place in the state: the
thread would block on `queue_mutex`, the predicate of `cv.wait`
(`callback_queue.size() > 0 || !running`) is false, or the action is not the
next one of that worker.
* `push`: `Engine::push_callback`, under `queue_mutex`;
* `stop`: `Engine::stop`, `running = false`;
* `wait`: `cv.wait` returns with the lock held;
* `check`: `if (!running) return;` releases the lock and leaves the queue as
  it is; otherwise `callback_queue.front()` is copied, `callback_queue.pop()`
  removes it and `lock.unlock()` releases the lock;
* `invoke`: `callback();`. -/
def Workers.step {τ : Type} (w : Workers τ) : WorkerEvent τ → Option (Workers τ)
  | .push callback =>
    if w.queue_mutex.isSome then none
    else some { w with engine := w.engine.push_callback callback }
  | .stop => some { w with running := false }
  | .wait i =>
    match w.workers[i]? with
    | some .idle =>
      if w.queue_mutex.isSome then none
      else if decide (w.engine.callback_queue.length > 0) || !w.running then
        some { w with queue_mutex := some i, workers := w.workers.set i .woken }
      else none
    | _ => none
  | .check i =>
    match w.workers[i]? with
    | some .woken =>
      if !w.running then
        some { w with queue_mutex := none, workers := w.workers.set i .idle }
      else
        match w.engine.callback_queue with
        | [] =>
          some { w with assert_failed := true, queue_mutex := none,
                        workers := w.workers.set i .idle }
        | callback :: rest =>
          some { w with
            engine := { w.engine with callback_queue := rest }
            dequeued := w.dequeued ++ [callback]
            queue_mutex := none
            workers := w.workers.set i (.popped callback) }
    | _ => none
  | .invoke i =>
    match w.workers[i]? with
    | some (.popped callback) =>
      some { w with invoked := w.invoked ++ [callback], workers := w.workers.set i .idle }
    | _ => none

/-- A sequence of atomic actions; `none` when one of them cannot take place. -/
def Workers.run {τ : Type} (w : Workers τ) : List (WorkerEvent τ) → Option (Workers τ)
  | [] => some w
  | ev :: rest =>
    match w.step ev with
    | some next => Workers.run next rest
    | none => none

/-- `Engine::execute_callback` by the worker `i` with no other action in
between: the return of `cv.wait`, the test and pop, and, when a callback was
popped, its invocation. `none` when the worker blocks in `cv.wait`. -/
def Workers.execute_callback {τ : Type} (w : Workers τ) (i : Nat) : Option (Workers τ) :=
  match w.step (.wait i) with
  | none => none
  | some w1 =>
    match w1.step (.check i) with
    | none => none
    | some w2 =>
      match w2.workers[i]? with
      | some (.popped _) => w2.step (.invoke i)
      | _ => some w2

/-- The callbacks pushed by a sequence of actions, in push order. -/
def pushedBy {τ : Type} : List (WorkerEvent τ) → List (Deferred τ)
  | [] => []
  | .push callback :: rest => callback :: pushedBy rest
  | _ :: rest => pushedBy rest

/-- The callback a worker has popped and not yet invoked, if any. -/
def WorkerPc.inflight {τ : Type} : WorkerPc τ → List (Deferred τ)
  | .popped callback => [callback]
  | _ => []

/-- The invariant of the lock: a worker is between the return of `cv.wait` and
the release of the lock exactly when it holds `queue_mutex`, and then the
queue is not empty if `running` is set; the assertion has never failed. -/
def Workers.LockInv {τ : Type} (w : Workers τ) : Prop :=
  (∀ (j : Nat), w.workers[j]? = some .woken →
      w.queue_mutex = some j ∧ (w.running = true → w.engine.callback_queue ≠ []))
  ∧ (∀ (j : Nat), w.queue_mutex = some j → w.workers[j]? = some .woken)
  ∧ w.assert_failed = false

/-! ## `CallbackInput<T>` at lock level

The threads that use a `CallbackInput` are followed through every acquisition
and release of `position_mutex` and of `mutex`: a thread that cannot acquire a
lock, or that finds `full` set in `while (full);`, makes a step that changes
nothing. -/

/-- The statements of `CallbackInput::write` after the loop `while (full);`:
`queue[back] = data; back = (back + 1) % queue.size(); full = (back == front);`. -/
def CallbackInput.place {T : Type} (s : CallbackInput T) (data : T) : CallbackInput T :=
  { s with
    queue := s.queue.set s.back data
    back := (s.back + 1) % s.queue.length
    full := ((s.back + 1) % s.queue.length == s.front) }

/-- The next action of a thread that uses the input.
In `write(data)`:
* `write_lock`: the construction of the `scoped_lock` on `position_mutex`;
* `write_spin`: one evaluation of `full` in `while (full);`, lock held;
* `write_place`: the statements after the loop, `engine.push_callback` and the
  release of the lock at the end of the function.
In `process()`:
* `get_lock_mutex`: `mutex.lock()` in `get()`;
* `get_lock_position`: the `scoped_lock` on `position_mutex` in `get()`;
* `get_check`: the test `!full && front == back` and the return of the handle,
  which releases `position_mutex`;
* `call`: `callback(*data)`;
* `release_lock`: `~Pointer`, the test of `parent` and the `scoped_lock` on
  `position_mutex`;
* `release_body`: `mutex.unlock(); full = false; front = ...` and the release
  of `position_mutex`.
`done`: the function has returned; `faulted`: `*data` was evaluated on a
handle that exposes no value. -/
inductive CallbackPc (T : Type) where
  | write_lock (data : T)
  | write_spin (data : T)
  | write_place (data : T)
  | get_lock_mutex
  | get_lock_position
  | get_check
  | call (p : CallbackInput.Pointer)
  | release_lock (p : CallbackInput.Pointer)
  | release_body (p : CallbackInput.Pointer)
  | done
  | faulted
deriving DecidableEq, Repr

/-- Whether a thread at this point holds `position_mutex`. -/
def CallbackPc.holdsPosition {T : Type} : CallbackPc T → Bool
  | .write_spin _ | .write_place _ | .get_check | .release_body _ => true
  | _ => false

/-- What a thread executes: `write(data)` or one `process()` task. -/
inductive CallbackThread (T : Type) where
  | writer (data : T)
  | process
deriving DecidableEq, Repr

/-- The first action of a thread. -/
def CallbackThread.first {T : Type} : CallbackThread T → CallbackPc T
  | .writer data => .write_lock data
  | .process => .get_lock_mutex

/-- The input with its locks and threads: the data members (`input.mutex`
tells whether `mutex` is locked), the holder of `position_mutex`, the threads,
the number of `process` tasks pushed on the engine, and the arguments the user
callback has been invoked with. -/
structure CallbackLocks (T : Type) where
  input : CallbackInput T
  position_mutex : Option Nat
  threads : List (CallbackPc T)
  tasks : Nat
  callback_calls : List T

/-- A freshly constructed input of capacity `n`, both locks free, and the
given threads at their first action. -/
def CallbackLocks.create {T : Type} (n : Nat) (init : T) (threads : List (CallbackThread T)) :
    CallbackLocks T :=
  { input := CallbackInput.create n init, position_mutex := none,
    threads := threads.map CallbackThread.first, tasks := 0, callback_calls := [] }

/-- One action of the thread with index `i`, which is at `pc`: the new shared
state and the thread's next point. -/
def CallbackLocks.thread_step {T : Type} (s : CallbackLocks T) (i : Nat) :
    CallbackPc T → CallbackLocks T × CallbackPc T
  | .write_lock data =>
    match s.position_mutex with
    | none => ({ s with position_mutex := some i }, .write_spin data)
    | some _ => (s, .write_lock data)
  | .write_spin data => (s, if s.input.full then .write_spin data else .write_place data)
  | .write_place data =>
    ({ s with input := s.input.place data, tasks := s.tasks + 1, position_mutex := none }, .done)
  | .get_lock_mutex =>
    if s.input.mutex then (s, .get_lock_mutex)
    else ({ s with input := { s.input with mutex := true } }, .get_lock_position)
  | .get_lock_position =>
    match s.position_mutex with
    | none => ({ s with position_mutex := some i }, .get_check)
    | some _ => (s, .get_lock_position)
  | .get_check =>
    ({ s with input := s.input.get.1, position_mutex := none }, .call s.input.get.2)
  | .call p =>
    match p.deref s.input with
    | some v => ({ s with callback_calls := s.callback_calls ++ [v] }, .release_lock p)
    | none => (s, .faulted)
  | .release_lock p =>
    if !p.parent then (s, .done)
    else
      match s.position_mutex with
      | none => ({ s with position_mutex := some i }, .release_body p)
      | some _ => (s, .release_lock p)
  | .release_body p =>
    ({ s with input := s.input.release p, position_mutex := none }, .done)
  | .done => (s, .done)
  | .faulted => (s, .faulted)

/-- One step of the system: the scheduler lets the thread `i` act. -/
def CallbackLocks.step {T : Type} (s : CallbackLocks T) (i : Nat) : CallbackLocks T :=
  match s.threads[i]? with
  | some pc =>
    { (s.thread_step i pc).1 with threads := s.threads.set i (s.thread_step i pc).2 }
  | none => s

/-- An execution: the threads act in the order of the schedule. -/
def CallbackLocks.exec {T : Type} (s : CallbackLocks T) (sched : List Nat) : CallbackLocks T :=
  sched.foldl CallbackLocks.step s

/-- The lock discipline: a thread at a point where it holds `position_mutex` is
the recorded holder. -/
def CallbackLocks.LockInv {T : Type} (s : CallbackLocks T) : Prop :=
  ∀ (j : Nat) (pc : CallbackPc T), s.threads[j]? = some pc → pc.holdsPosition = true →
    s.position_mutex = some j

/-- The thread `i` is a writer of `data` spinning in `while (full);` with
`full` set, and the positions and contents of the ring are the given ones. -/
def CallbackLocks.Stuck {T : Type} (s : CallbackLocks T) (i : Nat) (data : T)
    (ring : CallbackInput T) (tasks : Nat) : Prop :=
  s.threads[i]? = some (.write_spin data)
  ∧ s.input.full = true
  ∧ s.input.front = ring.front ∧ s.input.back = ring.back ∧ s.input.queue = ring.queue
  ∧ s.tasks = tasks

/-- A ring of capacity 1 used by two writers and one `process` task. -/
def stuckThreads : List (CallbackThread Nat) :=
  [.writer 10, .writer 20, .process]

/-- The first writer places its value, which fills the ring; the second writer
acquires `position_mutex` and evaluates `full`. -/
def stuckPrefix : List Nat := [0, 0, 0, 1, 1]

/-- The `process` task tries to consume while the second writer spins. -/
def stuckSuffix : List Nat := [2, 2, 2, 1, 2, 1, 0, 2]

/-! ## Theorems -/

/-- The index loop of `write_value` appends one call per remaining input. -/
theorem Output.write_value_loop_eq {T : Type} (inputs : List InputId) (value : T) :
    ∀ (fuel i : Nat) (calls : List (WriteCall T)), inputs.length ≤ i + fuel →
      Output.write_value_loop inputs value fuel i calls
        = calls ++ (inputs.drop i).map (fun input => { input := input, value := value }) := by
  intro fuel
  induction fuel with
  | zero =>
    intro i calls h
    have : inputs.drop i = [] := List.drop_eq_nil_of_le (by omega)
    simp [Output.write_value_loop, this]
  | succ n ih =>
    intro i calls h
    unfold Output.write_value_loop
    by_cases hi : i < inputs.length
    · have hget : inputs.get? i = some inputs[i] := by
        simp [List.get?_eq_getElem?, List.getElem?_eq_getElem hi]
      rw [hget]
      simp only
      rw [ih (i + 1) _ (by omega)]
      rw [List.drop_eq_getElem_cons hi]
      simp only [List.map_cons, List.append_assoc, List.singleton_append]
    · have hnone : inputs.get? i = none := by
        simp [List.get?_eq_getElem?]
        omega
      have : inputs.drop i = [] := List.drop_eq_nil_of_le (by omega)
      rw [hnone]
      simp [this]

/-- The registry after a sequence of `connect` calls is the sequence itself. -/
theorem connect_foldl_inputs (ins : List InputId) (out : Output) :
    (ins.foldl connect out).inputs = out.inputs ++ ins := by
  induction ins generalizing out with
  | nil => simp
  | cons i rest ih =>
    simp [List.foldl, ih, connect, Output.add_input]

/-- `write_value` calls every registered input once, in registry order. -/
theorem Output.write_value_eq {T : Type} (out : Output) (value : T)
    (calls : List (WriteCall T)) :
    out.write_value value calls
      = (out, calls ++ out.inputs.map (fun input => { input := input, value := value })) := by
  unfold Output.write_value
  rw [Output.write_value_loop_eq out.inputs value out.inputs.length 0 calls (by omega)]
  simp

/-- C1. A `DirectOutput` whose registry was built by the `connect` calls `ins`
(in that order, repetitions allowed, `k = ins.length`): `write(v)` leaves the
registry unchanged and makes exactly `k` input `write` calls, each with `v`,
in the order of the `connect` calls; every input is called as many times as it
was connected, so an input connected twice receives the value twice. -/
theorem C1_direct_output_write {T : Type} (ins : List InputId) (v : T)
    (calls : List (WriteCall T)) :
    (DirectOutput.write (ins.foldl connect Output.empty) v calls).1
        = ins.foldl connect Output.empty
    ∧ (DirectOutput.write (ins.foldl connect Output.empty) v calls).2
        = calls ++ ins.map (fun input => { input := input, value := v })
    ∧ ((DirectOutput.write (ins.foldl connect Output.empty) v calls).2.drop calls.length).length
        = ins.length
    ∧ (∀ c ∈ (DirectOutput.write (ins.foldl connect Output.empty) v calls).2.drop calls.length,
        c.value = v)
    ∧ (∀ input : InputId,
        ((DirectOutput.write (ins.foldl connect Output.empty) v calls).2.drop calls.length).countP
            (fun c => c.input = input)
          = ins.count input)
    ∧ (∀ input : InputId,
        ((DirectOutput.write (connect (connect Output.empty input) input) v calls).2.drop
            calls.length).countP (fun c => c.input = input) = 2) := by
  have hreg : (ins.foldl connect Output.empty).inputs = ins := by
    rw [connect_foldl_inputs]; simp [Output.empty]
  have hw : ∀ (o : Output), DirectOutput.write o v calls
      = (o, calls ++ o.inputs.map (fun input => { input := input, value := v })) := by
    intro o; unfold DirectOutput.write; exact Output.write_value_eq o v calls
  rw [hw, hreg]
  refine ⟨rfl, rfl, by simp, ?_, ?_, ?_⟩
  · intro c hc
    simp at hc
    obtain ⟨a, _, rfl⟩ := hc
    rfl
  · intro input
    simp only [List.drop_left]
    rw [List.countP_map, List.count]
    congr 1
  · intro input
    rw [hw]
    simp [connect, Output.add_input, Output.empty, List.countP_cons]

/-- The registry of a `TimedOutput` after a sequence of `connect` calls. -/
theorem TimedOutput.timed_registry_after_connects {T : Type} (ins : List InputId) (out : TimedOutput T) :
    (ins.foldl TimedOutput.connect out).base.inputs = out.base.inputs ++ ins
    ∧ (ins.foldl TimedOutput.connect out).value = out.value := by
  induction ins generalizing out with
  | nil => simp
  | cons i rest ih =>
    simp [List.foldl, ih, TimedOutput.connect, Flow.connect, Output.add_input]

/-- A sequence of `TimedOutput::write` calls keeps the registry and the call
log, and leaves the last written value in the slot. -/
theorem TimedOutput.writes_eq {T : Type} (values : List T) (out : TimedOutput T)
    (calls : List (WriteCall T)) :
    (out.writes values calls).1.base = out.base
    ∧ (out.writes values calls).2 = calls
    ∧ (out.writes values calls).1.value = (values.getLast?).or out.value := by
  induction values generalizing out with
  | nil => simp [TimedOutput.writes]
  | cons v rest ih =>
    have h := ih ({ out with value := some v })
    simp only [TimedOutput.writes, List.foldl, TimedOutput.write] at h ⊢
    refine ⟨h.1, h.2.1, ?_⟩
    rw [h.2.2]
    cases rest with
    | nil => simp
    | cons w rest2 =>
      rw [List.getLast?_cons_cons, List.getLast?_eq_getLast (w :: rest2) (by simp)]
      rfl

/-- C10. `TimedOutput` with the inputs `ins` connected (in that order):
a timer callback that runs before any write makes no input call; `write`
makes no input call; and after a non-empty sequence of writes `v1..vn`
(which together make no input call) one timer callback makes exactly one call
per connect, in connect order, each carrying `vn`, so that no earlier value
is delivered. -/
theorem C10_timed_output_keep_latest {T : Type} (ins : List InputId)
    (calls : List (WriteCall T)) :
    ((TimedOutput.connected ins : TimedOutput T).write_callback calls).2 = calls
    ∧ (∀ (out : TimedOutput T) (v : T), (out.write v calls).2 = calls)
    ∧ (∀ (values : List T) (hne : values ≠ []),
        ((TimedOutput.connected ins).writes values calls).2 = calls
        ∧ (((TimedOutput.connected ins).writes values calls).1.write_callback
              ((TimedOutput.connected ins).writes values calls).2).2
            = calls ++ ins.map (fun input => { input := input, value := values.getLast hne })
        ∧ (∀ c ∈ newCalls calls
              ((((TimedOutput.connected ins).writes values calls).1.write_callback
                ((TimedOutput.connected ins).writes values calls).2).2),
            c.value = values.getLast hne)
        ∧ (∀ input : InputId,
            (newCalls calls
              ((((TimedOutput.connected ins).writes values calls).1.write_callback
                ((TimedOutput.connected ins).writes values calls).2).2)).countP
                (fun c => c.input = input)
              = ins.count input)) := by
  have hc := TimedOutput.timed_registry_after_connects ins (TimedOutput.empty : TimedOutput T)
  have hin : (TimedOutput.connected ins : TimedOutput T).base.inputs = ins := by
    unfold TimedOutput.connected; rw [hc.1]; simp [TimedOutput.empty, Output.empty]
  have hval : (TimedOutput.connected ins : TimedOutput T).value = none := by
    unfold TimedOutput.connected; rw [hc.2]; rfl
  refine ⟨?_, ?_, ?_⟩
  · simp [TimedOutput.write_callback, hval]
  · intro out v; rfl
  · intro values hne
    have hw := TimedOutput.writes_eq values (TimedOutput.connected ins) calls
    have hlast : ((TimedOutput.connected ins).writes values calls).1.value
        = some (values.getLast hne) := by
      rw [hw.2.2, List.getLast?_eq_getLast values hne]; rfl
    have hcb : (((TimedOutput.connected ins).writes values calls).1.write_callback
              ((TimedOutput.connected ins).writes values calls).2).2
            = calls ++ ins.map (fun input => { input := input, value := values.getLast hne }) := by
      simp only [TimedOutput.write_callback, hlast, Output.write_value_eq, hw.1, hw.2.1, hin]
    refine ⟨hw.2.1, hcb, ?_, ?_⟩
    · intro c hcmem
      rw [hcb] at hcmem
      simp [newCalls] at hcmem
      obtain ⟨a, _, rfl⟩ := hcmem
      rfl
    · intro input
      rw [hcb]
      simp only [newCalls, List.drop_left]
      rw [List.countP_map, List.count]
      congr 1

/-! ### `SampledInput` -/

/-- The handle returned by `get()` exposes the freshest value, and `get()`
does not change which value is the freshest. -/
theorem SampledInput.get_fresh {T : Type} (s : SampledInput T) :
    s.get.2.deref s.get.1 = s.fresh ∧ s.get.1.fresh = s.fresh := by
  unfold SampledInput.get SampledInput.fresh SampledInput.Pointer.deref
  cases hv : s.value_received <;> cases hr : s.read_cached <;> simp [hv, hr]

/-- Releasing a handle does not change which value is the freshest. -/
theorem SampledInput.release_fresh {T : Type} (s : SampledInput T) (p : SampledInput.Pointer) :
    (s.release p).fresh = s.fresh := by
  unfold SampledInput.release SampledInput.fresh
  cases p.parent <;> cases p.reading_cached <;> simp

/-- After a completed `write(v)` the freshest value is `v`. -/
theorem SampledInput.write_fresh {T : Type} (s : SampledInput T) (v : T) :
    (s.write v).fresh = some v := by
  unfold SampledInput.write SampledInput.write_publish SampledInput.write_assign
    SampledInput.fresh
  cases s.write_select <;> cases s.callback <;> simp

/-- The results of the `get()` calls of a run are the expected ones. -/
theorem SampledSys.run_results {T : Type} (ops : List (SampledOp T)) :
    ∀ sys : SampledSys T,
      (sys.run ops).results = sys.results ++ expectedGets sys.input.fresh ops := by
  induction ops with
  | nil => intro sys; simp [SampledSys.run, expectedGets]
  | cons op rest ih =>
    intro sys
    have hstep : sys.run (op :: rest) = (sys.step op).run rest := rfl
    rw [hstep, ih]
    cases op with
    | get =>
      simp only [SampledSys.step, expectedGets, (SampledInput.get_fresh sys.input).1,
        (SampledInput.get_fresh sys.input).2, List.append_assoc, List.singleton_append]
    | release k =>
      simp only [SampledSys.step, expectedGets]
      cases hk : sys.held.get? k with
      | none => rfl
      | some p => simp only [SampledInput.release_fresh]
    | write v =>
      simp only [SampledSys.step, expectedGets, SampledInput.write_fresh]

/-- With writes stamped by their index, the expected results never decrease
and are never below the generation that was the latest at the start. -/
theorem expectedGets_stamp_mono {T : Type} (ops : List (SampledOp T)) :
    ∀ (n : Nat) (latest : Option Nat), (∀ g, latest = some g → g ≤ n) →
      ((expectedGets latest (stampWrites n ops)).filterMap id).Pairwise (fun a b => a ≤ b)
      ∧ ∀ x ∈ (expectedGets latest (stampWrites n ops)).filterMap id,
          ∀ g, latest = some g → g ≤ x := by
  induction ops with
  | nil => intro n latest _; simp [stampWrites, expectedGets]
  | cons op rest ih =>
    intro n latest hl
    cases op with
    | get =>
      obtain ⟨h1, h2⟩ := ih n latest hl
      cases latest with
      | none => simpa [stampWrites, expectedGets] using h1
      | some g =>
        simp only [stampWrites, expectedGets, List.filterMap_cons, id]
        refine ⟨List.pairwise_cons.mpr ⟨fun x hx => h2 x hx g rfl, h1⟩, ?_⟩
        intro x hx g2 hg2
        cases hg2
        rcases List.mem_cons.mp hx with rfl | hx
        · exact Nat.le_refl _
        · exact h2 x hx g rfl
    | release k =>
      simpa [stampWrites, expectedGets] using ih n latest hl
    | write v =>
      obtain ⟨h1, h2⟩ := ih (n + 1) (some (n + 1)) (by intro g hg; cases hg; exact Nat.le_refl _)
      simp only [stampWrites, expectedGets]
      refine ⟨h1, ?_⟩
      intro x hx g hg
      have := h2 x hx (n + 1) rfl
      have := hl g hg
      omega

/-- C4. For every sequence of completed `get()`, handle-release and `write()`
operations on a `SampledInput` (whatever the initial contents of the members
the constructor leaves unset): every `get()` returns a handle whose value is
that of the most recent completed write, or the default value when one was
given and nothing was written yet, or the empty handle when nothing was
written and there is no default. Consequently, when every write carries its
write index, the values returned by successive `get()` calls never decrease. -/
theorem C4_sampled_input_latest {T : Type} (ops : List (SampledOp T)) (cached0 other0 d : T)
    (n0 n1 : Nat) (rc ro cb : Bool) :
    ((SampledSys.start (SampledInput.create cached0 other0 rc ro cb)).run ops).results
        = expectedGets none ops
    ∧ ((SampledSys.start (SampledInput.create_default d other0 rc ro cb)).run ops).results
        = expectedGets (some d) ops
    ∧ (((SampledSys.start (SampledInput.create n0 n1 rc ro cb)).run
          (stampWrites 0 ops)).results.filterMap id).Pairwise (fun a b => a ≤ b)
    ∧ (((SampledSys.start (SampledInput.create_default 0 n1 rc ro cb)).run
          (stampWrites 0 ops)).results.filterMap id).Pairwise (fun a b => a ≤ b) := by
  refine ⟨?_, ?_, ?_, ?_⟩
  · rw [SampledSys.run_results]; rfl
  · rw [SampledSys.run_results]; rfl
  · rw [SampledSys.run_results]
    exact (expectedGets_stamp_mono ops 0 none (by intro g hg; cases hg)).1
  · rw [SampledSys.run_results]
    exact (expectedGets_stamp_mono ops 0 (some 0) (by intro g hg; cases hg; exact Nat.le_refl _)).1

/-- C3 (the code at the failing input). After `get()`, `write(1)`, `get()` on
a `SampledInput` with default value 0, two handles are alive, the first bound
to `cached` and the second to `other`, and both reading flags are set. The
next `write` selects the cell `other` (the final `else` branch, commented
`!reading_other` in the source, is taken although `reading_other` is set),
which the second handle holds: the value seen through that handle changes
from 1 to 2 while it is held. -/
theorem C3_write_selects_held_cell :
    twoReaders.held = [{ parent := true, reading_cached := true },
                       { parent := true, reading_cached := false }]
    ∧ twoReaders.input.reading_cached = true
    ∧ twoReaders.input.reading_other = true
    ∧ twoReaders.input.write_select = false
    ∧ twoReaders.holds twoReaders.input.write_select = true
    ∧ (twoReaders.held.map (fun p => p.deref twoReaders.input)) = [some 0, some 1]
    ∧ (twoReaders.held.map (fun p => p.deref (twoReaders.input.write 2))) = [some 0, some 2]
    ∧ (twoReaders.step (.write 2)).held = twoReaders.held := by
  decide

/-- A second way to the same defect: the reading flags are booleans, so the
destruction of one of two handles on `cached` clears `reading_cached` while the
other handle is alive; the second of two later writes then selects `cached`. -/
theorem SampledInput.release_clears_shared_flag :
    sharedCell.held = [{ parent := true, reading_cached := true }]
    ∧ sharedCell.input.reading_cached = false
    ∧ (sharedCell.step (.write 1)).input.write_select = true
    ∧ (sharedCell.step (.write 1)).holds (sharedCell.step (.write 1)).input.write_select = true := by
  decide

/-- A completed `write` does not touch the reading flags. -/
theorem SampledInput.write_flags {T : Type} (s : SampledInput T) (v : T) :
    (s.write v).reading_cached = s.reading_cached
    ∧ (s.write v).reading_other = s.reading_other := by
  unfold SampledInput.write SampledInput.write_publish SampledInput.write_assign
  cases s.write_select <;> cases s.callback <;> simp

/-- With a single reader the flags stay exact. -/
theorem SampledSys.flagsExact_run {T : Type} (ops : List (SampledOp T)) :
    ∀ (sys : SampledSys T) (live : Nat), sys.flagsExact → live = sys.held.length →
      singleReader live ops = true → (sys.run ops).flagsExact := by
  induction ops with
  | nil => intro sys live h _ _; exact h
  | cons op rest ih =>
    intro sys live hex hlive hsingle
    have hstep : sys.run (op :: rest) = (sys.step op).run rest := rfl
    rw [hstep]
    cases op with
    | get =>
      simp only [singleReader, Bool.and_eq_true, beq_iff_eq] at hsingle
      have hheld : sys.held = [] := List.eq_nil_of_length_eq_zero (by omega)
      rcases hex with ⟨_, hrc, hro⟩ | ⟨p, hp, _⟩
      · apply ih (sys.step .get) 1 _ (by simp [SampledSys.step, hheld]) hsingle.2
        refine Or.inr ⟨sys.input.get.2, by simp [SampledSys.step, hheld], ?_⟩
        simp only [SampledSys.step, SampledInput.get]
        cases hv : sys.input.value_received <;> cases hr : sys.input.read_cached <;>
          simp [hrc, hro]
      · rw [hp] at hheld; cases hheld
    | release k =>
      simp only [singleReader, Bool.and_eq_true, beq_iff_eq] at hsingle
      obtain ⟨⟨hl, hk⟩, hrest⟩ := hsingle
      subst hk
      rcases hex with ⟨hnil, _, _⟩ | ⟨p, hp, hflags⟩
      · rw [hnil] at hlive; simp at hlive; omega
      · apply ih (sys.step (.release 0)) 0 _ (by simp [SampledSys.step, hp]) hrest
        refine Or.inl ?_
        simp only [SampledSys.step, hp, List.get?_cons_zero, List.eraseIdx_cons_zero,
          SampledInput.release, true_and]
        rcases hflags with ⟨h0, h1, h2⟩ | ⟨h0, h1, h2⟩
        · simp [h0, h1, h2]
        · cases hc : p.reading_cached <;> simp [h0, hc] <;> simp_all
    | write v =>
      simp only [singleReader] at hsingle
      apply ih (sys.step (.write v)) live _ (by simpa [SampledSys.step] using hlive) hsingle
      obtain ⟨h1, h2⟩ := SampledInput.write_flags sys.input v
      simpa only [SampledSys.flagsExact, SampledSys.step, h1, h2] using hex

/-- With at most one handle alive at a time (and the reading flags clear at
construction), the cell that `write` selects is never the cell of the handle
that is alive. -/
theorem SampledSys.single_reader_safe {T : Type} (ops : List (SampledOp T))
    (input : SampledInput T) (hrc : input.reading_cached = false)
    (hro : input.reading_other = false) (hsingle : singleReader 0 ops = true) :
    ((SampledSys.start input).run ops).holds
      ((SampledSys.start input).run ops).input.write_select = false := by
  have h := SampledSys.flagsExact_run ops (SampledSys.start input) 0
    (Or.inl ⟨rfl, hrc, hro⟩) rfl hsingle
  generalize (SampledSys.start input).run ops = sys at h
  rcases h with ⟨hnil, _, _⟩ | ⟨p, hp, hflags⟩
  · simp [SampledSys.holds, hnil]
  · rcases hflags with ⟨h0, _, _⟩ | ⟨h0, h1, h2⟩
    · simp [SampledSys.holds, hp, h0]
    · cases hc : p.reading_cached <;>
        simp [SampledSys.holds, hp, h0, SampledInput.write_select, h1, h2, hc]

/-! ### `CallbackInput` -/

/-- Two positions less than `n` apart lie in different cells of the ring. -/
theorem ring_cell_ne {n i j : Nat} (hij : i < j) (hjn : j < i + n) : i % n ≠ j % n := by
  intro h
  have h0 : (j - i) % n = 0 := Nat.sub_mod_eq_zero_of_mod_eq h.symm
  have hd : n ∣ (j - i) := Nat.dvd_of_mod_eq_zero h0
  have := Nat.eq_zero_of_dvd_of_lt hd (by omega)
  omega

/-- Advancing a ring position by one. -/
theorem ring_succ (n k : Nat) : (k % n + 1) % n = (k + 1) % n := by
  rw [Nat.add_mod (k % n) 1 n, Nat.mod_mod, ← Nat.add_mod]

/-- The invariant holds for a freshly constructed input of capacity `n ≥ 1`. -/
theorem CallbackSys.inv_start {T : Type} (n : Nat) (hn : 0 < n) (init : T) :
    CallbackSys.Inv n ([] : List T) 0 (CallbackSys.start n init) := by
  refine ⟨by simp [CallbackSys.start, CallbackInput.create],
    by simp [CallbackSys.start, CallbackInput.create],
    by simp [CallbackSys.start, CallbackInput.create], Nat.le_refl _, by simp, ?_, ?_, rfl, rfl, ?_⟩
  · simp only [CallbackSys.start, CallbackInput.create, List.length_nil, Nat.zero_add]
    have : ¬ (0 = n) := by omega
    simp [this]
  · intro i _ hi; simp at hi
  · simp [CallbackSys.start, CallbackInput.create]

/-- A write that keeps the number of unconsumed values within the capacity
does not spin, places its value and preserves the invariant. -/
theorem CallbackSys.inv_write {T : Type} {n : Nat} {written : List T} {released : Nat}
    {sys : CallbackSys T} (hn : 0 < n) (hinv : CallbackSys.Inv n written released sys)
    (hcap : written.length + 1 ≤ released + n) (v : T) :
    ∃ next, sys.step (.write v) = some next
      ∧ CallbackSys.Inv n (written ++ [v]) released next := by
  obtain ⟨hlen, hfront, hback, hRW, hWR, hfull, hcont, hspin, hbad, hcons⟩ := hinv
  have hnf : sys.input.full = false := by
    rw [hfull]; simp; omega
  refine ⟨{ sys with
      input := { sys.input with
        queue := sys.input.queue.set sys.input.back v
        back := (sys.input.back + 1) % sys.input.queue.length
        full := ((sys.input.back + 1) % sys.input.queue.length == sys.input.front) }
      tasks := sys.tasks + 1 }, ?_, ?_⟩
  · simp [CallbackSys.step, hspin, CallbackInput.write, hnf]
  · refine ⟨by simpa using hlen, hfront, ?_, by simp; omega, by simp; omega, ?_, ?_, hspin, hbad, ?_⟩
    · simp only [List.length_append, List.length_singleton]
      rw [hlen, hback, ring_succ]
    · simp only [List.length_append, List.length_singleton]
      rw [hlen, hback, hfront, ring_succ]
      by_cases heq : written.length + 1 = released + n
      · have : (written.length + 1) % n = released % n := by
          rw [heq, Nat.add_mod_right]
        simp [heq, this]
      · have hne : released % n ≠ (written.length + 1) % n :=
          ring_cell_ne (by omega) (by omega)
        simp [heq, Ne.symm hne]
    · intro i hi1 hi2
      simp only [List.length_append, List.length_singleton] at hi2
      have hbn : written.length % n < sys.input.queue.length := by
        rw [hlen]; exact Nat.mod_lt _ hn
      by_cases hiw : i = written.length
      · subst hiw
        simp only [hback]
        rw [List.get?_eq_getElem?, List.get?_eq_getElem?, List.getElem?_set_self hbn]
        simp
      · have hlt : i < written.length := by omega
        have hne : written.length % n ≠ i % n :=
          Ne.symm (ring_cell_ne hlt (by omega))
        simp only [hback]
        rw [List.get?_eq_getElem?, List.get?_eq_getElem?, List.getElem?_set_ne hne,
          List.getElem?_append_left hlt]
        have := hcont i hi1 hlt
        simpa [List.get?_eq_getElem?] using this
    · cases hc : sys.consumer with
      | none =>
        rw [hc] at hcons
        obtain ⟨h1, h2, h3⟩ := hcons
        refine ⟨by simp; omega, h2, ?_⟩
        simp only
        rw [h3, List.take_append_of_le_length hRW]
      | some pc =>
        obtain ⟨p, called⟩ := pc
        rw [hc] at hcons
        obtain ⟨h0, h1, h2, h3⟩ := hcons
        refine ⟨h0, by simp; omega, h2, ?_⟩
        simp only
        rw [h3, List.take_append_of_le_length (by split <;> omega)]

/-- A `process` task that starts while a task is pushed finds a value: `get()`
returns a non-empty handle, and the invariant is preserved. -/
theorem CallbackSys.inv_begin {T : Type} {n : Nat} {written : List T} {released : Nat}
    {sys next : CallbackSys T} (hinv : CallbackSys.Inv n written released sys)
    (hstep : sys.step .start = some next) :
    CallbackSys.Inv n written released next := by
  obtain ⟨hlen, hfront, hback, hRW, hWR, hfull, hcont, hspin, hbad, hcons⟩ := hinv
  simp only [CallbackSys.step] at hstep
  split at hstep
  · cases hstep
  · next hguard =>
    simp only [Bool.or_eq_true, not_or, Bool.not_eq_true, beq_iff_eq, Option.isSome] at hguard
    obtain ⟨⟨⟨_, hmx⟩, htasks⟩, hnone⟩ := hguard
    have hcn : sys.consumer = none := by
      cases hc : sys.consumer with
      | none => rfl
      | some pc => rw [hc] at hnone; simp at hnone
    rw [hcn] at hcons
    obtain ⟨h1, h2, h3⟩ := hcons
    have hpos : released < written.length := by
      have : sys.tasks ≠ 0 := by simpa using htasks
      omega
    have hnonempty : (!sys.input.full && sys.input.front == sys.input.back) = false := by
      by_cases hf : written.length = released + n
      · simp [hfull, hf]
      · have hne : released % n ≠ written.length % n := ring_cell_ne hpos (by omega)
        simp [hfront, hback, hne]
    have hget : sys.input.get = ({ sys.input with mutex := true }, { parent := true }) := by
      simp [CallbackInput.get, hnonempty]
    cases hstep
    rw [hget]
    refine ⟨hlen, hfront, hback, hRW, hWR, hfull, hcont, hspin, hbad, ?_⟩
    exact ⟨rfl, by show sys.tasks - 1 + released + 1 = written.length; omega, rfl,
      by simpa using h3⟩

/-- The callback invocation of a `process` task receives the oldest
unconsumed value, and the invariant is preserved. -/
theorem CallbackSys.inv_call {T : Type} {n : Nat} {written : List T} {released : Nat}
    {sys next : CallbackSys T} (hinv : CallbackSys.Inv n written released sys)
    (hstep : sys.step .call = some next) :
    CallbackSys.Inv n written released next := by
  obtain ⟨hlen, hfront, hback, hRW, hWR, hfull, hcont, hspin, hbad, hcons⟩ := hinv
  simp only [CallbackSys.step] at hstep
  split at hstep
  · next p hc =>
    rw [hc] at hcons
    obtain ⟨h0, h1, h2, h3⟩ := hcons
    have hpos : released < written.length := by omega
    have hval : p.deref sys.input = some (written[released]) := by
      simp only [CallbackInput.Pointer.deref, h0, if_true, hfront]
      rw [hcont released (Nat.le_refl _) hpos, List.get?_eq_getElem?,
        List.getElem?_eq_getElem hpos]
    rw [hval] at hstep
    cases hstep
    refine ⟨hlen, hfront, hback, hRW, hWR, hfull, hcont, hspin, hbad, ?_⟩
    simp only
    refine ⟨h0, h1, h2, ?_⟩
    rw [h3]
    simp only [Bool.false_eq_true, if_false, if_true, Nat.add_zero]
    rw [List.take_succ, List.getElem?_eq_getElem hpos]
    rfl
  · cases hstep

/-- The end of a `process` task releases one value and preserves the invariant. -/
theorem CallbackSys.inv_finish {T : Type} {n : Nat} {written : List T} {released : Nat}
    {sys next : CallbackSys T} (hinv : CallbackSys.Inv n written released sys)
    (hstep : sys.step .finish = some next) :
    CallbackSys.Inv n written (released + 1) next := by
  obtain ⟨hlen, hfront, hback, hRW, hWR, hfull, hcont, hspin, hbad, hcons⟩ := hinv
  simp only [CallbackSys.step] at hstep
  split at hstep
  · next p hc =>
    rw [hc] at hcons
    obtain ⟨h0, h1, h2, h3⟩ := hcons
    simp only [hspin, Bool.and_false, Bool.false_eq_true, if_false] at hstep
    cases hstep
    have hrel : sys.input.release p
        = { sys.input with
            mutex := false
            full := false
            front := (sys.input.front + 1) % sys.input.queue.length } := by
      simp [CallbackInput.release, h0]
    rw [hrel]
    refine ⟨hlen, ?_, hback, by omega, by omega, ?_, ?_, rfl, hbad, ?_⟩
    · simp only
      rw [hlen, hfront, ring_succ]
    · simp only
      have : ¬ (written.length = released + 1 + n) := by omega
      simp [this]
    · intro i hi1 hi2
      exact hcont i (by omega) hi2
    · exact ⟨by show sys.tasks + (released + 1) = written.length; omega, rfl,
        by simpa using h3⟩
  · cases hstep

/-- The invariant along a schedule that stays within the capacity. -/
theorem CallbackSys.inv_run {T : Type} {n : Nat} (hn : 0 < n) :
    ∀ (sched : List (CallbackEvent T)) (sys final : CallbackSys T) (written : List T)
      (released : Nat),
      CallbackSys.Inv n written released sys →
      withinCapacity n (written.length - released) sched = true →
      sys.run sched = some final →
      CallbackSys.Inv n (written ++ writtenValues sched) (released + finishCount sched) final := by
  intro sched
  induction sched with
  | nil =>
    intro sys final written released hinv _ hrun
    simp only [CallbackSys.run, Option.some.injEq] at hrun
    subst hrun
    simpa [writtenValues, finishCount] using hinv
  | cons ev rest ih =>
    intro sys final written released hinv hcap hrun
    have hRW : released ≤ written.length := hinv.2.2.2.1
    cases ev with
    | write v =>
      simp only [withinCapacity, Bool.and_eq_true, decide_eq_true_eq] at hcap
      obtain ⟨next, hstep, hnext⟩ := CallbackSys.inv_write hn hinv (by omega) v
      simp only [CallbackSys.run, hstep] at hrun
      have hlen : (written ++ [v]).length - released = written.length - released + 1 := by
        simp; omega
      have := ih next final (written ++ [v]) released hnext (by rw [hlen]; exact hcap.2) hrun
      simpa [writtenValues, finishCount] using this
    | start =>
      simp only [withinCapacity] at hcap
      simp only [CallbackSys.run] at hrun
      cases hstep : sys.step .start with
      | none => rw [hstep] at hrun; cases hrun
      | some next =>
        rw [hstep] at hrun
        have := ih next final written released (CallbackSys.inv_begin hinv hstep) hcap hrun
        simpa [writtenValues, finishCount] using this
    | call =>
      simp only [withinCapacity] at hcap
      simp only [CallbackSys.run] at hrun
      cases hstep : sys.step .call with
      | none => rw [hstep] at hrun; cases hrun
      | some next =>
        rw [hstep] at hrun
        have := ih next final written released (CallbackSys.inv_call hinv hstep) hcap hrun
        simpa [writtenValues, finishCount] using this
    | finish =>
      simp only [withinCapacity] at hcap
      simp only [CallbackSys.run] at hrun
      cases hstep : sys.step .finish with
      | none => rw [hstep] at hrun; cases hrun
      | some next =>
        rw [hstep] at hrun
        have hsub : written.length - (released + 1) = written.length - released - 1 := by omega
        have := ih next final written (released + 1) (CallbackSys.inv_finish hinv hstep)
          (by rw [hsub]; exact hcap) hrun
        simpa [writtenValues, finishCount, Nat.add_assoc, Nat.add_comm 1] using this

/-- C2. `CallbackInput` of capacity `n ≥ 1`, started empty, under any schedule
of writes and `process` steps (one `process` task at a time) in which at most
`n` written values are unconsumed at any time: no writer ever spins on `full`,
`process` never obtains or dereferences an empty handle, a waiting task can
always start and a task that has called back can always finish, the callback
invocations so far are the written values in order, without gap or repeat, and
once every pushed `process` task has been executed the callback has been
invoked exactly once per written value, in the order of the writes. -/
theorem C2_callback_input_fifo {T : Type} (n : Nat) (hn : 1 ≤ n) (init : T)
    (sched : List (CallbackEvent T)) (final : CallbackSys T)
    (hrun : (CallbackSys.start n init).run sched = some final)
    (hcap : withinCapacity n 0 sched = true) :
    final.spinning = false
    ∧ final.bad_derefs = 0
    ∧ (∀ p called, final.consumer = some (p, called) → p.parent = true)
    ∧ (final.consumer = none → 0 < final.tasks → (final.step .start).isSome = true)
    ∧ (∀ p, final.consumer = some (p, true) → (final.step .finish).isSome = true)
    ∧ final.callback_calls <+: writtenValues sched
    ∧ (final.tasks = 0 → final.consumer = none → final.callback_calls = writtenValues sched) := by
  have hinv := CallbackSys.inv_run (Nat.lt_of_lt_of_le Nat.zero_lt_one hn) sched
    (CallbackSys.start n init) final [] 0
    (CallbackSys.inv_start n (Nat.lt_of_lt_of_le Nat.zero_lt_one hn) init) (by simpa using hcap) hrun
  simp only [List.nil_append, Nat.zero_add] at hinv
  obtain ⟨hlen, hfront, hback, hRW, hWR, hfull, hcont, hspin, hbad, hcons⟩ := hinv
  refine ⟨hspin, hbad, ?_, ?_, ?_, ?_, ?_⟩
  · intro p called hc
    rw [hc] at hcons
    exact hcons.1
  · intro hc htasks
    rw [hc] at hcons
    have hne : (final.tasks == 0) = false := by simp; omega
    simp [CallbackSys.step, hspin, hcons.2.1, hc, hne]
  · intro p hc
    simp [CallbackSys.step, hc, hspin]
  · cases hc : final.consumer with
    | none =>
      rw [hc] at hcons
      rw [hcons.2.2]
      exact List.take_prefix _ _
    | some pc =>
      rw [hc] at hcons
      rw [hcons.2.2.2]
      exact List.take_prefix _ _
  · intro htasks hc
    rw [hc] at hcons
    rw [hcons.2.2, List.take_of_length_le (by omega)]

/-- Witness for C2: capacity 2, the schedule `callbackSchedule` (three writes,
the third while the second value is being consumed). -/
theorem C2_callback_input_fifo_witness :
    (CallbackSys.start 2 0).run callbackSchedule
        = some { input := { queue := [30, 20], front := 1, back := 1, full := false,
                            mutex := false },
                 tasks := 0, consumer := none, callback_calls := [10, 20, 30],
                 bad_derefs := 0, spinning := false }
    ∧ writtenValues callbackSchedule = [10, 20, 30]
    ∧ (10 :: 20 :: [30] : List Nat) = writtenValues callbackSchedule :=
  ⟨by decide, by decide,
   (C2_callback_input_fifo 2 (by decide) 0 callbackSchedule
      { input := { queue := [30, 20], front := 1, back := 1, full := false, mutex := false },
        tasks := 0, consumer := none, callback_calls := [10, 20, 30],
        bad_derefs := 0, spinning := false }
      (by decide) (by decide)).2.2.2.2.2.2 rfl rfl⟩

/-! ### Timer scheduler -/

/-- The timer loop computed in closed form: records are updated pointwise and
the due records, in index order, are appended to the queue. -/
theorem Engine.dispatch_timers_eq {τ : Type} [LT τ] [DecidableRel (fun (a b : τ) => a < b)] [Add τ]
    (new_time : TimePoint τ) :
    ∀ (records : List (TimerCallback τ)) (i : Nat) (queue : List (Deferred τ)),
      Engine.dispatch_timers new_time records i queue
        = (records.map (fun r => if r.due new_time then r.advance else r),
           queue ++ ((records.enumFrom i).filter (fun p => p.2.due new_time)).map
              (fun p => Deferred.timer p.1 new_time)) := by
  intro records
  induction records with
  | nil => intro i queue; simp [Engine.dispatch_timers]
  | cons r rest ih =>
    intro i queue
    unfold Engine.dispatch_timers
    by_cases h : r.next_time < new_time.time
    · have hd : r.due new_time = true := by simp [TimerCallback.due, h]
      simp only [h, if_true, ih, List.map_cons, hd, List.enumFrom_cons, List.filter_cons,
        List.append_assoc, List.singleton_append]
      rfl
    · have hd : r.due new_time = false := by simp [TimerCallback.due, h]
      simp only [h, if_false, ih, List.map_cons, hd, List.enumFrom_cons, List.filter_cons]
      rfl

/-- Among the dispatches of one pass, the record at index `j` occurs once if it
was due and not at all otherwise. -/
theorem Engine.countP_dispatches {τ : Type} [LT τ] [DecidableRel (fun (a b : τ) => a < b)]
    (new_time : TimePoint τ) :
    ∀ (records : List (TimerCallback τ)) (k j : Nat) (r : TimerCallback τ),
      k ≤ j → records[j - k]? = some r →
      ((((records.enumFrom k).filter (fun p => p.2.due new_time)).map
          (fun p => Deferred.timer p.1 new_time)).countP (Deferred.isTimer j))
        = if r.due new_time then 1 else 0 := by
  have hzero : ∀ (records : List (TimerCallback τ)) (k j : Nat), j < k →
      ((((records.enumFrom k).filter (fun p => p.2.due new_time)).map
          (fun p => Deferred.timer p.1 new_time)).countP (Deferred.isTimer j)) = 0 := by
    intro records
    induction records with
    | nil => intro k j _; simp
    | cons r rest ih =>
      intro k j hjk
      have hne : (k == j) = false := by simp; omega
      rw [List.enumFrom_cons, List.filter_cons]
      split
      · rw [List.map_cons, List.countP_cons, ih (k + 1) j (by omega)]
        simp [Deferred.isTimer, hne]
      · exact ih (k + 1) j (by omega)
  intro records
  induction records with
  | nil => intro k j r _ h; simp at h
  | cons r0 rest ih =>
    intro k j r hkj hget
    rw [List.enumFrom_cons, List.filter_cons]
    by_cases hjk : j = k
    · subst hjk
      simp at hget
      subst hget
      split
      · next hd =>
        rw [List.map_cons, List.countP_cons, hzero rest (j + 1) j (by omega)]
        simp [Deferred.isTimer, hd]
      · next hd =>
        rw [hzero rest (j + 1) j (by omega)]
    · have hne : (k == j) = false := by simp; omega
      have hget2 : rest[j - (k + 1)]? = some r := by
        have : j - k = (j - (k + 1)) + 1 := by omega
        rw [this] at hget
        simpa using hget
      split
      · rw [List.map_cons, List.countP_cons, ih (k + 1) j r (by omega) hget2]
        simp [Deferred.isTimer, hne]
      · exact ih (k + 1) j r (by omega) hget2

/-- The record indices of the dispatches of one pass increase strictly. -/
theorem Engine.dispatches_increasing {τ : Type} [LT τ] [DecidableRel (fun (a b : τ) => a < b)]
    (new_time : TimePoint τ) (records : List (TimerCallback τ)) (k : Nat) :
    ((((records.enumFrom k).filter (fun p => p.2.due new_time)).map
        (fun p => Deferred.timer p.1 new_time)).filterMap Deferred.record?).Pairwise
      (fun a b => a < b) := by
  have h1 : ((((records.enumFrom k).filter (fun p => p.2.due new_time)).map
        (fun p => Deferred.timer p.1 new_time)).filterMap Deferred.record?)
      = ((records.enumFrom k).filter (fun p => p.2.due new_time)).map Prod.fst := by
    rw [List.filterMap_map]
    rw [← List.filterMap_eq_map]
    rfl
  rw [h1]
  have h2 : (((records.enumFrom k).filter (fun p => p.2.due new_time)).map Prod.fst).Sublist
      ((records.enumFrom k).map Prod.fst) :=
    List.Sublist.map _ (List.filter_sublist _)
  refine List.Pairwise.sublist h2 ?_
  rw [List.enumFrom_map_fst]
  exact List.pairwise_lt_range' k records.length

/-- C8. One sampling pass of the timing thread with sampled time `t`: the
engine time becomes `t`; a record with `next_time < t.time` gets exactly one
deferred callback, which holds `t` and invokes the callback of the record with
`t`, and its `next_time` grows by `period`; any
other record gets no deferred callback and is unchanged; the deferred
callbacks are appended to the queue in registration (index) order. -/
theorem C8_sampling_pass_dispatch {τ : Type} [LT τ] [DecidableRel (fun (a b : τ) => a < b)]
    [Add τ] (e : Engine τ) (t : TimePoint τ) :
    (e.sampling_pass t).time = t
    ∧ (e.sampling_pass t).timer_callbacks.length = e.timer_callbacks.length
    ∧ (∀ (i : Nat) (r : TimerCallback τ), e.timer_callbacks[i]? = some r →
        (r.next_time < t.time →
          (e.sampling_pass t).timer_callbacks[i]?
              = some { period := r.period, next_time := r.next_time + r.period,
                       callback := r.callback }
          ∧ (newDeferred e.callback_queue (e.sampling_pass t).callback_queue).countP
              (Deferred.isTimer i) = 1
          ∧ (e.sampling_pass t).invoke (Deferred.timer i t) = some (r.callback, t))
        ∧ (¬ r.next_time < t.time →
          (e.sampling_pass t).timer_callbacks[i]? = some r
          ∧ (newDeferred e.callback_queue (e.sampling_pass t).callback_queue).countP
              (Deferred.isTimer i) = 0))
    ∧ (e.sampling_pass t).callback_queue
        = e.callback_queue ++ ((e.timer_callbacks.enum.filter
            (fun p => decide (p.2.next_time < t.time))).map (fun p => Deferred.timer p.1 t))
    ∧ (∀ d ∈ newDeferred e.callback_queue (e.sampling_pass t).callback_queue,
        ∃ i, d = Deferred.timer i t)
    ∧ ((newDeferred e.callback_queue (e.sampling_pass t).callback_queue).filterMap
        Deferred.record?).Pairwise (fun a b => a < b) := by
  have hq : (e.sampling_pass t).callback_queue
      = e.callback_queue ++ ((e.timer_callbacks.enumFrom 0).filter
          (fun p => p.2.due t)).map (fun p => Deferred.timer p.1 t) := by
    simp only [Engine.sampling_pass, Engine.dispatch_timers_eq]
  have hr : (e.sampling_pass t).timer_callbacks
      = e.timer_callbacks.map (fun r => if r.due t then r.advance else r) := by
    simp only [Engine.sampling_pass, Engine.dispatch_timers_eq]
  have hnew : newDeferred e.callback_queue (e.sampling_pass t).callback_queue
      = ((e.timer_callbacks.enumFrom 0).filter
          (fun p => p.2.due t)).map (fun p => Deferred.timer p.1 t) := by
    rw [hq]; simp [newDeferred]
  refine ⟨rfl, by rw [hr]; simp, ?_, ?_, ?_, ?_⟩
  · intro i r hget
    have hcount := Engine.countP_dispatches t e.timer_callbacks 0 i r (Nat.zero_le i)
      (by simpa using hget)
    have hmap : (e.sampling_pass t).timer_callbacks[i]?
        = some (if r.due t then r.advance else r) := by
      rw [hr, List.getElem?_map, hget]; rfl
    constructor
    · intro hlt
      have hd : r.due t = true := by simp [TimerCallback.due, hlt]
      rw [Engine.invoke, hnew, hcount, hmap, hd]
      exact ⟨rfl, rfl, rfl⟩
    · intro hlt
      have hd : r.due t = false := by simp [TimerCallback.due, hlt]
      rw [hnew, hcount, hmap, hd]
      exact ⟨rfl, rfl⟩
  · rw [hq]; rfl
  · intro d hd
    rw [hnew] at hd
    simp only [List.mem_map] at hd
    obtain ⟨p, _, rfl⟩ := hd
    exact ⟨p.1, rfl⟩
  · rw [hnew]
    exact Engine.dispatches_increasing t e.timer_callbacks 0

/-- One pass, seen from the record at index `i`: the queue grows by a list
holding one dispatch of `i` if the record was due and none otherwise, and the
record advances by one period exactly when it was due. -/
theorem Engine.sampling_pass_record {τ : Type} [LT τ] [DecidableRel (fun (a b : τ) => a < b)]
    [Add τ] (e : Engine τ) (t : TimePoint τ) (i : Nat) (r : TimerCallback τ)
    (hget : e.timer_callbacks[i]? = some r) :
    ∃ l : List (Deferred τ),
      (e.sampling_pass t).callback_queue = e.callback_queue ++ l
      ∧ l.countP (Deferred.isTimer i) = (if r.due t then 1 else 0)
      ∧ (e.sampling_pass t).timer_callbacks[i]? = some (if r.due t then r.advance else r) := by
  refine ⟨((e.timer_callbacks.enumFrom 0).filter (fun p => p.2.due t)).map
      (fun p => Deferred.timer p.1 t), ?_, ?_, ?_⟩
  · simp only [Engine.sampling_pass, Engine.dispatch_timers_eq]
  · exact Engine.countP_dispatches t e.timer_callbacks 0 i r (Nat.zero_le i) (by simpa using hget)
  · simp only [Engine.sampling_pass, Engine.dispatch_timers_eq]
    rw [List.getElem?_map, hget]; rfl

/-- Cadence invariant over a run of passes in exact rational arithmetic (an
idealisation): with `prev ≤ next_time ≤ prev + p`
before the run and a cooperative time source, the record has advanced by `p`
per dispatch and `T ≤ next_time ≤ T + p` holds for the last sampled time `T`. -/
theorem Engine.sampling_passes_cadence_exact :
    ∀ (samples : List (TimePoint ℚ)) (e : Engine ℚ) (i : Nat) (r : TimerCallback ℚ) (prev : ℚ),
      e.timer_callbacks[i]? = some r → prev ≤ r.next_time → r.next_time ≤ prev + r.period →
      cooperative r.period prev (samples.map (fun s => s.time)) = true →
      ∃ (l : List (Deferred ℚ)) (r2 : TimerCallback ℚ),
        (e.sampling_passes samples).callback_queue = e.callback_queue ++ l
        ∧ (e.sampling_passes samples).timer_callbacks[i]? = some r2
        ∧ r2.period = r.period
        ∧ r2.next_time = r.next_time + (l.countP (Deferred.isTimer i) : ℚ) * r.period
        ∧ (samples.map (fun s => s.time)).getLastD prev ≤ r2.next_time
        ∧ r2.next_time ≤ (samples.map (fun s => s.time)).getLastD prev + r.period := by
  intro samples
  induction samples with
  | nil =>
    intro e i r prev hget h1 h2 _
    exact ⟨[], r, by simp [Engine.sampling_passes], by simpa [Engine.sampling_passes] using hget,
      rfl, by simp, by simpa using h1, by simpa using h2⟩
  | cons t rest ih =>
    intro e i r prev hget h1 h2 hcoop
    simp only [List.map_cons, cooperative, Bool.and_eq_true, decide_eq_true_eq] at hcoop
    obtain ⟨⟨hc1, hc2⟩, hc3⟩ := hcoop
    obtain ⟨l1, hq1, hcnt1, hrec1⟩ := Engine.sampling_pass_record e t i r hget
    have hlast : ((t :: rest).map (fun s => s.time)).getLastD prev
        = (rest.map (fun s => s.time)).getLastD t.time := by
      cases rest <;> simp [List.getLastD]
    by_cases hdue : r.next_time < t.time
    · have hd : r.due t = true := by simp [TimerCallback.due, hdue]
      rw [hd] at hcnt1 hrec1
      simp only [if_true] at hcnt1 hrec1
      obtain ⟨l2, r2, hq2, hrec2, hper2, hnext2, hlo, hhi⟩ :=
        ih (e.sampling_pass t) i r.advance t.time hrec1
          (by simp only [TimerCallback.advance]; linarith)
          (by simp only [TimerCallback.advance]; linarith)
          (by simpa [TimerCallback.advance] using hc3)
      refine ⟨l1 ++ l2, r2, ?_, ?_, ?_, ?_, ?_, ?_⟩
      · simp only [Engine.sampling_passes, List.foldl] at hq2 ⊢
        rw [hq2, hq1, List.append_assoc]
      · simpa only [Engine.sampling_passes, List.foldl] using hrec2
      · simpa [TimerCallback.advance] using hper2
      · rw [hnext2, List.countP_append, hcnt1]
        simp only [TimerCallback.advance]
        push_cast
        ring
      · rw [hlast]; exact hlo
      · rw [hlast]; simpa [TimerCallback.advance] using hhi
    · have hd : r.due t = false := by simp [TimerCallback.due, hdue]
      rw [hd] at hcnt1 hrec1
      simp only [Bool.false_eq_true, if_false] at hcnt1 hrec1
      obtain ⟨l2, r2, hq2, hrec2, hper2, hnext2, hlo, hhi⟩ :=
        ih (e.sampling_pass t) i r t.time hrec1 (by linarith) (by linarith) hc3
      refine ⟨l1 ++ l2, r2, ?_, ?_, hper2, ?_, ?_, ?_⟩
      · simp only [Engine.sampling_passes, List.foldl] at hq2 ⊢
        rw [hq2, hq1, List.append_assoc]
      · simpa only [Engine.sampling_passes, List.foldl] using hrec2
      · rw [hnext2, List.countP_append, hcnt1]
        simp
      · rw [hlast]; exact hlo
      · rw [hlast]; exact hhi

/-- Timer cadence in an idealisation with exact rational arithmetic in place
of `double` (not the arithmetic of the program): a timer record of period
`p > 0` with `next_time = 0` and a cooperative time source (samples start at or
above 0, never decrease, and the first sample and every step are at most `p`).
After the pass whose sampled time is `T`, the number `n` of dispatches of the
timer differs from `⌊T / p⌋` by at most one and `next_time = n * p`. -/
theorem Engine.cadence_exact_arithmetic (e : Engine ℚ) (i : Nat) (r : TimerCallback ℚ)
    (samples : List (TimePoint ℚ)) (hne : samples ≠ [])
    (hreg : e.timer_callbacks[i]? = some r) (hzero : r.next_time = 0) (hp : 0 < r.period)
    (hcoop : cooperative r.period 0 (samples.map (fun s => s.time)) = true) :
    |(dispatchCount e.callback_queue (e.sampling_passes samples).callback_queue i : ℤ)
        - ⌊(samples.getLast hne).time / r.period⌋| ≤ 1
    ∧ ((e.sampling_passes samples).timer_callbacks[i]?).map (fun c => c.next_time)
        = some ((dispatchCount e.callback_queue (e.sampling_passes samples).callback_queue i : ℚ)
            * r.period) := by
  obtain ⟨l, r2, hq, hrec, _, hnext, hlo, hhi⟩ :=
    Engine.sampling_passes_cadence_exact samples e i r 0 hreg (by rw [hzero])
      (by rw [hzero]; linarith) hcoop
  have hcount : dispatchCount e.callback_queue (e.sampling_passes samples).callback_queue i
      = l.countP (Deferred.isTimer i) := by
    simp [dispatchCount, newDeferred, hq]
  have hT : (samples.map (fun s => s.time)).getLastD 0 = (samples.getLast hne).time := by
    rw [List.getLastD_eq_getLast?, List.getLast?_eq_getLast _ (by simpa using hne)]
    simp [List.getLast_map]
  rw [hT] at hlo hhi
  rw [hcount, hrec]
  rw [hzero, zero_add] at hnext
  rw [hnext] at hlo hhi
  generalize l.countP (Deferred.isTimer i) = n at *
  generalize (samples.getLast hne).time = T at *
  refine ⟨?_, by simp [hnext]⟩
  have h1 : T / r.period ≤ (n : ℚ) := by
    rw [div_le_iff₀ hp]; exact hlo
  have h2 : ((n : ℚ) - 1) ≤ T / r.period := by
    rw [le_div_iff₀ hp]; linarith
  have hf1 : ⌊T / r.period⌋ ≤ (n : ℤ) := by
    have : ((⌊T / r.period⌋ : ℤ) : ℚ) ≤ ((n : ℤ) : ℚ) := by
      have := Int.floor_le (T / r.period)
      push_cast
      linarith
    exact_mod_cast this
  have hf2 : (n : ℤ) - 1 ≤ ⌊T / r.period⌋ := by
    apply Int.le_floor.mpr
    push_cast
    exact h2
  rw [abs_le]
  constructor <;> omega

/-- The exact-arithmetic cadence at an example: one timer of period 2 created
by `create_timer_callback`,
sampled at the times 1, 3, 3 and 5. -/
theorem Engine.cadence_exact_arithmetic_example :
    |(dispatchCount exactCadenceEngine.callback_queue
        (exactCadenceEngine.sampling_passes exactCadenceSamples).callback_queue 0 : ℤ)
        - ⌊(exactCadenceSamples.getLast (List.cons_ne_nil _ _)).time
            / (TimerCallback.mk 2 0 7 : TimerCallback ℚ).period⌋| ≤ 1
    ∧ ((exactCadenceEngine.sampling_passes exactCadenceSamples).timer_callbacks[0]?).map
          (fun c => c.next_time)
        = some ((dispatchCount exactCadenceEngine.callback_queue
            (exactCadenceEngine.sampling_passes exactCadenceSamples).callback_queue 0 : ℚ)
            * (TimerCallback.mk 2 0 7 : TimerCallback ℚ).period) :=
  Engine.cadence_exact_arithmetic exactCadenceEngine 0 (TimerCallback.mk 2 0 7) exactCadenceSamples
    (List.cons_ne_nil _ _) rfl rfl (by norm_num)
    (by simp only [exactCadenceSamples, List.map_cons, List.map_nil, cooperative, Bool.and_eq_true,
          decide_eq_true_eq]; norm_num)

/-! ### Binary64 rounding -/

/-- Rounding to nearest integer moves a number by at most one half. -/
theorem roundHalfEven_near (x : ℚ) : |x - (roundHalfEven x : ℚ)| ≤ 1 / 2 := by
  have h1 : (⌊x⌋ : ℚ) ≤ x := Int.floor_le x
  have h2 : x < (⌊x⌋ : ℚ) + 1 := Int.lt_floor_add_one x
  unfold roundHalfEven
  split
  · rw [abs_le]; constructor <;> linarith
  · split
    · push_cast
      rw [abs_le]; constructor <;> linarith
    · split
      · rw [abs_le]; constructor <;> linarith
      · push_cast
        rw [abs_le]; constructor <;> linarith

/-- The rounded integer is at least as near as any other integer. -/
theorem roundHalfEven_nearest (x : ℚ) (k : ℤ) :
    |x - (roundHalfEven x : ℚ)| ≤ |x - (k : ℚ)| := by
  by_cases hk : k = roundHalfEven x
  · rw [hk]
  · have hne : roundHalfEven x - k ≠ 0 := fun h => hk (by omega)
    have h1 : (1 : ℤ) ≤ |roundHalfEven x - k| := Int.one_le_abs hne
    have h2 : (1 : ℚ) ≤ |(roundHalfEven x : ℚ) - (k : ℚ)| := by
      have : ((1 : ℤ) : ℚ) ≤ ((|roundHalfEven x - k| : ℤ) : ℚ) := by exact_mod_cast h1
      simpa [Int.cast_abs] using this
    have h3 := roundHalfEven_near x
    have h4 : |(roundHalfEven x : ℚ) - (k : ℚ)|
        ≤ |x - (roundHalfEven x : ℚ)| + |x - (k : ℚ)| := by
      have : (roundHalfEven x : ℚ) - (k : ℚ) = (x - (k : ℚ)) - (x - (roundHalfEven x : ℚ)) := by
        ring
      rw [this]
      calc |x - (k : ℚ) - (x - (roundHalfEven x : ℚ))|
          ≤ |x - (k : ℚ)| + |x - (roundHalfEven x : ℚ)| := abs_sub _ _
        _ = |x - (roundHalfEven x : ℚ)| + |x - (k : ℚ)| := add_comm _ _
    linarith

/-- The unit in the last place is positive. -/
theorem F64.ulp_pos (q : ℚ) : (0 : ℚ) < 2 ^ F64.ulpExp q :=
  zpow_pos (by norm_num) _

/-- A number lies below `2^53` units in the last place of its binade. -/
theorem F64.abs_lt_ulp (q : ℚ) : |q| < 2 ^ (F64.ulpExp q + 53) := by
  have h1 : |q| < ((2 : ℕ) : ℚ) ^ (Int.log 2 |q| + 1) :=
    Int.lt_zpow_succ_log_self (by norm_num) |q|
  have h2 : Int.log 2 |q| + 1 ≤ F64.ulpExp q + 53 := by
    unfold F64.ulpExp
    have := le_max_left (Int.log 2 |q| - 52) (-1074)
    omega
  have h3 : ((2 : ℕ) : ℚ) ^ (Int.log 2 |q| + 1) ≤ (2 : ℚ) ^ (F64.ulpExp q + 53) := by
    push_cast
    exact zpow_le_zpow_right₀ (by norm_num) h2
  exact lt_of_lt_of_le h1 h3

/-- Rounding picks the multiple of the unit in the last place that is nearest. -/
theorem F64.round_nearest_multiple (q : ℚ) (k : ℤ) :
    |q - F64.round q| ≤ |q - (k : ℚ) * 2 ^ F64.ulpExp q| := by
  have hu := F64.ulp_pos q
  have h := roundHalfEven_nearest (q / 2 ^ F64.ulpExp q) k
  have e1 : q - F64.round q
      = (q / 2 ^ F64.ulpExp q - (roundHalfEven (q / 2 ^ F64.ulpExp q) : ℚ)) * 2 ^ F64.ulpExp q := by
    unfold F64.round
    field_simp
    ring
  have e2 : q - (k : ℚ) * 2 ^ F64.ulpExp q
      = (q / 2 ^ F64.ulpExp q - (k : ℚ)) * 2 ^ F64.ulpExp q := by
    field_simp
    ring
  rw [e1, e2, abs_mul, abs_mul, abs_of_pos hu]
  exact mul_le_mul_of_nonneg_right h (le_of_lt hu)

/-- The rounded value is on the binary64 grid. -/
theorem F64.round_onGrid (q : ℚ) : F64.onGrid (F64.round q) := by
  refine ⟨roundHalfEven (q / 2 ^ F64.ulpExp q), F64.ulpExp q, le_max_right _ _, ?_, rfl⟩
  have hu := F64.ulp_pos q
  have h1 : |q / 2 ^ F64.ulpExp q| < 2 ^ (53 : ℕ) := by
    rw [abs_div, abs_of_pos hu, div_lt_iff₀ hu]
    have := F64.abs_lt_ulp q
    rw [zpow_add₀ (by norm_num : (2 : ℚ) ≠ 0)] at this
    calc |q| < 2 ^ F64.ulpExp q * 2 ^ (53 : ℤ) := this
      _ = 2 ^ (53 : ℕ) * 2 ^ F64.ulpExp q := by
        rw [mul_comm]; norm_cast
  have h2 := roundHalfEven_near (q / 2 ^ F64.ulpExp q)
  have h3 : |(roundHalfEven (q / 2 ^ F64.ulpExp q) : ℚ)| < 2 ^ (53 : ℕ) + 1 := by
    have : |(roundHalfEven (q / 2 ^ F64.ulpExp q) : ℚ)|
        ≤ |q / 2 ^ F64.ulpExp q| + |q / 2 ^ F64.ulpExp q
            - (roundHalfEven (q / 2 ^ F64.ulpExp q) : ℚ)| := by
      have e : (roundHalfEven (q / 2 ^ F64.ulpExp q) : ℚ)
          = q / 2 ^ F64.ulpExp q
            - (q / 2 ^ F64.ulpExp q - (roundHalfEven (q / 2 ^ F64.ulpExp q) : ℚ)) := by ring
      rw [e]
      have := abs_sub (q / 2 ^ F64.ulpExp q)
        (q / 2 ^ F64.ulpExp q - (roundHalfEven (q / 2 ^ F64.ulpExp q) : ℚ))
      simpa using this
    linarith
  have h4 : |roundHalfEven (q / 2 ^ F64.ulpExp q)| < 2 ^ 53 + 1 := by
    have : ((|roundHalfEven (q / 2 ^ F64.ulpExp q)| : ℤ) : ℚ) < (((2 : ℤ) ^ 53 + 1 : ℤ) : ℚ) := by
      rw [Int.cast_abs]
      norm_num at h3 ⊢
      exact h3
    exact_mod_cast this
  omega

/-- Rounding picks a nearest point of the binary64 grid. -/
theorem F64.round_nearest (q g : ℚ) (hg : F64.onGrid g) : |q - F64.round q| ≤ |q - g| := by
  obtain ⟨m, e, he, hm, rfl⟩ := hg
  by_cases hle : F64.ulpExp q ≤ e
  · -- the grid point is a multiple of the unit in the last place of `q`
    obtain ⟨d, hd⟩ : ∃ d : ℕ, e = F64.ulpExp q + d := ⟨(e - F64.ulpExp q).toNat, by omega⟩
    have h := F64.round_nearest_multiple q (m * 2 ^ d)
    have e1 : ((m * 2 ^ d : ℤ) : ℚ) * 2 ^ F64.ulpExp q = (m : ℚ) * 2 ^ e := by
      rw [hd, zpow_add₀ (by norm_num : (2 : ℚ) ≠ 0)]
      push_cast
      rw [zpow_natCast]
      ring
    rw [e1] at h
    exact h
  · -- the grid point lies in a lower binade than `q`
    push_neg at hle
    by_cases hq0 : q = 0
    · subst hq0
      have : F64.round 0 = 0 := by simp [F64.round, roundHalfEven]
      rw [this]
      simp
    have hqpos : 0 < |q| := abs_pos.mpr hq0
    have hlog : F64.ulpExp q = Int.log 2 |q| - 52 := by
      unfold F64.ulpExp at hle ⊢
      rcases max_cases (Int.log 2 |q| - 52) (-1074) with ⟨h1, _⟩ | ⟨h1, _⟩
      · exact h1
      · rw [h1] at hle; omega
    have hB : (2 : ℚ) ^ (F64.ulpExp q + 52) ≤ |q| := by
      have := Int.zpow_log_le_self (b := 2) (r := |q|) (by norm_num) hqpos
      rw [hlog]
      simpa using this
    have hgB : |(m : ℚ) * 2 ^ e| ≤ (2 : ℚ) ^ (F64.ulpExp q + 52) := by
      have h2e : (0 : ℚ) < 2 ^ e := zpow_pos (by norm_num) _
      rw [abs_mul, abs_of_pos h2e]
      have hm2 : |(m : ℚ)| ≤ 2 ^ (53 : ℤ) := by
        have : ((|m| : ℤ) : ℚ) ≤ (((2 : ℤ) ^ 53 : ℤ) : ℚ) := by exact_mod_cast hm
        rw [Int.cast_abs] at this
        norm_num at this ⊢
        exact this
      calc |(m : ℚ)| * 2 ^ e ≤ 2 ^ (53 : ℤ) * 2 ^ e :=
            mul_le_mul_of_nonneg_right hm2 (le_of_lt h2e)
        _ = 2 ^ (53 + e) := by rw [zpow_add₀ (by norm_num : (2 : ℚ) ≠ 0)]
        _ ≤ 2 ^ (F64.ulpExp q + 52) := zpow_le_zpow_right₀ (by norm_num) (by omega)
    have hBu : (2 : ℚ) ^ (F64.ulpExp q + 52) = ((2 ^ 52 : ℤ) : ℚ) * 2 ^ F64.ulpExp q := by
      rw [zpow_add₀ (by norm_num : (2 : ℚ) ≠ 0)]
      push_cast
      rw [mul_comm]
      norm_cast
    rcases le_or_lt 0 q with hq | hq
    · have h := F64.round_nearest_multiple q (2 ^ 52)
      rw [← hBu] at h
      rw [abs_of_nonneg hq] at hB
      have h1 : |q - 2 ^ (F64.ulpExp q + 52)| = q - 2 ^ (F64.ulpExp q + 52) :=
        abs_of_nonneg (by linarith)
      have h2 : (m : ℚ) * 2 ^ e ≤ 2 ^ (F64.ulpExp q + 52) := le_trans (le_abs_self _) hgB
      have h3 : q - (m : ℚ) * 2 ^ e ≤ |q - (m : ℚ) * 2 ^ e| := le_abs_self _
      linarith
    · have h := F64.round_nearest_multiple q (-(2 ^ 52))
      have e1 : ((-(2 ^ 52) : ℤ) : ℚ) * 2 ^ F64.ulpExp q = -(2 ^ (F64.ulpExp q + 52)) := by
        rw [hBu]; push_cast; ring
      rw [e1] at h
      rw [abs_of_neg hq] at hB
      have h1 : |q - -(2 : ℚ) ^ (F64.ulpExp q + 52)| = -(q - -(2 : ℚ) ^ (F64.ulpExp q + 52)) :=
        abs_of_nonpos (by linarith)
      have h2 : -((m : ℚ) * 2 ^ e) ≤ 2 ^ (F64.ulpExp q + 52) := le_trans (neg_le_abs _) hgB
      have h3 : -(q - (m : ℚ) * 2 ^ e) ≤ |q - (m : ℚ) * 2 ^ e| := neg_le_abs _
      linarith

/-- A point of the binary64 grid rounds to itself. -/
theorem F64.round_of_onGrid (g : ℚ) (hg : F64.onGrid g) : F64.round g = g := by
  have h := F64.round_nearest g g hg
  rw [sub_self, abs_zero] at h
  have := abs_nonneg (g - F64.round g)
  have h0 : |g - F64.round g| = 0 := le_antisymm h this
  rw [abs_eq_zero] at h0
  linarith

/-- Rounding is monotone. -/
theorem F64.round_mono (a b : ℚ) (hab : a ≤ b) : F64.round a ≤ F64.round b := by
  by_contra hlt
  push_neg at hlt
  have h1 := F64.round_nearest a (F64.round b) (F64.round_onGrid b)
  have h2 := F64.round_nearest b (F64.round a) (F64.round_onGrid a)
  have ha : F64.round a + F64.round b ≤ 2 * a := by
    rcases abs_cases (a - F64.round a) with ⟨e1, _⟩ | ⟨e1, _⟩ <;>
      rcases abs_cases (a - F64.round b) with ⟨e2, _⟩ | ⟨e2, _⟩ <;>
      rw [e1, e2] at h1 <;> linarith
  have hb : 2 * b ≤ F64.round a + F64.round b := by
    rcases abs_cases (b - F64.round a) with ⟨e1, _⟩ | ⟨e1, _⟩ <;>
      rcases abs_cases (b - F64.round b) with ⟨e2, _⟩ | ⟨e2, _⟩ <;>
      rw [e1, e2] at h2 <;> linarith
  have heq : a = b := by linarith
  rw [heq] at hlt
  exact lt_irrefl _ hlt

/-! ### Binary64 order and addition -/

/-- The order of two finite doubles is that of their values. -/
theorem F64.finite_le_finite (a b : ℚ) : F64.finite a ≤ F64.finite b ↔ a ≤ b := by
  show F64.le (.finite a) (.finite b) = true ↔ a ≤ b
  simp [F64.le]

/-- The strict order of two finite doubles is that of their values. -/
theorem F64.finite_lt_finite (a b : ℚ) : F64.finite a < F64.finite b ↔ a < b := by
  show F64.lt (.finite a) (.finite b) = true ↔ a < b
  simp [F64.lt]

/-- The sum of two finite doubles is the rounded exact sum. -/
theorem F64.finite_add_finite (a b : ℚ) : F64.finite a + F64.finite b = F64.ofRat (a + b) :=
  rfl

/-- The zero double is the finite double of value `0`. -/
theorem F64.zero_def : (0 : F64) = F64.finite 0 := rfl

/-- A rounded rational is never a NaN. -/
theorem F64.ofRat_ne_nan (q : ℚ) : F64.ofRat q ≠ F64.nan := by
  unfold F64.ofRat
  split
  · simp
  · split <;> simp

/-- Adding a finite double to a double that is not a NaN gives no NaN. -/
theorem F64.add_finite_ne_nan (a : F64) (p : ℚ) (ha : a ≠ F64.nan) :
    a + F64.finite p ≠ F64.nan := by
  cases a with
  | finite q => exact F64.ofRat_ne_nan (q + p)
  | pinf => show F64.add .pinf (.finite p) ≠ .nan; simp [F64.add]
  | ninf => show F64.add .ninf (.finite p) ≠ .nan; simp [F64.add]
  | nan => exact absurd rfl ha

/-- A double that is not a NaN is at most itself. -/
theorem F64.le_same (a : F64) (ha : a ≠ F64.nan) : a ≤ a := by
  show F64.le a a = true
  cases a <;> simp [F64.le] at ha ⊢

/-- The order of doubles is transitive. -/
theorem F64.le_then_le (a b c : F64) (hab : a ≤ b) (hbc : b ≤ c) : a ≤ c := by
  have h1 : F64.le a b = true := hab
  have h2 : F64.le b c = true := hbc
  show F64.le a c = true
  cases a <;> cases b <;> cases c <;> simp [F64.le] at h1 h2 ⊢
  exact h1.trans h2

/-- A strict inequality followed by an inequality is strict. -/
theorem F64.lt_then_le (a b c : F64) (hab : a < b) (hbc : b ≤ c) : a < c := by
  have h1 : F64.lt a b = true := hab
  have h2 : F64.le b c = true := hbc
  show F64.lt a c = true
  cases a <;> cases b <;> cases c <;> simp [F64.lt, F64.le] at h1 h2 ⊢
  exact lt_of_lt_of_le h1 h2

/-- A strict inequality of doubles gives the inequality. -/
theorem F64.lt_weaken (a b : F64) (hab : a < b) : a ≤ b := by
  have h1 : F64.lt a b = true := hab
  show F64.le a b = true
  cases a <;> cases b <;> simp [F64.lt, F64.le] at h1 ⊢
  exact le_of_lt h1

/-- Two doubles that are not NaN are comparable: the comparison `a < b` of the
timer loop fails only when `b ≤ a`. -/
theorem F64.not_lt_flip (a b : F64) (ha : a ≠ F64.nan) (hb : b ≠ F64.nan) (h : ¬ a < b) :
    b ≤ a := by
  have h1 : ¬ F64.lt a b = true := h
  show F64.le b a = true
  cases a <;> cases b <;> simp [F64.lt, F64.le] at h1 ha hb ⊢
  exact h1

/-- Both sides of an inequality of doubles are not NaN. -/
theorem F64.ne_nan_of_le (a b : F64) (h : a ≤ b) : a ≠ F64.nan ∧ b ≠ F64.nan := by
  have h1 : F64.le a b = true := h
  cases a <;> cases b <;> simp [F64.le] at h1 ⊢

/-- Rounding a rational to a double is monotone. -/
theorem F64.ofRat_mono (a b : ℚ) (hab : a ≤ b) : F64.ofRat a ≤ F64.ofRat b := by
  have h := F64.round_mono a b hab
  show F64.le (F64.ofRat a) (F64.ofRat b) = true
  unfold F64.ofRat
  split_ifs <;> simp [F64.le] <;> linarith

/-- Adding the same finite double on the right is monotone. -/
theorem F64.add_finite_mono (a b : F64) (p : ℚ) (hab : a ≤ b) :
    a + F64.finite p ≤ b + F64.finite p := by
  have h1 : F64.le a b = true := hab
  cases a with
  | finite x =>
    cases b with
    | finite y =>
      simp only [F64.le, decide_eq_true_eq] at h1
      exact F64.ofRat_mono (x + p) (y + p) (by linarith)
    | pinf =>
      have hn := F64.ofRat_ne_nan (x + p)
      show F64.le (F64.ofRat (x + p)) (F64.add .pinf (.finite p)) = true
      cases h : F64.ofRat (x + p) <;> simp [F64.le, F64.add, h] at hn ⊢
    | ninf => simp [F64.le] at h1
    | nan => simp [F64.le] at h1
  | pinf =>
    cases b <;> simp [F64.le] at h1
    show F64.le (F64.add .pinf (.finite p)) (F64.add .pinf (.finite p)) = true
    simp [F64.le, F64.add]
  | ninf =>
    have hn := F64.add_finite_ne_nan b p (by intro hb; rw [hb] at h1; simp [F64.le] at h1)
    show F64.le (F64.add .ninf (.finite p)) (b + F64.finite p) = true
    cases h : b + F64.finite p <;> simp [F64.le, F64.add, h] at hn ⊢
  | nan => simp [F64.le] at h1

/-- The rounded value of `0` is `0`. -/
theorem F64.round_zero : F64.round 0 = 0 := by
  simp [F64.round, roundHalfEven]

/-- A period `p ≥ 0` added to the double `0` gives a double at or above `0`. -/
theorem F64.zero_le_zero_add (p : ℚ) (hp : 0 ≤ p) : (0 : F64) ≤ 0 + F64.finite p := by
  have h := F64.ofRat_mono 0 (0 + p) (by linarith)
  have h0 : F64.ofRat 0 = 0 := by
    unfold F64.ofRat
    rw [F64.round_zero]
    norm_num
    rfl
  rw [h0] at h
  exact h

/-- A sum whose exact value is on the binary64 grid and below `2 ^ 1024` in
magnitude is exact. -/
theorem F64.add_exact (a b : ℚ) (m e : ℤ) (he : -1074 ≤ e) (hm : |m| ≤ 2 ^ 53)
    (hs : a + b = (m : ℚ) * 2 ^ e) (hlt : |a + b| < 2 ^ 1024) :
    F64.finite a + F64.finite b = F64.finite (a + b) := by
  have hr : F64.round (a + b) = a + b := F64.round_of_onGrid _ ⟨m, e, he, hm, hs⟩
  rw [abs_lt] at hlt
  rw [F64.finite_add_finite]
  unfold F64.ofRat
  rw [hr, if_neg (by linarith), if_neg (by linarith)]

/-- The exponent of the unit in the last place of a number whose binade is known. -/
theorem F64.ulpExp_eq (q : ℚ) (e : ℤ) (he : -1074 ≤ e) (hlo : 2 ^ (e + 52) ≤ |q|)
    (hhi : |q| < 2 ^ (e + 53)) : F64.ulpExp q = e := by
  have hpos : 0 < |q| := lt_of_lt_of_le (zpow_pos (by norm_num) _) hlo
  have h1 : e + 52 ≤ Int.log 2 |q| := by
    rw [← Int.zpow_le_iff_le_log (by norm_num) hpos]
    simpa using hlo
  have h2 : Int.log 2 |q| < e + 53 := by
    rw [← Int.lt_zpow_iff_log_lt (by norm_num) hpos]
    simpa using hhi
  unfold F64.ulpExp
  rw [max_eq_left (by omega)]
  omega

/-- A tie between two neighbouring doubles goes to the one with the even
significand. -/
theorem F64.round_tie_even (q : ℚ) (e m : ℤ) (he : -1074 ≤ e) (hlo : 2 ^ (e + 52) ≤ |q|)
    (hhi : |q| < 2 ^ (e + 53)) (hm : m % 2 = 0) (hq : q = ((m : ℚ) + 1 / 2) * 2 ^ e) :
    F64.round q = (m : ℚ) * 2 ^ e := by
  have hu : (0 : ℚ) < 2 ^ e := zpow_pos (by norm_num) _
  unfold F64.round
  rw [F64.ulpExp_eq q e he hlo hhi]
  have hx : q / 2 ^ e = (m : ℚ) + 1 / 2 := by
    rw [hq]; field_simp; ring
  rw [hx]
  have hf : ⌊(m : ℚ) + 1 / 2⌋ = m := by
    rw [Int.floor_eq_iff]
    constructor <;> linarith
  have hr : roundHalfEven ((m : ℚ) + 1 / 2) = m := by
    unfold roundHalfEven
    rw [hf]
    rw [if_neg (by norm_num), if_neg (by norm_num), if_pos hm]
  rw [hr]

/-- A sum that is a tie between two neighbouring doubles is the one with the
even significand. -/
theorem F64.add_tie_even (a b : ℚ) (e m : ℤ) (he : -1074 ≤ e) (hlo : 2 ^ (e + 52) ≤ |a + b|)
    (hhi : |a + b| < 2 ^ (e + 53)) (hm : m % 2 = 0) (hq : a + b = ((m : ℚ) + 1 / 2) * 2 ^ e)
    (hlt : |(m : ℚ) * 2 ^ e| < 2 ^ 1024) :
    F64.finite a + F64.finite b = F64.finite ((m : ℚ) * 2 ^ e) := by
  rw [F64.finite_add_finite]
  unfold F64.ofRat
  rw [F64.round_tie_even (a + b) e m he hlo hhi hm hq]
  rw [abs_lt] at hlt
  rw [if_neg (by linarith), if_neg (by linarith)]

/-- A period below half a unit in the last place of `next_time` is absorbed:
the double `2 ^ 53` plus the double `1` is `2 ^ 53` again, so a timer of period
`1` whose `next_time` has reached `2 ^ 53` never advances. -/
theorem F64.add_absorbs_small_period :
    F64.finite 9007199254740992 + F64.finite 1 = F64.finite 9007199254740992 := by
  have := F64.add_tie_even 9007199254740992 1 1 4503599627370496
    (by norm_num) (by norm_num) (by norm_num) (by norm_num) (by norm_num) (by norm_num)
  norm_num at this
  exact this

/-- A time source of doubles at or above `0` that is cooperative with exact
sums and differences is cooperative with the rounded sums of the code. -/
theorem cooperative_of_exact (p : ℚ) :
    ∀ (times : List ℚ) (prev : ℚ), 0 ≤ prev → 0 ≤ p → (∀ t ∈ times, F64.onGrid t) →
      cooperative p prev times = true →
      cooperative (F64.finite p) (F64.finite prev) (times.map F64.finite) = true := by
  intro times
  induction times with
  | nil =>
    intro _ _ _ _ _
    rfl
  | cons t rest ih =>
    intro prev hprev hp hgrid hcoop
    simp only [cooperative, Bool.and_eq_true, decide_eq_true_eq] at hcoop
    obtain ⟨⟨h1, h2⟩, h3⟩ := hcoop
    simp only [List.map_cons, cooperative, Bool.and_eq_true, decide_eq_true_eq]
    refine ⟨⟨(F64.finite_le_finite prev t).mpr h1, ?_⟩,
      ih t (le_trans hprev h1) hp (fun u hu => hgrid u (List.mem_cons_of_mem t hu)) h3⟩
    have hr : F64.round t = t := F64.round_of_onGrid t (hgrid t (List.mem_cons_self t rest))
    have hm := F64.round_mono t (prev + p) h2
    rw [hr] at hm
    rw [F64.finite_add_finite]
    show F64.le (F64.finite t) (F64.ofRat (prev + p)) = true
    unfold F64.ofRat
    have ht : 0 ≤ t := le_trans hprev h1
    split_ifs with ha hb
    · simp [F64.le]
    · have : (0 : ℚ) < 2 ^ 1024 := by positivity
      linarith
    · simp only [F64.le, decide_eq_true_eq]
      exact hm

/-! ### Timer cadence in binary64 arithmetic -/

/-- The samples of a cooperative time source never fall below the sample they
started from. -/
theorem cooperative_le_last (p : F64) :
    ∀ (times : List F64) (t : F64), t ≠ F64.nan → cooperative p t times = true →
      t ≤ times.getLastD t := by
  intro times
  induction times with
  | nil =>
    intro t ht _
    exact F64.le_same t ht
  | cons u rest ih =>
    intro t _ hcoop
    simp only [cooperative, Bool.and_eq_true, decide_eq_true_eq] at hcoop
    obtain ⟨⟨h1, _⟩, h3⟩ := hcoop
    have hu := ih u (F64.ne_nan_of_le t u h1).2 h3
    have hlast : (u :: rest).getLastD t = rest.getLastD u := by
      cases rest <;> simp [List.getLastD]
    rw [hlast]
    exact F64.le_then_le t u _ h1 hu

/-- Cadence invariant over a run of passes in binary64 arithmetic: with
`prev ≤ next_time ≤ prev + p` before the run and a cooperative time source, the
record has been advanced by one rounded addition of `p` per dispatch,
`T ≤ next_time ≤ T + p` holds for the last sampled time `T`, and the value
`next_time` had before the last dispatch was below `T`. -/
theorem Engine.sampling_passes_cadence_double :
    ∀ (samples : List (TimePoint F64)) (e : Engine F64) (i : Nat) (r : TimerCallback F64)
      (p : ℚ) (prev : F64),
      e.timer_callbacks[i]? = some r → r.period = F64.finite p →
      prev ≤ r.next_time → r.next_time ≤ prev + r.period →
      cooperative r.period prev (samples.map (fun s => s.time)) = true →
      ∃ (l : List (Deferred F64)) (r2 : TimerCallback F64),
        (e.sampling_passes samples).callback_queue = e.callback_queue ++ l
        ∧ (e.sampling_passes samples).timer_callbacks[i]? = some r2
        ∧ r2.period = r.period
        ∧ r2.next_time = (fun x => x + r.period)^[l.countP (Deferred.isTimer i)] r.next_time
        ∧ (samples.map (fun s => s.time)).getLastD prev ≤ r2.next_time
        ∧ r2.next_time ≤ (samples.map (fun s => s.time)).getLastD prev + r.period
        ∧ (0 < l.countP (Deferred.isTimer i) →
            (fun x => x + r.period)^[l.countP (Deferred.isTimer i) - 1] r.next_time
              < (samples.map (fun s => s.time)).getLastD prev) := by
  intro samples
  induction samples with
  | nil =>
    intro e i r p prev hget _ h1 h2 _
    exact ⟨[], r, by simp [Engine.sampling_passes], by simpa [Engine.sampling_passes] using hget,
      rfl, by simp, by simpa using h1, by simpa using h2, by simp⟩
  | cons t rest ih =>
    intro e i r p prev hget hper h1 h2 hcoop
    simp only [List.map_cons, cooperative, Bool.and_eq_true, decide_eq_true_eq] at hcoop
    obtain ⟨⟨hc1, hc2⟩, hc3⟩ := hcoop
    obtain ⟨l1, hq1, hcnt1, hrec1⟩ := Engine.sampling_pass_record e t i r hget
    have hlast : ((t :: rest).map (fun s => s.time)).getLastD prev
        = (rest.map (fun s => s.time)).getLastD t.time := by
      cases rest <;> simp [List.getLastD]
    have htn : t.time ≠ F64.nan := (F64.ne_nan_of_le prev t.time hc1).2
    have hnn : r.next_time ≠ F64.nan := (F64.ne_nan_of_le prev r.next_time h1).2
    by_cases hdue : r.next_time < t.time
    · have hd : r.due t = true := by simp [TimerCallback.due, hdue]
      rw [hd] at hcnt1 hrec1
      simp only [if_true] at hcnt1 hrec1
      have hlo1 : t.time ≤ r.next_time + r.period := by
        refine F64.le_then_le _ _ _ hc2 ?_
        rw [hper]
        exact F64.add_finite_mono prev r.next_time p h1
      have hhi1 : r.next_time + r.period ≤ t.time + r.period := by
        rw [hper]
        exact F64.add_finite_mono r.next_time t.time p (F64.lt_weaken _ _ hdue)
      obtain ⟨l2, r2, hq2, hrec2, hper2, hnext2, hlo, hhi, hprev⟩ :=
        ih (e.sampling_pass t) i r.advance p t.time hrec1 hper hlo1 hhi1 hc3
      have hadv : r.advance.period = r.period := rfl
      have hadvn : r.advance.next_time = r.next_time + r.period := rfl
      rw [hadv] at hper2 hnext2 hhi hprev
      rw [hadvn] at hnext2 hprev
      have hcnt : (l1 ++ l2).countP (Deferred.isTimer i)
          = l2.countP (Deferred.isTimer i) + 1 := by
        rw [List.countP_append, hcnt1, Nat.add_comm]
      refine ⟨l1 ++ l2, r2, ?_, ?_, hper2, ?_, ?_, ?_, ?_⟩
      · simp only [Engine.sampling_passes, List.foldl] at hq2 ⊢
        rw [hq2, hq1, List.append_assoc]
      · simpa only [Engine.sampling_passes, List.foldl] using hrec2
      · rw [hnext2, hcnt, Function.iterate_succ_apply]
      · rw [hlast]; exact hlo
      · rw [hlast]; exact hhi
      · intro _
        rw [hlast, hcnt, Nat.add_sub_cancel]
        rcases Nat.eq_zero_or_pos (l2.countP (Deferred.isTimer i)) with h0 | hpos
        · rw [h0, Function.iterate_zero, id]
          exact F64.lt_then_le _ _ _ hdue
            (cooperative_le_last r.period _ t.time htn hc3)
        · have := hprev hpos
          obtain ⟨k, hk⟩ : ∃ k, l2.countP (Deferred.isTimer i) = k + 1 :=
            ⟨l2.countP (Deferred.isTimer i) - 1, by omega⟩
          rw [hk] at this ⊢
          rw [Function.iterate_succ_apply]
          simpa using this
    · have hd : r.due t = false := by simp [TimerCallback.due, hdue]
      rw [hd] at hcnt1 hrec1
      simp only [Bool.false_eq_true, if_false] at hcnt1 hrec1
      have hlo1 : t.time ≤ r.next_time := F64.not_lt_flip _ _ hnn htn hdue
      have hhi1 : r.next_time ≤ t.time + r.period := by
        refine F64.le_then_le _ _ _ h2 ?_
        rw [hper]
        exact F64.add_finite_mono prev t.time p hc1
      obtain ⟨l2, r2, hq2, hrec2, hper2, hnext2, hlo, hhi, hprev⟩ :=
        ih (e.sampling_pass t) i r p t.time hrec1 hper hlo1 hhi1 hc3
      have hcnt : (l1 ++ l2).countP (Deferred.isTimer i) = l2.countP (Deferred.isTimer i) := by
        rw [List.countP_append, hcnt1, Nat.zero_add]
      refine ⟨l1 ++ l2, r2, ?_, ?_, hper2, ?_, ?_, ?_, ?_⟩
      · simp only [Engine.sampling_passes, List.foldl] at hq2 ⊢
        rw [hq2, hq1, List.append_assoc]
      · simpa only [Engine.sampling_passes, List.foldl] using hrec2
      · rw [hnext2, hcnt]
      · rw [hlast]; exact hlo
      · rw [hlast]; exact hhi
      · rw [hlast, hcnt]; exact hprev

/-- Repeated addition of a period `p = m * 2 ^ e` is exact as long as the
multiples of `p` stay on the binary64 grid. -/
theorem F64.iterate_add_exact (p : ℚ) (m e : ℤ) (n : ℕ) (he : -1074 ≤ e)
    (hp : p = (m : ℚ) * 2 ^ e) (hm : (n : ℤ) * |m| ≤ 2 ^ 53) (hlt : (n : ℚ) * |p| < 2 ^ 1024) :
    ∀ k, k ≤ n → (fun x => x + F64.finite p)^[k] 0 = F64.finite ((k : ℚ) * p) := by
  intro k
  induction k with
  | zero =>
    intro _
    simp [F64.zero_def]
  | succ k ih =>
    intro hk
    rw [Function.iterate_succ_apply', ih (by omega)]
    have hkn : ((k + 1 : ℕ) : ℤ) ≤ (n : ℤ) := by exact_mod_cast hk
    have hkq : ((k + 1 : ℕ) : ℚ) ≤ (n : ℚ) := by exact_mod_cast hk
    have hsum : (k : ℚ) * p + p = (((k + 1 : ℕ) : ℤ) * m : ℤ) * 2 ^ e := by
      rw [hp]; push_cast; ring
    have hmag : |(((k + 1 : ℕ) : ℤ) * m : ℤ)| ≤ 2 ^ 53 := by
      rw [abs_mul, abs_of_nonneg (by positivity : (0 : ℤ) ≤ ((k + 1 : ℕ) : ℤ))]
      exact le_trans (mul_le_mul_of_nonneg_right hkn (abs_nonneg m)) hm
    have hbound : |(k : ℚ) * p + p| < 2 ^ 1024 := by
      have e1 : (k : ℚ) * p + p = ((k + 1 : ℕ) : ℚ) * p := by push_cast; ring
      rw [e1, abs_mul, abs_of_nonneg (by positivity : (0 : ℚ) ≤ ((k + 1 : ℕ) : ℚ))]
      exact lt_of_le_of_lt (mul_le_mul_of_nonneg_right hkq (abs_nonneg p)) hlt
    rw [F64.add_exact _ _ _ e he hmag hsum hbound]
    congr 1
    push_cast
    ring

/-- The sampled times 1, 3, 3, 5 are a cooperative time source for the period 2
in binary64 arithmetic. -/
theorem cadenceSamples_cooperative :
    cooperative (F64.finite 2) 0 (cadenceSamples.map (fun s => s.time)) = true := by
  have h02 : F64.finite 0 + F64.finite 2 = F64.finite 2 := by
    have := F64.add_exact 0 2 2 0 (by norm_num) (by norm_num) (by norm_num) (by norm_num)
    norm_num at this
    exact this
  have h12 : F64.finite 1 + F64.finite 2 = F64.finite 3 := by
    have := F64.add_exact 1 2 3 0 (by norm_num) (by norm_num) (by norm_num) (by norm_num)
    norm_num at this
    exact this
  have h32 : F64.finite 3 + F64.finite 2 = F64.finite 5 := by
    have := F64.add_exact 3 2 5 0 (by norm_num) (by norm_num) (by norm_num) (by norm_num)
    norm_num at this
    exact this
  simp only [cadenceSamples, List.map_cons, List.map_nil, TimePoint.atTime, cooperative,
    F64.zero_def, h02, h12, h32, F64.finite_le_finite, Bool.and_eq_true, decide_eq_true_eq]
  norm_num

/-- The rounded sums of the run of `driftEngine`: the first four are exact, the
last four are ties that go to the even significand, `4` below the exact sum. -/
theorem driftSums :
    F64.finite 0 + F64.finite 9007199254740980 = F64.finite 9007199254740980
    ∧ F64.finite 9007199254740980 + F64.finite 9007199254740980 = F64.finite 18014398509481960
    ∧ F64.finite 18014398509481960 + F64.finite 9007199254740980 = F64.finite 27021597764222940
    ∧ F64.finite 27021597764222940 + F64.finite 9007199254740980 = F64.finite 36028797018963920
    ∧ F64.finite 36028797018963920 + F64.finite 9007199254740980 = F64.finite 45035996273704896
    ∧ F64.finite 45035996273704896 + F64.finite 9007199254740980 = F64.finite 54043195528445872
    ∧ F64.finite 54043195528445872 + F64.finite 9007199254740980 = F64.finite 63050394783186848
    ∧ F64.finite 63050394783186848 + F64.finite 9007199254740980
        = F64.finite 72057594037927824 := by
  refine ⟨?_, ?_, ?_, ?_, ?_, ?_, ?_, ?_⟩
  · have := F64.add_exact 0 9007199254740980 9007199254740980 0
      (by norm_num) (by norm_num) (by norm_num) (by norm_num)
    norm_num at this
    exact this
  · have := F64.add_exact 9007199254740980 9007199254740980 9007199254740980 1
      (by norm_num) (by norm_num) (by norm_num) (by norm_num)
    norm_num at this
    exact this
  · have := F64.add_exact 18014398509481960 9007199254740980 6755399441055735 2
      (by norm_num) (by norm_num) (by norm_num) (by norm_num)
    norm_num at this
    exact this
  · have := F64.add_exact 27021597764222940 9007199254740980 9007199254740980 2
      (by norm_num) (by norm_num) (by norm_num) (by norm_num)
    norm_num at this
    exact this
  · have := F64.add_tie_even 36028797018963920 9007199254740980 3 5629499534213112
      (by norm_num) (by norm_num) (by norm_num) (by norm_num) (by norm_num) (by norm_num)
    norm_num at this
    exact this
  · have := F64.add_tie_even 45035996273704896 9007199254740980 3 6755399441055734
      (by norm_num) (by norm_num) (by norm_num) (by norm_num) (by norm_num) (by norm_num)
    norm_num at this
    exact this
  · have := F64.add_tie_even 54043195528445872 9007199254740980 3 7881299347898356
      (by norm_num) (by norm_num) (by norm_num) (by norm_num) (by norm_num) (by norm_num)
    norm_num at this
    exact this
  · have := F64.add_tie_even 63050394783186848 9007199254740980 3 9007199254740978
      (by norm_num) (by norm_num) (by norm_num) (by norm_num) (by norm_num) (by norm_num)
    norm_num at this
    exact this

/-- The period and the sampled times of the drift run are doubles. -/
theorem driftTimes_onGrid : ∀ t ∈ driftPeriod :: driftTimes, F64.onGrid t := by
  intro t ht
  simp only [driftPeriod, driftTimes, List.mem_cons, List.mem_singleton, List.not_mem_nil,
    or_false] at ht
  rcases ht with h | h | h | h | h | h | h | h | h <;> subst h
  · exact ⟨9007199254740980, 0, by norm_num, by norm_num, by norm_num⟩
  · exact ⟨9007199254740980, 0, by norm_num, by norm_num, by norm_num⟩
  · exact ⟨9007199254740980, 1, by norm_num, by norm_num, by norm_num⟩
  · exact ⟨6755399441055735, 2, by norm_num, by norm_num, by norm_num⟩
  · exact ⟨9007199254740980, 2, by norm_num, by norm_num, by norm_num⟩
  · exact ⟨5629499534213112, 3, by norm_num, by norm_num, by norm_num⟩
  · exact ⟨6755399441055734, 3, by norm_num, by norm_num, by norm_num⟩
  · exact ⟨7881299347898356, 3, by norm_num, by norm_num, by norm_num⟩
  · exact ⟨7881299347898357, 3, by norm_num, by norm_num, by norm_num⟩

/-- A number within half a unit of an integer rounds to that integer. -/
theorem roundHalfEven_of_near (x : ℚ) (m : ℤ) (h : |x - (m : ℚ)| < 1 / 2) :
    roundHalfEven x = m := by
  by_contra hne
  have hnz : roundHalfEven x - m ≠ 0 := fun h0 => hne (by omega)
  have h1 : (1 : ℤ) ≤ |roundHalfEven x - m| := Int.one_le_abs hnz
  have h2 : (1 : ℚ) ≤ |(roundHalfEven x : ℚ) - (m : ℚ)| := by
    have : ((1 : ℤ) : ℚ) ≤ ((|roundHalfEven x - m| : ℤ) : ℚ) := by exact_mod_cast h1
    simpa [Int.cast_abs] using this
  have h3 := roundHalfEven_near x
  have h4 : |(roundHalfEven x : ℚ) - (m : ℚ)|
      ≤ |x - (m : ℚ)| + |x - (roundHalfEven x : ℚ)| := by
    have e : (roundHalfEven x : ℚ) - (m : ℚ) = (x - (m : ℚ)) - (x - (roundHalfEven x : ℚ)) := by
      ring
    rw [e]
    exact abs_sub _ _
  linarith

/-- A sum within half a unit in the last place of a double is that double. -/
theorem F64.add_near (a b : ℚ) (e m : ℤ) (he : -1074 ≤ e) (hlo : 2 ^ (e + 52) ≤ |a + b|)
    (hhi : |a + b| < 2 ^ (e + 53)) (hnear : |(a + b) / 2 ^ e - (m : ℚ)| < 1 / 2)
    (hlt : |(m : ℚ) * 2 ^ e| < 2 ^ 1024) :
    F64.finite a + F64.finite b = F64.finite ((m : ℚ) * 2 ^ e) := by
  have hr : F64.round (a + b) = (m : ℚ) * 2 ^ e := by
    unfold F64.round
    rw [F64.ulpExp_eq (a + b) e he hlo hhi, roundHalfEven_of_near _ m hnear]
  rw [F64.finite_add_finite]
  unfold F64.ofRat
  rw [hr]
  rw [abs_lt] at hlt
  rw [if_neg (by linarith), if_neg (by linarith)]

/-- A sum that is a tie between two neighbouring doubles, the upper one having
the even significand, is the upper one. -/
theorem F64.add_tie_even_up (a b : ℚ) (e m : ℤ) (he : -1074 ≤ e)
    (hlo : 2 ^ (e + 52) ≤ |a + b|) (hhi : |a + b| < 2 ^ (e + 53)) (hm : m % 2 = 0)
    (hq : a + b = ((m : ℚ) - 1 / 2) * 2 ^ e) (hlt : |(m : ℚ) * 2 ^ e| < 2 ^ 1024) :
    F64.finite a + F64.finite b = F64.finite ((m : ℚ) * 2 ^ e) := by
  have hu : (0 : ℚ) < 2 ^ e := zpow_pos (by norm_num) _
  have hx : (a + b) / 2 ^ e = (m : ℚ) - 1 / 2 := by
    rw [hq]; field_simp; ring
  have hf : ⌊(m : ℚ) - 1 / 2⌋ = m - 1 := by
    rw [Int.floor_eq_iff]
    push_cast
    constructor <;> linarith
  have hrhe : roundHalfEven ((m : ℚ) - 1 / 2) = m := by
    unfold roundHalfEven
    rw [hf]
    push_cast
    rw [if_neg (by norm_num), if_neg (by norm_num), if_neg (by omega)]
    ring
  have hr : F64.round (a + b) = (m : ℚ) * 2 ^ e := by
    unfold F64.round
    rw [F64.ulpExp_eq (a + b) e he hlo hhi, hx, hrhe]
  rw [F64.finite_add_finite]
  unfold F64.ofRat
  rw [hr]
  rw [abs_lt] at hlt
  rw [if_neg (by linarith), if_neg (by linarith)]

/-- The rounded sums of the run of `tenthEngine`: `0.1`, `0.2`,
`0.30000000000000004`, `0.4`, `0.5`, `0.6`, `0.7`, `0.7999999999999999`,
`0.8999999999999999`, `0.9999999999999999` and `1.0999999999999999`. -/
theorem tenthSums :
    F64.finite 0
        + F64.finite (3602879701896397 / 36028797018963968)
        = F64.finite (3602879701896397 / 36028797018963968)
    ∧ F64.finite (3602879701896397 / 36028797018963968)
        + F64.finite (3602879701896397 / 36028797018963968)
        = F64.finite (3602879701896397 / 18014398509481984)
    ∧ F64.finite (3602879701896397 / 18014398509481984)
        + F64.finite (3602879701896397 / 36028797018963968)
        = F64.finite (1351079888211149 / 4503599627370496)
    ∧ F64.finite (1351079888211149 / 4503599627370496)
        + F64.finite (3602879701896397 / 36028797018963968)
        = F64.finite (3602879701896397 / 9007199254740992)
    ∧ F64.finite (3602879701896397 / 9007199254740992)
        + F64.finite (3602879701896397 / 36028797018963968)
        = F64.finite (1 / 2)
    ∧ F64.finite (1 / 2)
        + F64.finite (3602879701896397 / 36028797018963968)
        = F64.finite (5404319552844595 / 9007199254740992)
    ∧ F64.finite (5404319552844595 / 9007199254740992)
        + F64.finite (3602879701896397 / 36028797018963968)
        = F64.finite (3152519739159347 / 4503599627370496)
    ∧ F64.finite (3152519739159347 / 4503599627370496)
        + F64.finite (3602879701896397 / 36028797018963968)
        = F64.finite (7205759403792793 / 9007199254740992)
    ∧ F64.finite (7205759403792793 / 9007199254740992)
        + F64.finite (3602879701896397 / 36028797018963968)
        = F64.finite (2026619832316723 / 2251799813685248)
    ∧ F64.finite (2026619832316723 / 2251799813685248)
        + F64.finite (3602879701896397 / 36028797018963968)
        = F64.finite (9007199254740991 / 9007199254740992)
    ∧ F64.finite (9007199254740991 / 9007199254740992)
        + F64.finite (3602879701896397 / 36028797018963968)
        = F64.finite (4953959590107545 / 4503599627370496) := by
  refine ⟨?_, ?_, ?_, ?_, ?_, ?_, ?_, ?_, ?_, ?_, ?_⟩
  · have := F64.add_exact 0
      (3602879701896397 / 36028797018963968) 7205759403792794 (-56)
      (by norm_num) (by norm_num) (by norm_num) (by rw [abs_lt]; constructor <;> norm_num)
    rw [this]; congr 1; norm_num
  · have := F64.add_exact (3602879701896397 / 36028797018963968)
      (3602879701896397 / 36028797018963968) 7205759403792794 (-55)
      (by norm_num) (by norm_num) (by norm_num) (by rw [abs_lt]; constructor <;> norm_num)
    rw [this]; congr 1; norm_num
  · have := F64.add_tie_even_up (3602879701896397 / 18014398509481984)
      (3602879701896397 / 36028797018963968) (-54) 5404319552844596
      (by norm_num) (by rw [le_abs]; left; norm_num) (by rw [abs_lt]; constructor <;> norm_num)
      (by norm_num) (by norm_num) (by rw [abs_lt]; constructor <;> norm_num)
    rw [this]; congr 1; norm_num
  · have := F64.add_tie_even (1351079888211149 / 4503599627370496)
      (3602879701896397 / 36028797018963968) (-54) 7205759403792794
      (by norm_num) (by rw [le_abs]; left; norm_num) (by rw [abs_lt]; constructor <;> norm_num)
      (by norm_num) (by norm_num) (by rw [abs_lt]; constructor <;> norm_num)
    rw [this]; congr 1; norm_num
  · have := F64.add_near (3602879701896397 / 9007199254740992)
      (3602879701896397 / 36028797018963968) (-53) 4503599627370496
      (by norm_num) (by rw [le_abs]; left; norm_num) (by rw [abs_lt]; constructor <;> norm_num)
      (by rw [abs_lt]; constructor <;> norm_num) (by rw [abs_lt]; constructor <;> norm_num)
    rw [this]; congr 1; norm_num
  · have := F64.add_near (1 / 2)
      (3602879701896397 / 36028797018963968) (-53) 5404319552844595
      (by norm_num) (by rw [le_abs]; left; norm_num) (by rw [abs_lt]; constructor <;> norm_num)
      (by rw [abs_lt]; constructor <;> norm_num) (by rw [abs_lt]; constructor <;> norm_num)
    rw [this]; congr 1; norm_num
  · have := F64.add_near (5404319552844595 / 9007199254740992)
      (3602879701896397 / 36028797018963968) (-53) 6305039478318694
      (by norm_num) (by rw [le_abs]; left; norm_num) (by rw [abs_lt]; constructor <;> norm_num)
      (by rw [abs_lt]; constructor <;> norm_num) (by rw [abs_lt]; constructor <;> norm_num)
    rw [this]; congr 1; norm_num
  · have := F64.add_near (3152519739159347 / 4503599627370496)
      (3602879701896397 / 36028797018963968) (-53) 7205759403792793
      (by norm_num) (by rw [le_abs]; left; norm_num) (by rw [abs_lt]; constructor <;> norm_num)
      (by rw [abs_lt]; constructor <;> norm_num) (by rw [abs_lt]; constructor <;> norm_num)
    rw [this]; congr 1; norm_num
  · have := F64.add_near (7205759403792793 / 9007199254740992)
      (3602879701896397 / 36028797018963968) (-53) 8106479329266892
      (by norm_num) (by rw [le_abs]; left; norm_num) (by rw [abs_lt]; constructor <;> norm_num)
      (by rw [abs_lt]; constructor <;> norm_num) (by rw [abs_lt]; constructor <;> norm_num)
    rw [this]; congr 1; norm_num
  · have := F64.add_near (2026619832316723 / 2251799813685248)
      (3602879701896397 / 36028797018963968) (-53) 9007199254740991
      (by norm_num) (by rw [le_abs]; left; norm_num) (by rw [abs_lt]; constructor <;> norm_num)
      (by rw [abs_lt]; constructor <;> norm_num) (by rw [abs_lt]; constructor <;> norm_num)
    rw [this]; congr 1; norm_num
  · have := F64.add_near (9007199254740991 / 9007199254740992)
      (3602879701896397 / 36028797018963968) (-52) 4953959590107545
      (by norm_num) (by rw [le_abs]; left; norm_num) (by rw [abs_lt]; constructor <;> norm_num)
      (by rw [abs_lt]; constructor <;> norm_num) (by rw [abs_lt]; constructor <;> norm_num)
    rw [this]; congr 1; norm_num

/-- The period and the sampled times of the run of `tenthEngine` are doubles. -/
theorem tenthTimes_onGrid : ∀ t ∈ tenthPeriod :: tenthTimes, F64.onGrid t := by
  intro t ht
  simp only [tenthPeriod, tenthTimes, List.mem_cons, List.mem_singleton, List.not_mem_nil,
    or_false] at ht
  rcases ht with h | h | h | h | h | h | h | h | h | h | h | h <;> subst h
  · exact ⟨7205759403792794, -56, by norm_num, by norm_num, by norm_num⟩
  · exact ⟨7205759403792794, -56, by norm_num, by norm_num, by norm_num⟩
  · exact ⟨7205759403792794, -55, by norm_num, by norm_num, by norm_num⟩
  · exact ⟨5404319552844595, -54, by norm_num, by norm_num, by norm_num⟩
  · exact ⟨7205759403792793, -54, by norm_num, by norm_num, by norm_num⟩
  · exact ⟨9007199254740991, -54, by norm_num, by norm_num, by norm_num⟩
  · exact ⟨5404319552844594, -53, by norm_num, by norm_num, by norm_num⟩
  · exact ⟨6305039478318693, -53, by norm_num, by norm_num, by norm_num⟩
  · exact ⟨7205759403792792, -53, by norm_num, by norm_num, by norm_num⟩
  · exact ⟨8106479329266891, -53, by norm_num, by norm_num, by norm_num⟩
  · exact ⟨9007199254740990, -53, by norm_num, by norm_num, by norm_num⟩
  · exact ⟨4503599627370496, -52, by norm_num, by norm_num, by norm_num⟩

/-- One pass over an engine with a single timer record. -/
theorem Engine.sampling_pass_single {τ : Type} [LT τ] [DecidableRel (fun (a b : τ) => a < b)]
    [Add τ] (time t : TimePoint τ) (r : TimerCallback τ) (queue : List (Deferred τ)) :
    Engine.sampling_pass { time := time, timer_callbacks := [r], callback_queue := queue } t
      = if r.next_time < t.time then
          { time := t, timer_callbacks := [r.advance]
            callback_queue := queue ++ [Deferred.timer 0 t] }
        else { time := t, timer_callbacks := [r], callback_queue := queue } := by
  by_cases h : r.next_time < t.time
  · simp [Engine.sampling_pass, Engine.dispatch_timers, h, TimerCallback.advance]
  · simp [Engine.sampling_pass, Engine.dispatch_timers, h]

/-- The claim fails at everyday magnitudes too. A timer of period `0.1` (the
double) registered with `next_time = 0` is sampled at the eleven times
`tenthTimes`, a cooperative time source with exact and with rounded sums that
ends at `T = 1`. Every pass dispatches the timer, so `n = 11`, while
`⌊T / p⌋ = 9` (the double `0.1` is above one tenth); and `next_time` ends at the
double `1.0999999999999999`, which differs from `11 * p`. -/
theorem Engine.cadence_tenth_drift :
    cooperative tenthPeriod 0 tenthTimes = true
    ∧ cooperative (F64.finite tenthPeriod) 0 (tenthSamples.map (fun s => s.time)) = true
    ∧ tenthEngine.timer_callbacks = [⟨F64.finite tenthPeriod, 0, 7⟩]
    ∧ tenthSamples.getLast?.map (fun s => s.time) = some (F64.finite 1)
    ∧ dispatchCount tenthEngine.callback_queue
        (tenthEngine.sampling_passes tenthSamples).callback_queue 0 = 11
    ∧ ((tenthEngine.sampling_passes tenthSamples).timer_callbacks[0]?).map (fun c => c.next_time)
        = some (F64.finite (4953959590107545 / 4503599627370496))
    ∧ ⌊(1 : ℚ) / tenthPeriod⌋ = 9
    ∧ (11 : ℚ) * tenthPeriod = 39631676720860367 / 36028797018963968
    ∧ (4953959590107545 / 4503599627370496 : ℚ) < 39631676720860367 / 36028797018963968 := by
  obtain ⟨s1, s2, s3, s4, s5, s6, s7, s8, s9, s10, s11⟩ := tenthSums
  have hexact : cooperative tenthPeriod 0 tenthTimes = true := by
    simp only [tenthTimes, tenthPeriod, cooperative, Bool.and_eq_true, decide_eq_true_eq]
    norm_num
  have hrun : (tenthEngine.sampling_passes tenthSamples).timer_callbacks
        = [⟨F64.finite tenthPeriod, F64.finite (4953959590107545 / 4503599627370496), 7⟩]
      ∧ dispatchCount tenthEngine.callback_queue
        (tenthEngine.sampling_passes tenthSamples).callback_queue 0 = 11 := by
    simp only [tenthEngine, tenthSamples, tenthTimes, tenthPeriod, Engine.create_timer_callback,
      Engine.sampling_passes, List.map_cons, List.map_nil, List.foldl, TimePoint.atTime,
      List.nil_append, F64.zero_def]
    rw [Engine.sampling_pass_single, if_pos (by rw [F64.finite_lt_finite]; norm_num)]
    simp only [TimerCallback.advance, s1]
    rw [Engine.sampling_pass_single, if_pos (by rw [F64.finite_lt_finite]; norm_num)]
    simp only [TimerCallback.advance, s2]
    rw [Engine.sampling_pass_single, if_pos (by rw [F64.finite_lt_finite]; norm_num)]
    simp only [TimerCallback.advance, s3]
    rw [Engine.sampling_pass_single, if_pos (by rw [F64.finite_lt_finite]; norm_num)]
    simp only [TimerCallback.advance, s4]
    rw [Engine.sampling_pass_single, if_pos (by rw [F64.finite_lt_finite]; norm_num)]
    simp only [TimerCallback.advance, s5]
    rw [Engine.sampling_pass_single, if_pos (by rw [F64.finite_lt_finite]; norm_num)]
    simp only [TimerCallback.advance, s6]
    rw [Engine.sampling_pass_single, if_pos (by rw [F64.finite_lt_finite]; norm_num)]
    simp only [TimerCallback.advance, s7]
    rw [Engine.sampling_pass_single, if_pos (by rw [F64.finite_lt_finite]; norm_num)]
    simp only [TimerCallback.advance, s8]
    rw [Engine.sampling_pass_single, if_pos (by rw [F64.finite_lt_finite]; norm_num)]
    simp only [TimerCallback.advance, s9]
    rw [Engine.sampling_pass_single, if_pos (by rw [F64.finite_lt_finite]; norm_num)]
    simp only [TimerCallback.advance, s10]
    rw [Engine.sampling_pass_single, if_pos (by rw [F64.finite_lt_finite]; norm_num)]
    simp only [TimerCallback.advance, s11]
    simp [dispatchCount, newDeferred, Deferred.isTimer]
  obtain ⟨hrec, hcnt⟩ := hrun
  refine ⟨hexact, ?_, rfl, ?_, hcnt, ?_, ?_, ?_, ?_⟩
  · have h := cooperative_of_exact tenthPeriod tenthTimes 0 (le_refl 0)
      (by norm_num [tenthPeriod])
      (fun t ht => tenthTimes_onGrid t (List.mem_cons_of_mem _ ht)) hexact
    have hmap : tenthSamples.map (fun s => s.time) = tenthTimes.map F64.finite := by
      simp [tenthSamples, TimePoint.atTime]
    rw [hmap]
    exact h
  · simp [tenthSamples, tenthTimes, TimePoint.atTime]
  · rw [hrec]; rfl
  · rw [Int.floor_eq_iff]
    constructor <;> norm_num [tenthPeriod]
  · norm_num [tenthPeriod]
  · norm_num

/-! ### Engine lifecycle -/

/-- A freshly created lifecycle thread satisfies `wf`. -/
theorem LifecycleTask.wf_create (kind : TaskKind) (init_result : Bool)
    (poll_result : Nat → Bool) : (LifecycleTask.create kind init_result poll_result).wf := by
  cases kind <;> cases init_result <;>
    simp [LifecycleTask.wf, LifecycleTask.create, TaskKind.hasInit, TaskKind.hasPoll,
      TaskKind.hasShutdown, TaskPc.pastInit, TaskPc.inWindow]

/-- One step of a thread keeps its callbacks and its kind. -/
theorem Lifecycle.task_step_static (s : Lifecycle) (t : LifecycleTask) :
    (s.task_step t).2.kind = t.kind ∧ (s.task_step t).2.init_result = t.init_result
    ∧ (s.task_step t).2.poll_result = t.poll_result := by
  unfold Lifecycle.task_step
  cases t.pc <;> simp

/-- One step of a thread changes none of `start_init`, `running`, the
program counter of `run()` and the thread list held in the flags record. -/
theorem Lifecycle.task_step_frame (s : Lifecycle) (t : LifecycleTask) :
    (s.task_step t).1.start_init = s.start_init ∧ (s.task_step t).1.running = s.running
    ∧ (s.task_step t).1.run_pc = s.run_pc ∧ (s.task_step t).1.tasks = s.tasks := by
  unfold Lifecycle.task_step
  cases t.pc <;> simp

/-- One step of a thread preserves `wf`. -/
theorem Lifecycle.task_step_wf (s : Lifecycle) (t : LifecycleTask) (h : t.wf) :
    (s.task_step t).2.wf := by
  obtain ⟨kind, ir, pr, pc, inits, polls, shutdowns⟩ := t
  simp only [LifecycleTask.wf] at h ⊢
  cases pc <;> cases kind <;> cases ir <;>
    simp [Lifecycle.task_step, TaskKind.hasInit, TaskKind.hasPoll, TaskKind.hasShutdown,
      TaskPc.pastInit, TaskPc.inWindow, LifecycleTask.after_poll] at h ⊢ <;>
    (try split_ifs) <;> simp_all

/-- How one step of a thread changes `init_valid` and `init_count`. -/
theorem Lifecycle.task_step_flags (s : Lifecycle) (t : LifecycleTask) :
    (s.task_step t).1.init_valid = (if t.pc = .set_invalid then false else s.init_valid)
    ∧ (s.task_step t).1.init_count + (if t.pc.inWindow then 1 else 0)
        = s.init_count + (if (s.task_step t).2.pc.inWindow then 1 else 0) := by
  obtain ⟨kind, ir, pr, pc, inits, polls, shutdowns⟩ := t
  cases pc <;> simp [Lifecycle.task_step, TaskPc.inWindow, LifecycleTask.after_poll] <;>
    (try split_ifs) <;> simp_all

/-- A thread past its init phase stays past it; a thread that has failed its
`init` and set `init_valid = false` stays so, and a thread gets there only by
executing `init_valid = false`. -/
theorem Lifecycle.task_step_phase (s : Lifecycle) (t : LifecycleTask) (h : t.wf) :
    (t.pc.pastInit = true → (s.task_step t).2.pc.pastInit = true)
    ∧ (t.failedPast = true → (s.task_step t).2.failedPast = true)
    ∧ ((s.task_step t).2.failedPast = true → t.failedPast = true ∨ t.pc = .set_invalid) := by
  obtain ⟨kind, ir, pr, pc, inits, polls, shutdowns⟩ := t
  simp only [LifecycleTask.wf] at h
  cases pc <;> cases kind <;> cases ir <;>
    simp [Lifecycle.task_step, TaskKind.hasInit, TaskKind.hasPoll, TaskKind.hasShutdown,
      TaskPc.pastInit, TaskPc.inWindow, LifecycleTask.after_poll, LifecycleTask.failedPast]
      at h ⊢ <;>
    (try split_ifs) <;> simp_all

/-- The invariant holds when the engine has been constructed and the lifecycle
threads registered. -/
theorem Lifecycle.inv_create (tasks : List (TaskKind × Bool × (Nat → Bool))) :
    (Lifecycle.create tasks).Inv := by
  have hget : ∀ (i : Nat) (t : LifecycleTask), (Lifecycle.create tasks).tasks[i]? = some t →
      ∃ k r p, t = LifecycleTask.create k r p := by
    intro i t h
    simp only [Lifecycle.create, List.getElem?_map, Option.map_eq_some'] at h
    obtain ⟨a, _, rfl⟩ := h
    exact ⟨_, _, _, rfl⟩
  refine ⟨?_, ?_, ?_, ?_, ?_, ?_⟩
  · intro i t h
    obtain ⟨k, r, p, rfl⟩ := hget i t h
    exact LifecycleTask.wf_create k r p
  · intro i t h hf
    obtain ⟨k, r, p, rfl⟩ := hget i t h
    cases k <;> simp [LifecycleTask.failedPast, LifecycleTask.create, TaskKind.hasInit] at hf
  · intro h
    simp [Lifecycle.create] at h
  · simp only [Lifecycle.create]
    have : (tasks.map (fun t => LifecycleTask.create t.1 t.2.1 t.2.2)).countP
        (fun t => t.pc.inWindow) = 0 := by
      rw [List.countP_eq_zero]
      intro t ht
      simp only [List.mem_map] at ht
      obtain ⟨a, _, rfl⟩ := ht
      cases a.1 <;> simp [LifecycleTask.create, TaskKind.hasInit, TaskPc.inWindow]
    rw [this]; rfl
  · intro h
    simp [Lifecycle.create] at h
  · intro h
    simp [Lifecycle.create] at h

/-- A thread that executes `init_valid = false` has failed its own `init`. -/
theorem Lifecycle.task_step_set_invalid (s : Lifecycle) (t : LifecycleTask) (h : t.wf)
    (hpc : t.pc = .set_invalid) : (s.task_step t).2.failedPast = true := by
  obtain ⟨kind, ir, pr, pc, inits, polls, shutdowns⟩ := t
  simp only [LifecycleTask.wf] at h
  simp only at hpc
  subst hpc
  cases kind <;> cases ir <;>
    simp [Lifecycle.task_step, TaskKind.hasInit, TaskKind.hasPoll, TaskKind.hasShutdown,
      TaskPc.pastInit, TaskPc.inWindow, LifecycleTask.failedPast] at h ⊢

/-- The threads after a step of the thread with index `i`. -/
theorem Lifecycle.step_task_get (s : Lifecycle) (i : Nat) (t : LifecycleTask)
    (hget : s.tasks[i]? = some t) :
    s.step (.task i) = { (s.task_step t).1 with tasks := s.tasks.set i (s.task_step t).2 }
    ∧ ∀ j : Nat, (s.step (.task i)).tasks[j]?
        = if i = j then some (s.task_step t).2 else s.tasks[j]? := by
  have hstep : s.step (.task i)
      = { (s.task_step t).1 with tasks := s.tasks.set i (s.task_step t).2 } := by
    simp only [Lifecycle.step, hget]
  refine ⟨hstep, ?_⟩
  intro j
  have hi : i < s.tasks.length := by
    rcases Nat.lt_or_ge i s.tasks.length with h | h
    · exact h
    · rw [List.getElem?_eq_none h] at hget; cases hget
  rw [hstep]
  simp only [List.getElem?_set, hi, if_true]

/-- A step of a lifecycle thread preserves the invariant. -/
theorem Lifecycle.inv_task (s : Lifecycle) (i : Nat) (hinv : s.Inv) :
    (s.step (.task i)).Inv := by
  cases hget : s.tasks[i]? with
  | none =>
    have : s.step (.task i) = s := by simp only [Lifecycle.step, hget]
    rw [this]; exact hinv
  | some t =>
    obtain ⟨hwf, hfail, hvalid, hcount, hrun, hrunning⟩ := hinv
    obtain ⟨hstep, hidx⟩ := Lifecycle.step_task_get s i t hget
    have hwt := hwf i t hget
    obtain ⟨hf1, hf2, hf3, _⟩ := Lifecycle.task_step_frame s t
    obtain ⟨hv, hc⟩ := Lifecycle.task_step_flags s t
    obtain ⟨hp1, hp2, hp3⟩ := Lifecycle.task_step_phase s t hwt
    have hvalid2 : (s.step (.task i)).init_valid = (s.task_step t).1.init_valid := by rw [hstep]
    have hrunpc : (s.step (.task i)).run_pc = s.run_pc := by rw [hstep]; exact hf3
    have hrunning2 : (s.step (.task i)).running = s.running := by rw [hstep]; exact hf2
    have hmono : s.init_valid = false → (s.step (.task i)).init_valid = false := by
      intro h; rw [hvalid2, hv, h]; simp
    refine ⟨?_, ?_, ?_, ?_, ?_, ?_⟩
    · intro j tj hj
      rw [hidx j] at hj
      split at hj
      · cases hj; exact Lifecycle.task_step_wf s t hwt
      · exact hwf j tj hj
    · intro j tj hj hfp
      rw [hidx j] at hj
      split at hj
      · cases hj
        rcases hp3 hfp with h | h
        · exact hmono (hfail i t hget h)
        · rw [hvalid2, hv, h]; simp
      · exact hmono (hfail j tj hj hfp)
    · intro hfalse
      by_cases hpc : t.pc = .set_invalid
      · refine ⟨i, (s.task_step t).2, ?_, Lifecycle.task_step_set_invalid s t hwt hpc⟩
        rw [hidx i]; simp
      · rw [hvalid2, hv] at hfalse
        simp only [hpc, if_false] at hfalse
        obtain ⟨j, tj, hj, hfp⟩ := hvalid hfalse
        by_cases hij : i = j
        · subst hij
          rw [hget] at hj
          cases hj
          exact ⟨i, (s.task_step t).2, by rw [hidx i]; simp, hp2 hfp⟩
        · exact ⟨j, tj, by rw [hidx j]; simp [hij, hj], hfp⟩
    · have hi : i < s.tasks.length := by
        rcases Nat.lt_or_ge i s.tasks.length with h | h
        · exact h
        · rw [List.getElem?_eq_none h] at hget; cases hget
      have hti : s.tasks[i] = t := by
        have := List.getElem?_eq_getElem hi
        rw [hget] at this
        exact (Option.some.inj this).symm
      have hset := List.countP_set (fun t => t.pc.inWindow) s.tasks i (s.task_step t).2 hi
      have hle := List.boole_getElem_le_countP (fun t => t.pc.inWindow) s.tasks i hi
      rw [hti] at hset hle
      have hcnt2 : (s.step (.task i)).init_count = (s.task_step t).1.init_count := by rw [hstep]
      have htasks2 : (s.step (.task i)).tasks = s.tasks.set i (s.task_step t).2 := by rw [hstep]
      rw [hcnt2, htasks2, hset]
      cases hb1 : t.pc.inWindow <;> cases hb2 : (s.task_step t).2.pc.inWindow <;>
        simp only [hb1, hb2, if_true, if_false, Bool.false_eq_true] at hle hc ⊢ <;>
        omega
    · intro hr j tj hj
      rw [hrunpc] at hr
      rw [hidx j] at hj
      split at hj
      · cases hj; exact hp1 (hrun hr i t hget)
      · exact hrun hr j tj hj
    · intro hr
      rw [hrunning2] at hr
      rw [hrunpc]
      exact hrunning hr

/-- A step of `run()` preserves the invariant, provided every thread with an
`init` callback has executed `init_count++` once `run()` is waiting. -/
theorem Lifecycle.inv_run_step (s : Lifecycle) (hinv : s.Inv) (hcoop : s.cooperative = true) :
    s.run_step.Inv := by
  obtain ⟨hwf, hfail, hvalid, hcount, hrun, hrunning⟩ := hinv
  unfold Lifecycle.run_step
  cases hpc : s.run_pc with
  | set_start =>
    refine ⟨hwf, hfail, hvalid, hcount, ?_, ?_⟩
    · intro h; simp at h
    · intro h
      have := hrunning h
      rw [hpc] at this; cases this
  | wait_count =>
    simp only
    split
    · exact ⟨hwf, hfail, hvalid, hcount, hrun, hrunning⟩
    · next hpos =>
      refine ⟨hwf, hfail, hvalid, hcount, ?_, ?_⟩
      · intro _ i t hget
        have hzero : s.tasks.countP (fun t => t.pc.inWindow) = 0 := by omega
        have hmem : t ∈ s.tasks := List.getElem?_mem hget
        have hwin : t.pc.inWindow = false := by
          have := (List.countP_eq_zero.mp hzero) t hmem
          simpa using this
        have hincr : (t.pc == TaskPc.incr) = false := by
          simp only [Lifecycle.cooperative, hpc, Bool.or_eq_true, beq_iff_eq, List.all_eq_true,
            Bool.not_eq_true'] at hcoop
          rcases hcoop with h | h
          · cases h
          · exact h t hmem
        simp [TaskPc.pastInit, hwin, hincr]
      · intro h
        have := hrunning h
        rw [hpc] at this; cases this
  | set_running =>
    refine ⟨hwf, hfail, hvalid, hcount, ?_, ?_⟩
    · intro _ i t hget
      exact hrun (Or.inl hpc) i t hget
    · intro _; rfl
  | join =>
    exact ⟨hwf, hfail, hvalid, hcount, hrun, hrunning⟩

/-- A call of `stop()` preserves the invariant. -/
theorem Lifecycle.inv_stop (s : Lifecycle) (hinv : s.Inv) : s.stop.Inv := by
  obtain ⟨hwf, hfail, hvalid, hcount, hrun, hrunning⟩ := hinv
  refine ⟨hwf, hfail, hvalid, hcount, hrun, ?_⟩
  intro h
  simp [Lifecycle.stop] at h

/-- The invariant holds along every cooperative execution. -/
theorem Lifecycle.inv_exec :
    ∀ (sched : List Tid) (s : Lifecycle), s.Inv → s.cooperativeAlong sched = true →
      (s.exec sched).Inv ∧ (s.exec sched).cooperative = true := by
  intro sched
  induction sched with
  | nil =>
    intro s hinv hcoop
    exact ⟨hinv, by simpa [Lifecycle.cooperativeAlong] using hcoop⟩
  | cons tid rest ih =>
    intro s hinv hcoop
    simp only [Lifecycle.cooperativeAlong, Bool.and_eq_true] at hcoop
    have hnext : (s.step tid).Inv := by
      cases tid with
      | run => exact Lifecycle.inv_run_step s hinv hcoop.1
      | stop => exact Lifecycle.inv_stop s hinv
      | task i => exact Lifecycle.inv_task s i hinv
    exact ih (s.step tid) hnext hcoop.2

/-- A step of `run()` changes neither the threads nor `init_valid` nor
`init_count`. -/
theorem Lifecycle.run_step_frame (s : Lifecycle) :
    s.run_step.tasks = s.tasks ∧ s.run_step.init_valid = s.init_valid
    ∧ s.run_step.init_count = s.init_count := by
  unfold Lifecycle.run_step
  cases s.run_pc with
  | set_start => exact ⟨rfl, rfl, rfl⟩
  | wait_count =>
    simp only
    split <;> exact ⟨rfl, rfl, rfl⟩
  | set_running => exact ⟨rfl, rfl, rfl⟩
  | join => exact ⟨rfl, rfl, rfl⟩

/-- No step changes which threads are registered, their kinds, or what their
`init` callbacks return. -/
theorem Lifecycle.step_static (s : Lifecycle) (tid : Tid) :
    (s.step tid).tasks.map (fun t => (t.kind, t.init_result))
      = s.tasks.map (fun t => (t.kind, t.init_result)) := by
  cases tid with
  | run =>
    simp only [Lifecycle.step, (Lifecycle.run_step_frame s).1]
  | stop => rfl
  | task i =>
    cases hget : s.tasks[i]? with
    | none => simp only [Lifecycle.step, hget]
    | some t =>
      obtain ⟨_, hidx⟩ := Lifecycle.step_task_get s i t hget
      obtain ⟨hk, hr, _⟩ := Lifecycle.task_step_static s t
      apply List.ext_getElem?
      intro j
      rw [List.getElem?_map, List.getElem?_map, hidx j]
      split
      · next hij =>
        subst hij
        rw [hget]
        simp [hk, hr]
      · rfl

/-- The registered threads, their kinds and their `init` results are the same
after any execution. -/
theorem Lifecycle.exec_static :
    ∀ (sched : List Tid) (s : Lifecycle),
      (s.exec sched).tasks.map (fun t => (t.kind, t.init_result))
        = s.tasks.map (fun t => (t.kind, t.init_result)) := by
  intro sched
  induction sched with
  | nil => intro s; rfl
  | cons tid rest ih =>
    intro s
    have : s.exec (tid :: rest) = (s.step tid).exec rest := rfl
    rw [this, ih, Lifecycle.step_static]

/-- Every thread satisfies `wf` after any execution, cooperative or not. -/
theorem Lifecycle.wf_exec :
    ∀ (sched : List Tid) (s : Lifecycle),
      (∀ (i : Nat) (t : LifecycleTask), s.tasks[i]? = some t → t.wf) →
      ∀ (i : Nat) (t : LifecycleTask), (s.exec sched).tasks[i]? = some t → t.wf := by
  intro sched
  induction sched with
  | nil => intro s h; exact h
  | cons tid rest ih =>
    intro s h
    apply ih (s.step tid)
    cases tid with
    | run =>
      have : s.run_step.tasks = s.tasks := (Lifecycle.run_step_frame s).1
      intro i t hget
      simp only [Lifecycle.step, this] at hget
      exact h i t hget
    | stop => exact h
    | task i =>
      cases hget : s.tasks[i]? with
      | none =>
        have : s.step (.task i) = s := by simp only [Lifecycle.step, hget]
        rw [this]; exact h
      | some t =>
        obtain ⟨_, hidx⟩ := Lifecycle.step_task_get s i t hget
        intro j tj hj
        rw [hidx j] at hj
        split at hj
        · cases hj; exact Lifecycle.task_step_wf s t (h i t hget)
        · exact h j tj hj

/-- One step of a thread keeps it outside the poll loop in a poisoned run. -/
theorem Lifecycle.task_step_poison (s : Lifecycle) (t : LifecycleTask)
    (hrv : s.running = true → s.init_valid = false)
    (h1 : t.pc = .check_valid → s.init_valid = false)
    (h2 : t.pc ≠ .poll_running) (h3 : t.pc ≠ .call_poll) (h4 : t.polls = 0) :
    ((s.task_step t).2.pc = .check_valid → (s.task_step t).1.init_valid = false)
    ∧ (s.task_step t).2.pc ≠ .poll_running ∧ (s.task_step t).2.pc ≠ .call_poll
    ∧ (s.task_step t).2.polls = 0 := by
  obtain ⟨kind, ir, pr, pc, inits, polls, shutdowns⟩ := t
  cases pc <;>
    simp [Lifecycle.task_step, LifecycleTask.after_poll] at h1 h2 h3 h4 ⊢ <;>
    (try split_ifs) <;> simp_all

/-- In a poisoned run, `running` is `true` only when `init_valid` is `false`:
`run()` sets `running` after every init has returned, the failing one
included. -/
theorem Lifecycle.poisoned_running (s : Lifecycle) (hinv : s.Inv) (hp : s.Poisoned)
    (hr : s.running = true) : s.init_valid = false := by
  obtain ⟨hwf, hfail, _, _, hrun, hrunning⟩ := hinv
  obtain ⟨⟨i, t, hget, hk, hres⟩, _⟩ := hp
  have hpast := hrun (Or.inr (hrunning hr)) i t hget
  have hw := hwf i t hget
  apply hfail i t hget
  obtain ⟨kind, ir, pr, pc, inits, polls, shutdowns⟩ := t
  simp only [LifecycleTask.wf] at hw
  simp only at hk hres hpast
  subst hres
  cases pc <;> simp_all [LifecycleTask.failedPast, TaskPc.pastInit, TaskPc.inWindow]

/-- Every step preserves the poisoned state. -/
theorem Lifecycle.poisoned_step (s : Lifecycle) (tid : Tid) (hinv : s.Inv) (hp : s.Poisoned) :
    (s.step tid).Poisoned := by
  cases tid with
  | run =>
    have h1 : s.run_step.tasks = s.tasks := (Lifecycle.run_step_frame s).1
    have h2 : s.run_step.init_valid = s.init_valid := (Lifecycle.run_step_frame s).2.1
    simp only [Lifecycle.step, Lifecycle.Poisoned, h1, h2]
    exact hp
  | stop => exact hp
  | task i =>
    cases hget : s.tasks[i]? with
    | none =>
      have : s.step (.task i) = s := by simp only [Lifecycle.step, hget]
      rw [this]; exact hp
    | some t =>
      obtain ⟨hstep, hidx⟩ := Lifecycle.step_task_get s i t hget
      obtain ⟨hk, hr, _⟩ := Lifecycle.task_step_static s t
      obtain ⟨hv, _⟩ := Lifecycle.task_step_flags s t
      have hvalid2 : (s.step (.task i)).init_valid = (s.task_step t).1.init_valid := by
        rw [hstep]
      have hmono : s.init_valid = false → (s.step (.task i)).init_valid = false := by
        intro h; rw [hvalid2, hv, h]; simp
      have hrv := Lifecycle.poisoned_running s hinv hp
      obtain ⟨⟨j, tj, hj, hjk, hjr⟩, hall⟩ := hp
      refine ⟨?_, ?_⟩
      · by_cases hij : i = j
        · subst hij
          rw [hget] at hj
          cases hj
          exact ⟨i, (s.task_step t).2, by rw [hidx i]; simp, by rw [hk]; exact hjk,
            by rw [hr]; exact hjr⟩
        · exact ⟨j, tj, by rw [hidx j]; simp [hij, hj], hjk, hjr⟩
      · intro k tk hkget
        rw [hidx k] at hkget
        split at hkget
        · cases hkget
          obtain ⟨a1, a2, a3, a4⟩ := hall i t hget
          have := Lifecycle.task_step_poison s t hrv a1 a2 a3 a4
          rw [hvalid2]
          exact this
        · obtain ⟨a1, a2, a3, a4⟩ := hall k tk hkget
          exact ⟨fun h => hmono (a1 h), a2, a3, a4⟩

/-- A cooperative execution of a poisoned run stays poisoned. -/
theorem Lifecycle.poisoned_exec :
    ∀ (sched : List Tid) (s : Lifecycle), s.Inv → s.Poisoned →
      s.cooperativeAlong sched = true → (s.exec sched).Poisoned := by
  intro sched
  induction sched with
  | nil => intro s _ hp _; exact hp
  | cons tid rest ih =>
    intro s hinv hp hcoop
    simp only [Lifecycle.cooperativeAlong, Bool.and_eq_true] at hcoop
    have hnext : (s.step tid).Inv := (Lifecycle.inv_exec [tid] s hinv (by
      simp only [Lifecycle.cooperativeAlong, Bool.and_eq_true]
      refine ⟨hcoop.1, ?_⟩
      cases rest with
      | nil => simpa [Lifecycle.cooperativeAlong] using hcoop.2
      | cons t2 r2 =>
        simp only [Lifecycle.cooperativeAlong, Bool.and_eq_true] at hcoop
        exact hcoop.2.1)).1
    exact ih (s.step tid) hnext (Lifecycle.poisoned_step s tid hinv hp) hcoop.2

/-- An engine with a registered thread whose `init` returns `false` starts in
a poisoned state. -/
theorem Lifecycle.poisoned_create (tasks : List (TaskKind × Bool × (Nat → Bool)))
    (hfail : ∃ t ∈ tasks, t.1.hasInit = true ∧ t.2.1 = false) :
    (Lifecycle.create tasks).Poisoned := by
  obtain ⟨a, ha, hk, hr⟩ := hfail
  obtain ⟨i, hi⟩ := List.getElem?_of_mem ha
  refine ⟨⟨i, LifecycleTask.create a.1 a.2.1 a.2.2, ?_, ?_, ?_⟩, ?_⟩
  · simp [Lifecycle.create, List.getElem?_map, hi]
  · simpa [LifecycleTask.create] using hk
  · simpa [LifecycleTask.create] using hr
  · intro j t hget
    simp only [Lifecycle.create, List.getElem?_map, Option.map_eq_some'] at hget
    obtain ⟨b, _, rfl⟩ := hget
    cases hb : b.1 <;> simp [LifecycleTask.create, hb, TaskKind.hasInit]

/-- C5. Lifecycle threads of any kinds, in any interleaving in which every
thread with an `init` callback has executed `init_count++` before `run()`
starts waiting on `init_count`: if the `init` callback of at least one
registered thread returns `false`, no `poll` callback of any thread is ever
invoked, and no thread ever enters its poll loop. -/
theorem C5_failed_init_no_poll (tasks : List (TaskKind × Bool × (Nat → Bool)))
    (sched : List Tid)
    (hfail : ∃ t ∈ tasks, t.1.hasInit = true ∧ t.2.1 = false)
    (hcoop : (Lifecycle.create tasks).cooperativeAlong sched = true) :
    ∀ t ∈ ((Lifecycle.create tasks).exec sched).tasks,
      t.polls = 0 ∧ t.pc ≠ .call_poll ∧ t.pc ≠ .poll_running := by
  have hp := Lifecycle.poisoned_exec sched (Lifecycle.create tasks) (Lifecycle.inv_create tasks)
    (Lifecycle.poisoned_create tasks hfail) hcoop
  intro t ht
  obtain ⟨i, hi⟩ := List.getElem?_of_mem ht
  obtain ⟨_, a2, a3, a4⟩ := hp.2 i t hi
  exact ⟨a4, a3, a2⟩

/-- Witness for C5: the engine `poisonedTasks` run to completion by
`poisonedSchedule`. -/
theorem C5_failed_init_no_poll_witness :
    (Lifecycle.create poisonedTasks).cooperativeAlong poisonedSchedule = true
    ∧ ((Lifecycle.create poisonedTasks).exec poisonedSchedule).tasks.map (fun t => t.pc)
        = [.done, .done, .done, .done]
    ∧ ((Lifecycle.create poisonedTasks).exec poisonedSchedule).tasks.all
        (fun t => decide (t.polls = 0)) = true :=
  ⟨by decide, by decide,
   List.all_eq_true.mpr (fun t ht => decide_eq_true
     (C5_failed_init_no_poll poisonedTasks poisonedSchedule
       ⟨(.init_poll_shutdown, false, fun _ => true), by simp [poisonedTasks], rfl, rfl⟩
       (by decide) t ht).1)⟩

/-- How often `shutdown` has been invoked, in every execution: never by a
thread without a `shutdown` callback; never by a thread whose own `init`
returned `false`; and by any other thread with a `shutdown` callback exactly
once when it has returned, and not before. -/
theorem Lifecycle.shutdown_calls (tasks : List (TaskKind × Bool × (Nat → Bool)))
    (sched : List Tid) :
    ∀ t ∈ ((Lifecycle.create tasks).exec sched).tasks,
      (t.kind.hasShutdown = false → t.shutdowns = 0)
      ∧ (t.kind.hasInit = true → t.init_result = false → t.shutdowns = 0)
      ∧ (t.kind.hasShutdown = true → (t.kind.hasInit = true → t.init_result = true) →
          t.shutdowns = if t.pc = .done then 1 else 0) := by
  intro t ht
  obtain ⟨i, hi⟩ := List.getElem?_of_mem ht
  have hw := Lifecycle.wf_exec sched (Lifecycle.create tasks) (Lifecycle.inv_create tasks).1 i t hi
  obtain ⟨_, _, h3, _, _, _, _, h8, h9⟩ := hw
  exact ⟨fun h => (h8 h).2, fun hk hr => (h3 hk hr).2.2, h9⟩

/-- C6 (the code at the failing input). An engine whose only lifecycle thread
was registered by `create_init_poll_shutdown_callback` with an `init` that
returns `false`: in every execution the `shutdown` callback of that thread has
been invoked zero times; and in the complete run `failedInitSchedule` the
`init` callback was invoked once, the thread has returned and `run()` has
reached the joining of the threads, with `shutdown` never invoked. -/
theorem C6_failed_init_skips_own_shutdown :
    (∀ sched : List Tid,
      ((Lifecycle.create failedInitTasks).exec sched).tasks.map (fun t => t.shutdowns) = [0])
    ∧ ((Lifecycle.create failedInitTasks).exec failedInitSchedule).tasks.map
        (fun t => (t.pc, t.inits, t.shutdowns)) = [(.done, 1, 0)]
    ∧ ((Lifecycle.create failedInitTasks).exec failedInitSchedule).run_pc = .join
    ∧ ((Lifecycle.create failedInitTasks).exec failedInitSchedule).init_valid = false := by
  refine ⟨?_, by decide, by decide, by decide⟩
  intro sched
  have hstatic := Lifecycle.exec_static sched (Lifecycle.create failedInitTasks)
  have hwf := Lifecycle.wf_exec sched (Lifecycle.create failedInitTasks)
    (Lifecycle.inv_create failedInitTasks).1
  generalize (Lifecycle.create failedInitTasks).exec sched = s at hstatic hwf
  have hcfg : (Lifecycle.create failedInitTasks).tasks.map (fun t => (t.kind, t.init_result))
      = [(.init_poll_shutdown, false)] := by decide
  rw [hcfg] at hstatic
  cases hts : s.tasks with
  | nil => rw [hts] at hstatic; simp at hstatic
  | cons t rest =>
    cases rest with
    | cons t2 r2 => rw [hts] at hstatic; simp at hstatic
    | nil =>
      rw [hts] at hstatic
      simp only [List.map_cons, List.map_nil, List.cons.injEq, Prod.mk.injEq, and_true] at hstatic
      have hw := hwf 0 t (by rw [hts]; rfl)
      have := hw.2.2.1 (by rw [hstatic.1]; rfl) hstatic.2
      simp [this.2.2]

/-- C7 (as stated) fails: one thread registered by `create_init_callback`
whose `init` returns `false`. The thread executes `init_count++`, `run()` sets
`start_init`, the init is called and fails, the thread sets
`init_valid = false` and decrements `init_count`, `run()` reads
`init_count == 0` and then sets `running = true`: at that moment the only
registered init callback has returned `false` and `init_valid` is `false`. -/
theorem C7_running_set_despite_failed_init :
    (Lifecycle.create [(.init, false, fun _ => true)]).cooperativeAlong
        [.task 0, .run, .task 0, .task 0, .task 0, .task 0, .run, .run] = true
    ∧ ((Lifecycle.create [(.init, false, fun _ => true)]).exec
        [.task 0, .run, .task 0, .task 0, .task 0, .task 0, .run]).run_pc = .set_running
    ∧ ((Lifecycle.create [(.init, false, fun _ => true)]).exec
        [.task 0, .run, .task 0, .task 0, .task 0, .task 0, .run]).running = false
    ∧ ((Lifecycle.create [(.init, false, fun _ => true)]).exec
        [.task 0, .run, .task 0, .task 0, .task 0, .task 0, .run, .run]).running = true
    ∧ ((Lifecycle.create [(.init, false, fun _ => true)]).exec
        [.task 0, .run, .task 0, .task 0, .task 0, .task 0, .run, .run]).init_valid = false
    ∧ ((Lifecycle.create [(.init, false, fun _ => true)]).exec
        [.task 0, .run, .task 0, .task 0, .task 0, .task 0, .run, .run]).tasks.map
          (fun t => (t.inits, t.init_result)) = [(1, false)] := by
  decide

/-- C7 (amended). In every interleaving in which every thread with an `init`
callback has executed `init_count++` before `run()` starts waiting on
`init_count`: at the moment `run()` sets `running` to `true`, `init_count` is
zero, every registered `init` callback has been invoked exactly once and has
returned, and `init_valid` is `true` exactly when all of them returned `true`
(`running` is set also when `init_valid` is `false`). -/
theorem C7_running_set_after_inits (tasks : List (TaskKind × Bool × (Nat → Bool)))
    (sched : List Tid)
    (hcoop : (Lifecycle.create tasks).cooperativeAlong sched = true)
    (hpc : ((Lifecycle.create tasks).exec sched).run_pc = .set_running) :
    ((Lifecycle.create tasks).exec (sched ++ [.run])).running = true
    ∧ ((Lifecycle.create tasks).exec (sched ++ [.run])).init_count = 0
    ∧ (∀ t ∈ ((Lifecycle.create tasks).exec (sched ++ [.run])).tasks,
        t.kind.hasInit = true → t.inits = 1 ∧ t.pc.pastInit = true)
    ∧ (((Lifecycle.create tasks).exec (sched ++ [.run])).init_valid = true
        ↔ ∀ t ∈ ((Lifecycle.create tasks).exec (sched ++ [.run])).tasks,
            t.kind.hasInit = true → t.init_result = true)
    ∧ ((Lifecycle.create tasks).exec (sched ++ [.run])).tasks.map
          (fun t => (t.kind, t.init_result))
        = tasks.map (fun t => (t.1, t.2.1)) := by
  obtain ⟨hinv, _⟩ := Lifecycle.inv_exec sched (Lifecycle.create tasks)
    (Lifecycle.inv_create tasks) hcoop
  have hstatic := Lifecycle.exec_static sched (Lifecycle.create tasks)
  have hexec : (Lifecycle.create tasks).exec (sched ++ [.run])
      = ((Lifecycle.create tasks).exec sched).step .run := by
    simp [Lifecycle.exec, List.foldl_append]
  rw [hexec]
  generalize (Lifecycle.create tasks).exec sched = s at hinv hpc hstatic
  obtain ⟨hwf, hfail, hvalid, hcount, hrun, hrunning⟩ := hinv
  have hstep : s.step .run = { s with running := true, run_pc := .join } := by
    simp only [Lifecycle.step, Lifecycle.run_step, hpc]
  rw [hstep]
  have hpast : ∀ t ∈ s.tasks, t.pc.pastInit = true := by
    intro t ht
    obtain ⟨i, hi⟩ := List.getElem?_of_mem ht
    exact hrun (Or.inl hpc) i t hi
  have hwfm : ∀ t ∈ s.tasks, t.wf := by
    intro t ht
    obtain ⟨i, hi⟩ := List.getElem?_of_mem ht
    exact hwf i t hi
  refine ⟨rfl, ?_, ?_, ?_, ?_⟩
  · show s.init_count = 0
    rw [hcount]
    have : s.tasks.countP (fun t => t.pc.inWindow) = 0 := by
      rw [List.countP_eq_zero]
      intro t ht
      have := hpast t ht
      simp only [TaskPc.pastInit, Bool.and_eq_true, Bool.not_eq_true'] at this
      simp [this.2]
    rw [this]; rfl
  · intro t ht hk
    have hp := hpast t ht
    refine ⟨?_, hp⟩
    have hw := (hwfm t ht).2.2.2.1 hk
    rw [hw]
    have hne : ¬ (t.pc = .incr ∨ t.pc = .wait_start ∨ t.pc = .call_init) := by
      intro h
      rcases h with h | h | h <;> rw [h] at hp <;> simp [TaskPc.pastInit, TaskPc.inWindow] at hp
    simp [hne]
  · show s.init_valid = true ↔ _
    constructor
    · intro hv t ht hk
      by_contra hres
      have hres : t.init_result = false := by simpa using hres
      obtain ⟨i, hi⟩ := List.getElem?_of_mem ht
      have hp := hpast t ht
      have hw := ((hwfm t ht).2.2.1 hk hres).1
      have hfp : t.failedPast = true := by
        rcases hw with h | h | h | h | h | h <;>
          first
          | (rw [h] at hp; simp [TaskPc.pastInit, TaskPc.inWindow] at hp; done)
          | simp [LifecycleTask.failedPast, hk, hres, h]
      rw [hfail i t hi hfp] at hv
      cases hv
    · intro hall
      by_contra hv
      have hv : s.init_valid = false := by simpa using hv
      obtain ⟨i, t, hi, hfp⟩ := hvalid hv
      have ht : t ∈ s.tasks := List.getElem?_mem hi
      simp only [LifecycleTask.failedPast, Bool.and_eq_true, Bool.not_eq_true'] at hfp
      have := hall t ht hfp.1.1
      rw [this] at hfp
      simp at hfp
  · show s.tasks.map (fun t => (t.kind, t.init_result)) = _
    rw [hstatic]
    simp [Lifecycle.create, LifecycleTask.create, Function.comp]

/-- Witness for C7 (amended): the engine `poisonedTasks`, whose first thread
fails its init, up to the step of `run()` that sets `running`. -/
theorem C7_running_set_after_inits_witness :
    ((Lifecycle.create poisonedTasks).exec (poisonedPrefix ++ [.run])).running = true
    ∧ ((Lifecycle.create poisonedTasks).exec (poisonedPrefix ++ [.run])).init_count = 0
    ∧ ((Lifecycle.create poisonedTasks).exec (poisonedPrefix ++ [.run])).init_valid = false :=
  ⟨(C7_running_set_after_inits poisonedTasks poisonedPrefix (by decide) (by decide)).1,
   (C7_running_set_after_inits poisonedTasks poisonedPrefix (by decide) (by decide)).2.1,
   by decide⟩

/-- Without the cooperation assumption `init_count` need not be zero when
`running` is set: a thread that executes `init_count++` after `run()` has read
`init_count == 0` is not waited for. -/
theorem Lifecycle.late_increment_race :
    ((Lifecycle.create [(.init, true, fun _ => true)]).exec [.run, .run, .task 0]).run_pc
        = .set_running
    ∧ ((Lifecycle.create [(.init, true, fun _ => true)]).exec
        [.run, .run, .task 0, .run]).running = true
    ∧ ((Lifecycle.create [(.init, true, fun _ => true)]).exec
        [.run, .run, .task 0, .run]).init_count = 1
    ∧ (Lifecycle.create [(.init, true, fun _ => true)]).cooperativeAlong
        [.run, .run, .task 0, .run] = false := by
  decide

/-! ### Deferred-callback workers -/

/-- Putting back the element a list holds at an index gives the list. -/
theorem set_of_getElem? {α : Type} (l : List α) (i : Nat) (a : α) (h : l[i]? = some a) :
    l.set i a = l := by
  apply List.ext_getElem?
  intro j
  rw [List.getElem?_set]
  split
  · next hij =>
    subst hij
    split
    · exact h.symm
    · next hlt => rw [List.getElem?_eq_none (by omega)]
  · rfl

/-- `execute_callback` with `running` false: nothing is popped or invoked and
the state is the one before the call. -/
theorem Workers.execute_callback_stopped {τ : Type} (w : Workers τ) (i : Nat)
    (hidle : w.workers[i]? = some .idle) (hfree : w.queue_mutex = none)
    (hrun : w.running = false) :
    w.execute_callback i = some w := by
  have hi : i < w.workers.length := by
    rcases Nat.lt_or_ge i w.workers.length with h | h
    · exact h
    · rw [List.getElem?_eq_none h] at hidle; cases hidle
  have h1 : w.step (.wait i)
      = some { w with queue_mutex := some i, workers := w.workers.set i .woken } := by
    simp [Workers.step, hidle, hfree, hrun]
  have h2 : (w.workers.set i WorkerPc.woken)[i]? = some WorkerPc.woken := by
    rw [List.getElem?_set_self hi]
  have h3 : ((w.workers.set i WorkerPc.woken).set i WorkerPc.idle) = w.workers := by
    rw [List.set_set]
    exact set_of_getElem? w.workers i _ hidle
  simp only [Workers.execute_callback, h1]
  simp only [Workers.step, h2, hrun, Bool.not_false, if_true, h3, hidle]
  cases w
  simp_all

/-- `execute_callback` with `running` true and a non-empty queue: exactly the
front callback is removed, it is invoked once, and the rest of the queue is
left in the same order. -/
theorem Workers.execute_callback_running {τ : Type} (w : Workers τ) (i : Nat)
    (callback : Deferred τ) (rest : List (Deferred τ))
    (hidle : w.workers[i]? = some .idle) (hfree : w.queue_mutex = none)
    (hrun : w.running = true) (hq : w.engine.callback_queue = callback :: rest) :
    w.execute_callback i
      = some { w with
          engine := { w.engine with callback_queue := rest }
          dequeued := w.dequeued ++ [callback]
          invoked := w.invoked ++ [callback] } := by
  have hi : i < w.workers.length := by
    rcases Nat.lt_or_ge i w.workers.length with h | h
    · exact h
    · rw [List.getElem?_eq_none h] at hidle; cases hidle
  have h1 : w.step (.wait i)
      = some { w with queue_mutex := some i, workers := w.workers.set i .woken } := by
    simp [Workers.step, hidle, hfree, hrun, hq]
  have h2 : (w.workers.set i WorkerPc.woken)[i]? = some WorkerPc.woken := by
    rw [List.getElem?_set_self hi]
  have h3 : ((w.workers.set i WorkerPc.woken).set i (WorkerPc.popped callback))[i]?
      = some (WorkerPc.popped callback) := by
    rw [List.getElem?_set_self (by simpa using hi)]
  have h4 : (((w.workers.set i WorkerPc.woken).set i (WorkerPc.popped callback)).set i
      WorkerPc.idle) = w.workers := by
    rw [List.set_set, List.set_set]
    exact set_of_getElem? w.workers i _ hidle
  simp only [Workers.execute_callback, h1]
  simp only [Workers.step, h2, hrun, hq, Bool.not_true, Bool.false_eq_true, if_false, h3, h4]
  cases w
  simp_all

/-- `execute_callback` with `running` true and an empty queue blocks in
`cv.wait`. -/
theorem Workers.execute_callback_blocks {τ : Type} (w : Workers τ) (i : Nat)
    (hrun : w.running = true) (hq : w.engine.callback_queue = []) :
    w.execute_callback i = none := by
  have h1 : w.step (.wait i) = none := by
    simp only [Workers.step]
    split
    · simp [hrun, hq]
    · rfl
  simp only [Workers.execute_callback, h1]

/-- The lock invariant holds when no worker is inside `execute_callback`. -/
theorem Workers.lockInv_create {τ : Type} (e : Engine τ) (running : Bool) (n : Nat) :
    (Workers.create e running n).LockInv := by
  refine ⟨?_, ?_, rfl⟩
  · intro j hj
    simp only [Workers.create] at hj
    rw [List.getElem?_replicate] at hj
    split at hj <;> cases hj
  · intro j hj
    simp [Workers.create] at hj

/-- Every atomic action preserves the lock invariant. -/
theorem Workers.lockInv_step {τ : Type} (w next : Workers τ) (ev : WorkerEvent τ)
    (hinv : w.LockInv) (hstep : w.step ev = some next) : next.LockInv := by
  obtain ⟨hwoken, hheld, hassert⟩ := hinv
  cases ev with
  | push callback =>
    simp only [Workers.step] at hstep
    split at hstep
    · cases hstep
    · next hfree =>
      cases hstep
      have hnone : w.queue_mutex = none := by
        cases hm : w.queue_mutex with
        | none => rfl
        | some k => rw [hm] at hfree; simp at hfree
      refine ⟨?_, hheld, hassert⟩
      intro j hj
      have := (hwoken j hj).1
      rw [hnone] at this
      cases this
  | stop =>
    simp only [Workers.step, Option.some.injEq] at hstep
    subst hstep
    exact ⟨fun j hj => ⟨(hwoken j hj).1, fun h => by cases h⟩, hheld, hassert⟩
  | wait i =>
    simp only [Workers.step] at hstep
    split at hstep
    · next hidle =>
      split at hstep
      · cases hstep
      · next hfree =>
        have hnone : w.queue_mutex = none := by
          cases hm : w.queue_mutex with
          | none => rfl
          | some k => rw [hm] at hfree; simp at hfree
        split at hstep
        · next hpred =>
          cases hstep
          have hi : i < w.workers.length := by
            rcases Nat.lt_or_ge i w.workers.length with h | h
            · exact h
            · rw [List.getElem?_eq_none h] at hidle; cases hidle
          refine ⟨?_, ?_, hassert⟩
          · intro j hj
            simp only [List.getElem?_set, hi, if_true] at hj
            split at hj
            · next hij =>
              subst hij
              refine ⟨rfl, ?_⟩
              intro hr
              simp only [Bool.or_eq_true, decide_eq_true_eq, Bool.not_eq_true'] at hpred
              show w.engine.callback_queue ≠ []
              rcases hpred with h | h
              · intro hnil; rw [hnil] at h; simp at h
              · have hr2 : w.running = true := hr
                rw [h] at hr2; cases hr2
            · have := (hwoken j hj).1
              rw [hnone] at this
              cases this
          · intro j hj
            simp only [Option.some.injEq] at hj
            subst hj
            simp only [List.getElem?_set_self hi]
        · cases hstep
    · cases hstep
  | check i =>
    simp only [Workers.step] at hstep
    split at hstep
    · next hw =>
      have hmi := (hwoken i hw).1
      have hi : i < w.workers.length := by
        rcases Nat.lt_or_ge i w.workers.length with h | h
        · exact h
        · rw [List.getElem?_eq_none h] at hw; cases hw
      have hothers : ∀ (pc : WorkerPc τ) (j : Nat), pc ≠ .woken →
          (w.workers.set i pc)[j]? = some .woken → False := by
        intro pc j hpc hj
        simp only [List.getElem?_set, hi, if_true] at hj
        split at hj
        · exact hpc (Option.some.inj hj)
        · next hij =>
          have := (hwoken j hj).1
          rw [hmi] at this
          exact hij (Option.some.inj this)
      split at hstep
      · cases hstep
        exact ⟨fun j hj => (hothers _ j (by simp) hj).elim, (fun j hj => by cases hj), hassert⟩
      · next hr =>
        have hrun : w.running = true := by simpa using hr
        split at hstep
        · next hq => exact absurd hq ((hwoken i hw).2 hrun)
        · cases hstep
          exact ⟨fun j hj => (hothers _ j (by simp) hj).elim, (fun j hj => by cases hj), hassert⟩
    · cases hstep
  | invoke i =>
    simp only [Workers.step] at hstep
    split at hstep
    · next callback hp =>
      cases hstep
      have hi : i < w.workers.length := by
        rcases Nat.lt_or_ge i w.workers.length with h | h
        · exact h
        · rw [List.getElem?_eq_none h] at hp; cases hp
      refine ⟨?_, ?_, hassert⟩
      · intro j hj
        simp only [List.getElem?_set, hi, if_true] at hj
        split at hj
        · cases hj
        · exact hwoken j hj
      · intro j hj
        have hwj := hheld j hj
        simp only [List.getElem?_set, hi, if_true]
        split
        · next hij =>
          subst hij
          rw [hp] at hwj; cases hwj
        · exact hwj
    · cases hstep

/-- The lock invariant holds along every sequence of actions. -/
theorem Workers.lockInv_run {τ : Type} :
    ∀ (sched : List (WorkerEvent τ)) (w final : Workers τ), w.LockInv →
      w.run sched = some final → final.LockInv := by
  intro sched
  induction sched with
  | nil =>
    intro w final hinv hrun
    simp only [Workers.run, Option.some.injEq] at hrun
    subst hrun; exact hinv
  | cons ev rest ih =>
    intro w final hinv hrun
    simp only [Workers.run] at hrun
    cases hstep : w.step ev with
    | none => rw [hstep] at hrun; cases hrun
    | some next =>
      rw [hstep] at hrun
      exact ih next final (Workers.lockInv_step w next ev hinv hstep) hrun

/-- Pops take the front and pushes add at the back: the callbacks popped so
far followed by the queue are the earlier ones followed by the new pushes. -/
theorem Workers.fifo_step {τ : Type} (w next : Workers τ) (ev : WorkerEvent τ)
    (hstep : w.step ev = some next) :
    next.dequeued ++ next.engine.callback_queue
      = w.dequeued ++ w.engine.callback_queue ++ pushedBy [ev] := by
  cases ev with
  | push callback =>
    simp only [Workers.step] at hstep
    split at hstep
    · cases hstep
    · cases hstep
      simp [pushedBy, Engine.push_callback]
  | stop =>
    simp only [Workers.step, Option.some.injEq] at hstep
    subst hstep
    simp [pushedBy]
  | wait i =>
    simp only [Workers.step] at hstep
    split at hstep
    · split at hstep
      · cases hstep
      · split at hstep
        · cases hstep; simp [pushedBy]
        · cases hstep
    · cases hstep
  | check i =>
    simp only [Workers.step] at hstep
    split at hstep
    · split at hstep
      · cases hstep; simp [pushedBy]
      · split at hstep
        · cases hstep; simp [pushedBy]
        · next callback rest hq =>
          cases hstep
          simp [pushedBy, hq]
    · cases hstep
  | invoke i =>
    simp only [Workers.step] at hstep
    split at hstep
    · cases hstep; simp [pushedBy]
    · cases hstep

/-- The callbacks pushed by a sequence of actions, piecewise. -/
theorem pushedBy_cons {τ : Type} (ev : WorkerEvent τ) (rest : List (WorkerEvent τ)) :
    pushedBy (ev :: rest) = pushedBy [ev] ++ pushedBy rest := by
  cases ev <;> simp [pushedBy]

/-- FIFO along a sequence of actions. -/
theorem Workers.fifo_run {τ : Type} :
    ∀ (sched : List (WorkerEvent τ)) (w final : Workers τ), w.run sched = some final →
      final.dequeued ++ final.engine.callback_queue
        = w.dequeued ++ w.engine.callback_queue ++ pushedBy sched := by
  intro sched
  induction sched with
  | nil =>
    intro w final hrun
    simp only [Workers.run, Option.some.injEq] at hrun
    subst hrun; simp [pushedBy]
  | cons ev rest ih =>
    intro w final hrun
    simp only [Workers.run] at hrun
    cases hstep : w.step ev with
    | none => rw [hstep] at hrun; cases hrun
    | some next =>
      rw [hstep] at hrun
      rw [ih next final hrun, Workers.fifo_step w next ev hstep, pushedBy_cons ev rest]
      simp only [List.append_assoc]

/-- A single worker invokes the callbacks in the order it pops them. -/
theorem Workers.single_step {τ : Type} (w next : Workers τ) (ev : WorkerEvent τ)
    (p : WorkerPc τ) (hw : w.workers = [p]) (hinv : w.invoked ++ p.inflight = w.dequeued)
    (hstep : w.step ev = some next) :
    ∃ q : WorkerPc τ, next.workers = [q] ∧ next.invoked ++ q.inflight = next.dequeued := by
  have hidx : ∀ (i : Nat) (pc : WorkerPc τ), w.workers[i]? = some pc → i = 0 ∧ pc = p := by
    intro i pc h
    rw [hw] at h
    cases i with
    | zero => simp at h; exact ⟨rfl, h.symm⟩
    | succ k => simp at h
  cases ev with
  | push callback =>
    simp only [Workers.step] at hstep
    split at hstep
    · cases hstep
    · cases hstep; exact ⟨p, hw, hinv⟩
  | stop =>
    simp only [Workers.step, Option.some.injEq] at hstep
    subst hstep
    exact ⟨p, hw, hinv⟩
  | wait i =>
    simp only [Workers.step] at hstep
    split at hstep
    · next hidle =>
      obtain ⟨hi, hp⟩ := hidx i _ hidle
      subst hi
      split at hstep
      · cases hstep
      · split at hstep
        · cases hstep
          refine ⟨.woken, by simp [hw], ?_⟩
          rw [← hp] at hinv
          simpa [WorkerPc.inflight] using hinv
        · cases hstep
    · cases hstep
  | check i =>
    simp only [Workers.step] at hstep
    split at hstep
    · next hwoken =>
      obtain ⟨hi, hp⟩ := hidx i _ hwoken
      subst hi
      rw [← hp] at hinv
      simp only [WorkerPc.inflight, List.append_nil] at hinv
      split at hstep
      · cases hstep
        exact ⟨.idle, by simp [hw], by simpa [WorkerPc.inflight] using hinv⟩
      · split at hstep
        · cases hstep
          exact ⟨.idle, by simp [hw], by simpa [WorkerPc.inflight] using hinv⟩
        · next callback rest hq =>
          cases hstep
          exact ⟨.popped callback, by simp [hw], by simp [WorkerPc.inflight, hinv]⟩
    · cases hstep
  | invoke i =>
    simp only [Workers.step] at hstep
    split at hstep
    · next callback hpop =>
      obtain ⟨hi, hp⟩ := hidx i _ hpop
      subst hi
      rw [← hp] at hinv
      cases hstep
      exact ⟨.idle, by simp [hw], by simpa [WorkerPc.inflight] using hinv⟩
    · cases hstep

/-- A single worker, along a sequence of actions. -/
theorem Workers.single_run {τ : Type} :
    ∀ (sched : List (WorkerEvent τ)) (w final : Workers τ) (p : WorkerPc τ),
      w.workers = [p] → w.invoked ++ p.inflight = w.dequeued → w.run sched = some final →
      ∃ q : WorkerPc τ, final.workers = [q] ∧ final.invoked ++ q.inflight = final.dequeued := by
  intro sched
  induction sched with
  | nil =>
    intro w final p hw hinv hrun
    simp only [Workers.run, Option.some.injEq] at hrun
    subst hrun; exact ⟨p, hw, hinv⟩
  | cons ev rest ih =>
    intro w final p hw hinv hrun
    simp only [Workers.run] at hrun
    cases hstep : w.step ev with
    | none => rw [hstep] at hrun; cases hrun
    | some next =>
      rw [hstep] at hrun
      obtain ⟨q, hq1, hq2⟩ := Workers.single_step w next ev p hw hinv hstep
      exact ih next final q hq1 hq2 hrun

/-- Once `running` is false no action pops a callback: `running` stays false,
the popped callbacks are the same and the queue can only grow at the back. -/
theorem Workers.stopped_step {τ : Type} (w next : Workers τ) (ev : WorkerEvent τ)
    (hrun : w.running = false) (hstep : w.step ev = some next) :
    next.running = false ∧ next.dequeued = w.dequeued
    ∧ ∃ l, next.engine.callback_queue = w.engine.callback_queue ++ l := by
  cases ev with
  | push callback =>
    simp only [Workers.step] at hstep
    split at hstep
    · cases hstep
    · cases hstep
      exact ⟨hrun, rfl, [callback], rfl⟩
  | stop =>
    simp only [Workers.step, Option.some.injEq] at hstep
    subst hstep
    exact ⟨rfl, rfl, [], by simp⟩
  | wait i =>
    simp only [Workers.step] at hstep
    split at hstep
    · split at hstep
      · cases hstep
      · split at hstep
        · cases hstep; exact ⟨hrun, rfl, [], by simp⟩
        · cases hstep
    · cases hstep
  | check i =>
    simp only [Workers.step, hrun, Bool.not_false, if_true] at hstep
    split at hstep
    · cases hstep; exact ⟨rfl, rfl, [], by simp⟩
    · cases hstep
  | invoke i =>
    simp only [Workers.step] at hstep
    split at hstep
    · cases hstep; exact ⟨hrun, rfl, [], by simp⟩
    · cases hstep

/-- Once `running` is false, along a sequence of actions. -/
theorem Workers.stopped_run {τ : Type} :
    ∀ (sched : List (WorkerEvent τ)) (w final : Workers τ), w.running = false →
      w.run sched = some final →
      final.running = false ∧ final.dequeued = w.dequeued
      ∧ ∃ l, final.engine.callback_queue = w.engine.callback_queue ++ l := by
  intro sched
  induction sched with
  | nil =>
    intro w final hr hrun
    simp only [Workers.run, Option.some.injEq] at hrun
    subst hrun; exact ⟨hr, rfl, [], by simp⟩
  | cons ev rest ih =>
    intro w final hr hrun
    simp only [Workers.run] at hrun
    cases hstep : w.step ev with
    | none => rw [hstep] at hrun; cases hrun
    | some next =>
      rw [hstep] at hrun
      obtain ⟨h1, h2, l1, h3⟩ := Workers.stopped_step w next ev hr hstep
      obtain ⟨h4, h5, l2, h6⟩ := ih next final h1 hrun
      exact ⟨h4, by rw [h5, h2], l1 ++ l2, by rw [h6, h3, List.append_assoc]⟩

/-- The body of `write` after the loop is what `CallbackInput.write` does when
`full` is clear. -/
theorem CallbackInput.write_eq_place {T : Type} (s : CallbackInput T) (data : T)
    (h : s.full = false) : s.write data = some (s.place data) := by
  simp [CallbackInput.write, CallbackInput.place, h]

/-- One action of a thread that respects the lock discipline: the thread list
is untouched, `position_mutex` changes only by the thread acquiring it when it
is free or releasing it when it holds it, and afterwards the thread holds the
lock only as the recorded holder. -/
theorem CallbackLocks.thread_step_lock {T : Type} (s : CallbackLocks T) (i : Nat)
    (pc : CallbackPc T) (h : pc.holdsPosition = true → s.position_mutex = some i) :
    (s.thread_step i pc).1.threads = s.threads
    ∧ ((s.thread_step i pc).2.holdsPosition = true →
        (s.thread_step i pc).1.position_mutex = some i)
    ∧ ((s.thread_step i pc).1.position_mutex = s.position_mutex
        ∨ (s.position_mutex = none ∧ (s.thread_step i pc).1.position_mutex = some i)
        ∨ (s.position_mutex = some i ∧ (s.thread_step i pc).1.position_mutex = none)) := by
  cases pc with
  | write_lock data =>
    simp only [CallbackLocks.thread_step]
    split
    · next hm => simp [CallbackPc.holdsPosition, hm]
    · next k hm => simp [CallbackPc.holdsPosition, hm]
  | write_spin data =>
    have hi := h rfl
    exact ⟨rfl, fun _ => hi, Or.inl rfl⟩
  | write_place data =>
    have hi := h rfl
    simp [CallbackLocks.thread_step, CallbackPc.holdsPosition, hi]
  | get_lock_mutex =>
    simp only [CallbackLocks.thread_step]
    split <;> simp [CallbackPc.holdsPosition]
  | get_lock_position =>
    simp only [CallbackLocks.thread_step]
    split
    · next hm => simp [CallbackPc.holdsPosition, hm]
    · next k hm => simp [CallbackPc.holdsPosition, hm]
  | get_check =>
    have hi := h rfl
    simp [CallbackLocks.thread_step, CallbackPc.holdsPosition, hi]
  | call p =>
    simp only [CallbackLocks.thread_step]
    split <;> simp [CallbackPc.holdsPosition]
  | release_lock p =>
    simp only [CallbackLocks.thread_step]
    split
    · simp [CallbackPc.holdsPosition]
    · split
      · next hm => simp [CallbackPc.holdsPosition, hm]
      · next k hm => simp [CallbackPc.holdsPosition, hm]
  | release_body p =>
    have hi := h rfl
    simp [CallbackLocks.thread_step, CallbackPc.holdsPosition, hi]
  | done => simp [CallbackLocks.thread_step, CallbackPc.holdsPosition]
  | faulted => simp [CallbackLocks.thread_step, CallbackPc.holdsPosition]

/-- The threads after a step of the thread with index `i`. -/
theorem CallbackLocks.step_get {T : Type} (s : CallbackLocks T) (i : Nat) (pc : CallbackPc T)
    (hget : s.threads[i]? = some pc) :
    s.step i = { (s.thread_step i pc).1 with threads := s.threads.set i (s.thread_step i pc).2 }
    ∧ ∀ j : Nat, (s.step i).threads[j]?
        = if i = j then some (s.thread_step i pc).2 else s.threads[j]? := by
  have hstep : s.step i
      = { (s.thread_step i pc).1 with threads := s.threads.set i (s.thread_step i pc).2 } := by
    simp only [CallbackLocks.step, hget]
  refine ⟨hstep, ?_⟩
  intro j
  have hi : i < s.threads.length := by
    rcases Nat.lt_or_ge i s.threads.length with h | h
    · exact h
    · rw [List.getElem?_eq_none h] at hget; cases hget
  rw [hstep]
  simp only [List.getElem?_set, hi, if_true]

/-- The lock discipline holds at construction. -/
theorem CallbackLocks.position_lock_create {T : Type} (n : Nat) (init : T)
    (threads : List (CallbackThread T)) : (CallbackLocks.create n init threads).LockInv := by
  intro j pc hget hhold
  simp only [CallbackLocks.create, List.getElem?_map, Option.map_eq_some'] at hget
  obtain ⟨t, _, rfl⟩ := hget
  cases t <;> simp [CallbackThread.first, CallbackPc.holdsPosition] at hhold

/-- Every step preserves the lock discipline. -/
theorem CallbackLocks.position_lock_step {T : Type} (s : CallbackLocks T) (i : Nat)
    (hinv : s.LockInv) : (s.step i).LockInv := by
  cases hget : s.threads[i]? with
  | none =>
    have : s.step i = s := by simp only [CallbackLocks.step, hget]
    rw [this]; exact hinv
  | some pc =>
    obtain ⟨hstep, hidx⟩ := CallbackLocks.step_get s i pc hget
    obtain ⟨_, hhold, hchange⟩ := CallbackLocks.thread_step_lock s i pc (hinv i pc hget)
    have hpos : (s.step i).position_mutex = (s.thread_step i pc).1.position_mutex := by
      rw [hstep]
    intro j pcj hj hholdj
    rw [hidx j] at hj
    rw [hpos]
    split at hj
    · next hij =>
      subst hij
      cases hj
      exact hhold hholdj
    · next hij =>
      have hold := hinv j pcj hj hholdj
      rcases hchange with h | ⟨h1, _⟩ | ⟨h1, _⟩
      · rw [h]; exact hold
      · rw [h1] at hold; cases hold
      · rw [h1] at hold
        exact absurd (Option.some.inj hold) hij

/-- The lock discipline holds in every state of every execution. -/
theorem CallbackLocks.position_lock_exec {T : Type} :
    ∀ (sched : List Nat) (s : CallbackLocks T), s.LockInv → (s.exec sched).LockInv := by
  intro sched
  induction sched with
  | nil => intro s h; exact h
  | cons i rest ih =>
    intro s h
    exact ih (s.step i) (CallbackLocks.position_lock_step s i h)

/-- While another thread holds `position_mutex`, an action of a thread that
does not hold it changes neither the lock nor `full`, `front`, `back`, the
contents of the ring or the number of pushed tasks. -/
theorem CallbackLocks.thread_step_blocked {T : Type} (s : CallbackLocks T) (j k : Nat)
    (pc : CallbackPc T) (hheld : s.position_mutex = some k) (hpc : pc.holdsPosition = false) :
    (s.thread_step j pc).1.position_mutex = s.position_mutex
    ∧ (s.thread_step j pc).1.input.full = s.input.full
    ∧ (s.thread_step j pc).1.input.front = s.input.front
    ∧ (s.thread_step j pc).1.input.back = s.input.back
    ∧ (s.thread_step j pc).1.input.queue = s.input.queue
    ∧ (s.thread_step j pc).1.tasks = s.tasks := by
  cases pc with
  | write_lock data => simp [CallbackLocks.thread_step, hheld]
  | write_spin data => simp [CallbackPc.holdsPosition] at hpc
  | write_place data => simp [CallbackPc.holdsPosition] at hpc
  | get_lock_mutex =>
    simp only [CallbackLocks.thread_step]
    split <;> simp
  | get_lock_position => simp [CallbackLocks.thread_step, hheld]
  | get_check => simp [CallbackPc.holdsPosition] at hpc
  | call p =>
    simp only [CallbackLocks.thread_step]
    split <;> simp
  | release_lock p =>
    simp only [CallbackLocks.thread_step]
    split
    · simp
    · simp [hheld]
  | release_body p => simp [CallbackPc.holdsPosition] at hpc
  | done => simp [CallbackLocks.thread_step]
  | faulted => simp [CallbackLocks.thread_step]

/-- A writer spinning on a set `full` stays so under every step of any thread,
and the ring stays as it is. -/
theorem CallbackLocks.stuck_step {T : Type} (s : CallbackLocks T) (i j : Nat) (data : T)
    (ring : CallbackInput T) (tasks : Nat) (hinv : s.LockInv)
    (hstuck : s.Stuck i data ring tasks) : (s.step j).Stuck i data ring tasks := by
  obtain ⟨hspin, hfull, hfront, hback, hqueue, htasks⟩ := hstuck
  have hheld : s.position_mutex = some i := hinv i _ hspin rfl
  cases hget : s.threads[j]? with
  | none =>
    have : s.step j = s := by simp only [CallbackLocks.step, hget]
    rw [this]; exact ⟨hspin, hfull, hfront, hback, hqueue, htasks⟩
  | some pc =>
    obtain ⟨hstep, hidx⟩ := CallbackLocks.step_get s j pc hget
    by_cases hji : j = i
    · subst hji
      rw [hspin] at hget
      cases hget
      have hts : s.thread_step j (.write_spin data) = (s, .write_spin data) := by
        simp [CallbackLocks.thread_step, hfull]
      refine ⟨?_, ?_, ?_, ?_, ?_, ?_⟩
      · rw [hidx j, hts]; simp
      all_goals (rw [hstep, hts]; assumption)
    · have hpc : pc.holdsPosition = false := by
        cases hh : pc.holdsPosition with
        | false => rfl
        | true =>
          have := hinv j pc hget hh
          rw [hheld] at this
          exact absurd (Option.some.inj this).symm hji
      obtain ⟨_, b1, b2, b3, b4, b5⟩ := CallbackLocks.thread_step_blocked s j i pc hheld hpc
      refine ⟨?_, ?_, ?_, ?_, ?_, ?_⟩
      · rw [hidx i]; simp [hji, hspin]
      · rw [hstep]; simp only; rw [b1, hfull]
      · rw [hstep]; simp only; rw [b2, hfront]
      · rw [hstep]; simp only; rw [b3, hback]
      · rw [hstep]; simp only; rw [b4, hqueue]
      · rw [hstep]; simp only; rw [b5, htasks]

/-- A writer spinning on a set `full` stays so along every execution. -/
theorem CallbackLocks.stuck_exec {T : Type} :
    ∀ (sched : List Nat) (s : CallbackLocks T) (i : Nat) (data : T) (ring : CallbackInput T)
      (tasks : Nat), s.LockInv → s.Stuck i data ring tasks →
      (s.exec sched).Stuck i data ring tasks ∧ (s.exec sched).LockInv := by
  intro sched
  induction sched with
  | nil => intro s i data ring tasks hinv hstuck; exact ⟨hstuck, hinv⟩
  | cons j rest ih =>
    intro s i data ring tasks hinv hstuck
    exact ih (s.step j) i data ring tasks (CallbackLocks.position_lock_step s j hinv)
      (CallbackLocks.stuck_step s i j data ring tasks hinv hstuck)

/-- A writer that acquires `position_mutex` while `full` is set is, after the
acquisition, spinning on a set `full` with the lock held, and the ring is as
it was. -/
theorem CallbackLocks.acquire_while_full {T : Type} (s : CallbackLocks T) (i : Nat) (data : T)
    (hpc : s.threads[i]? = some (.write_lock data)) (hfree : s.position_mutex = none)
    (hfull : s.input.full = true) :
    (s.step i).Stuck i data s.input s.tasks ∧ (s.step i).position_mutex = some i := by
  obtain ⟨hstep, hidx⟩ := CallbackLocks.step_get s i _ hpc
  have hts : s.thread_step i (.write_lock data)
      = ({ s with position_mutex := some i }, .write_spin data) := by
    simp [CallbackLocks.thread_step, hfree]
  refine ⟨⟨?_, ?_, ?_, ?_, ?_, ?_⟩, ?_⟩
  · rw [hidx i, hts]; simp
  all_goals (rw [hstep, hts]; try assumption)

/-- C12. In the lock-level model of `CallbackInput`, in every state reachable
from a freshly constructed input in which a writer is spinning in
`while (full);` with `full` set (it acquired `position_mutex` while `full` was
set and keeps it), every state reachable from there by any steps of any
threads still has `full` set, the same `front`, `back` and queue contents and
the same number of pushed `process` tasks; the writer is still spinning with
`position_mutex` held, so it never places its value. -/
theorem C12_full_writer_never_places {T : Type} (n : Nat) (init : T)
    (threads : List (CallbackThread T)) (pre post : List Nat) (i : Nat) (data : T)
    (hspin : ((CallbackLocks.create n init threads).exec pre).threads[i]?
        = some (.write_spin data))
    (hfull : ((CallbackLocks.create n init threads).exec pre).input.full = true) :
    (((CallbackLocks.create n init threads).exec pre).exec post).input.full = true
    ∧ (((CallbackLocks.create n init threads).exec pre).exec post).input.front
        = ((CallbackLocks.create n init threads).exec pre).input.front
    ∧ (((CallbackLocks.create n init threads).exec pre).exec post).input.back
        = ((CallbackLocks.create n init threads).exec pre).input.back
    ∧ (((CallbackLocks.create n init threads).exec pre).exec post).input.queue
        = ((CallbackLocks.create n init threads).exec pre).input.queue
    ∧ (((CallbackLocks.create n init threads).exec pre).exec post).tasks
        = ((CallbackLocks.create n init threads).exec pre).tasks
    ∧ (((CallbackLocks.create n init threads).exec pre).exec post).threads[i]?
        = some (.write_spin data)
    ∧ (((CallbackLocks.create n init threads).exec pre).exec post).position_mutex = some i := by
  have hinv := CallbackLocks.position_lock_exec pre _ (CallbackLocks.position_lock_create n init threads)
  generalize (CallbackLocks.create n init threads).exec pre = s at hspin hfull hinv
  obtain ⟨⟨h1, h2, h3, h4, h5, h6⟩, hinv2⟩ :=
    CallbackLocks.stuck_exec post s i data s.input s.tasks hinv ⟨hspin, hfull, rfl, rfl, rfl, rfl⟩
  exact ⟨h2, h3, h4, h5, h6, h1, hinv2 i _ h1 rfl⟩

/-- Witness for C12: a ring of capacity 1, two writers and one `process` task.
The first writer fills the ring, the second acquires `position_mutex` and
spins; whatever the threads do next (`stuckSuffix`), the ring still holds only
the first value and `full` is set. -/
theorem C12_full_writer_never_places_witness :
    ((CallbackLocks.create 1 0 stuckThreads).exec stuckPrefix).threads[1]?
        = some (.write_spin 20)
    ∧ (((CallbackLocks.create 1 0 stuckThreads).exec stuckPrefix).exec stuckSuffix).input.full
        = true
    ∧ (((CallbackLocks.create 1 0 stuckThreads).exec stuckPrefix).exec stuckSuffix).input.queue
        = ((CallbackLocks.create 1 0 stuckThreads).exec stuckPrefix).input.queue
    ∧ ((CallbackLocks.create 1 0 stuckThreads).exec stuckPrefix).input.queue = [10] :=
  ⟨by decide,
   (C12_full_writer_never_places 1 0 stuckThreads stuckPrefix stuckSuffix 1 20
      (by decide) (by decide)).1,
   (C12_full_writer_never_places 1 0 stuckThreads stuckPrefix stuckSuffix 1 20
      (by decide) (by decide)).2.2.2.1,
   by decide⟩

end Flow
